import Mathlib

set_option maxHeartbeats 1000000
set_option maxRecDepth 16000

/-!
Shallow embedding of the voxel-engine meshing core: voxel chunks, the greedy
mesher, the bucket-based GPU memory allocator, the chunk-index table, the mesh
manager and the task scheduler, together with proofs of the specified
properties.  Machine integers of the source (usize, u32, u64, i32, u8) are
modelled as Nat or Int; Rust Vec and VecDeque as List; HashMap as an
association list.
-/

/-- Chunk world position, `cgmath::Point3<i32>`. -/
structure Point3i where
  x : Int
  y : Int
  z : Int
deriving DecidableEq, Repr

/-- Face corner point in chunk-local space, `cgmath::Point3<usize>`. -/
structure Point3n where
  x : Nat
  y : Nat
  z : Nat
deriving DecidableEq, Repr

/-- The six faces of a voxel block (`BlockSide`), discriminants 0..5. -/
inductive BlockSide where
  | FRONT
  | BACK
  | BOTTOM
  | TOP
  | LEFT
  | RIGHT
deriving DecidableEq, Repr

/-- `BlockSide::all()`: all six sides in declaration order. -/
def BlockSide.all : List BlockSide :=
  [.FRONT, .BACK, .BOTTOM, .TOP, .LEFT, .RIGHT]

/-- The block types of the game (`BlockType`), discriminants 0..4. -/
inductive BlockType where
  | AIR
  | DIRT
  | GRASS
  | WOOD
  | WHITE
deriving DecidableEq, Repr

/-- The `BlockTypeSize` (u8) discriminant of a block type. -/
def BlockType.toInt : BlockType → Nat
  | .AIR => 0
  | .DIRT => 1
  | .GRASS => 2
  | .WOOD => 3
  | .WHITE => 4

/-- A voxel block: just its type stored as the compact u8 discriminant. -/
structure Block where
  block_type : Nat
deriving DecidableEq, Repr

/-- `Block::new`. -/
def Block.new (bt : BlockType) : Block :=
  ⟨bt.toInt⟩

/-- A GPU vertex (`Vertex`).  The two `f32` texture coordinates of the source
are exact images of u8 values, so they are stored as the byte values. -/
structure Vertex where
  x : Int
  y : Int
  z : Int
  texture_index : Nat
  tex_u : Nat
  tex_v : Nat
  chunk_coordinate_index : Nat
deriving DecidableEq, Repr

/-- `Vertex::new`. -/
def Vertex.new (pos : Point3i) (texture_index : Nat) (u v : Nat)
    (chunk_coordinate_index : Nat) : Vertex :=
  ⟨pos.x, pos.y, pos.z, texture_index, u, v, chunk_coordinate_index⟩

/-- `wgpu::util::DrawIndexedIndirectArgs`: five 32-bit fields. -/
structure DrawIndexedIndirectArgs where
  index_count : Nat
  instance_count : Nat
  first_index : Nat
  base_vertex : Int
  first_instance : Nat
deriving DecidableEq, Repr

/-- Payload of a buffer write command (the type-erased `data` box). -/
inductive WriteData where
  | vertexData (vs : List Vertex)
  | indexData (idxs : List Nat)
  | indirectData (args : DrawIndexedIndirectArgs)
  | chunkCoordData (xs : List Int)
deriving DecidableEq, Repr

/-- `BufferWriteCommand` (the debug-only `name` string is omitted). -/
structure BufferWriteCommand where
  buffer_name : String
  offset : Nat
  data : WriteData
deriving DecidableEq, Repr

/-- Rust `u64::div_ceil`. -/
def rustDivCeil (a b : Nat) : Nat :=
  (a + b - 1) / b

/-! ### Bucket allocator (`bucket_manager.rs`) -/

/-- Size of a `Vertex` in bytes (7 32-bit fields = 28). -/
def VERTEX_SIZE : Nat := 28

/-- `MeshBucketManager::NUM_BUCKETS_PER_BUFFER`. -/
def NUM_BUCKETS_PER_BUFFER : Nat := 2048

/-- `MeshBucketManager::NUM_VERTICES_PER_BUCKET`. -/
def NUM_VERTICES_PER_BUCKET : Nat := 1024

/-- `MeshBucketManager::NUM_INDICES_PER_BUCKET` = 1024*3/2. -/
def NUM_INDICES_PER_BUCKET : Nat := NUM_VERTICES_PER_BUCKET * 3 / 2

/-- `MeshBucketManager::VERTEX_BUCKET_SIZE`. -/
def VERTEX_BUCKET_SIZE : Nat := NUM_VERTICES_PER_BUCKET * VERTEX_SIZE

/-- `MeshBucketManager::INDEX_BUCKET_SIZE`. -/
def INDEX_BUCKET_SIZE : Nat := NUM_INDICES_PER_BUCKET * 4

/-- Size of `DrawIndexedIndirectArgs` in bytes. -/
def INDIRECT_ARGS_SIZE : Nat := 20

/-- A bucket location (`BucketLocation`). -/
structure BucketLocation where
  buffer_number : Nat
  vertex_buffer_offset : Nat
  index_buffer_offset : Nat
  indirect_bucket_index : Nat
  side : BlockSide
deriving DecidableEq, Repr

/-- `MeshBucketManager`: a free queue per side plus the chunk-ownership map. -/
structure MeshBucketManager where
  available_buckets : BlockSide → List BucketLocation
  chunk_position_to_used_buckets : List (Point3i × List BucketLocation)

/-- `MeshBucketManager::new`. -/
def MeshBucketManager.new (num_buffers_per_side : Nat) : MeshBucketManager :=
  { available_buckets := fun side =>
      (List.range num_buffers_per_side).flatMap (fun buffer_number =>
        (List.range NUM_BUCKETS_PER_BUFFER).map (fun bucket_index =>
          { buffer_number := buffer_number
            vertex_buffer_offset := bucket_index * VERTEX_BUCKET_SIZE
            index_buffer_offset := bucket_index * INDEX_BUCKET_SIZE
            indirect_bucket_index := bucket_index
            side := side }))
    chunk_position_to_used_buckets := [] }

/-- `MeshBucketManager::can_allocate_buckets`. -/
def MeshBucketManager.can_allocate_buckets (m : MeshBucketManager)
    (num_vertices_per_side : BlockSide → Nat) : Bool :=
  BlockSide.all.all (fun side =>
    rustDivCeil (num_vertices_per_side side) NUM_VERTICES_PER_BUCKET ≤
      (m.available_buckets side).length)

/-- The bucket-draining loop inside `allocate_buckets`: runs
`num_buckets_needed` times, each time popping one free bucket and draining at
most 1024 vertices and the matching 1.5x indices (rebased by the running
vertex offset).  `none` models the `pop_front().unwrap()` panic. -/
def allocLoop (avail : List BucketLocation) (remV : List Vertex)
    (remI : List Nat) (cur : Nat) :
    Nat → Option (List (BucketLocation × List Vertex × List Nat) × List BucketLocation)
  | 0 => some ([], avail)
  | n + 1 =>
    match avail with
    | [] => none
    | bucket :: rest =>
      let vc := min NUM_VERTICES_PER_BUCKET remV.length
      let ic := vc * 3 / 2
      let bucketVs := remV.take vc
      let bucketIs := (remI.take ic).map (fun x => x - cur)
      match allocLoop rest (remV.drop vc) (remI.drop ic) (cur + bucketVs.length) n with
      | none => none
      | some (acc, avail2) => some ((bucket, bucketVs, bucketIs) :: acc, avail2)

/-- Insert-or-extend on the chunk-ownership association list, mirroring the
`Entry::Vacant` / `get_mut().extend` branch of `allocate_buckets`. -/
def ownMapExtend (m : List (Point3i × List BucketLocation)) (p : Point3i)
    (bs : List BucketLocation) : List (Point3i × List BucketLocation) :=
  if (m.lookup p).isSome then
    m.map (fun e => if e.1 = p then (e.1, e.2 ++ bs) else e)
  else
    m ++ [(p, bs)]

/-- `MeshBucketManager::allocate_buckets`.  `none` models the assert failure
on a bad index/vertex length relation or running out of free buckets. -/
def MeshBucketManager.allocate_buckets (m : MeshBucketManager)
    (chunk_position : Point3i) (vertex_vec : List Vertex) (index_vec : List Nat)
    (side : BlockSide) :
    Option (List (BucketLocation × List Vertex × List Nat) × MeshBucketManager) :=
  if index_vec.length ≠ vertex_vec.length * 3 / 2 then none
  else
    let num_buckets_needed := rustDivCeil vertex_vec.length NUM_VERTICES_PER_BUCKET
    match allocLoop (m.available_buckets side) vertex_vec index_vec 0 num_buckets_needed with
    | none => none
    | some (allocated, avail2) =>
      let used := allocated.map (fun t => t.1)
      some (allocated,
        { available_buckets := fun s => if s = side then avail2 else m.available_buckets s
          chunk_position_to_used_buckets :=
            ownMapExtend m.chunk_position_to_used_buckets chunk_position used })

/-- Return one deallocated bucket to the free queue of its own side
(the `push_back` in the inner loop of `deallocate_buckets`). -/
def pushBucketBack (avail : BlockSide → List BucketLocation) (b : BucketLocation) :
    BlockSide → List BucketLocation :=
  fun s => if s = b.side then avail s ++ [b] else avail s

/-- Body of the `deallocate_buckets` loop: return one chunk's buckets to
their sides' free queues and drop the ownership record. -/
def deallocStep (acc : List BucketLocation × MeshBucketManager) (p : Point3i) :
    List BucketLocation × MeshBucketManager :=
  let (deallocated, st) := acc
  match st.chunk_position_to_used_buckets.lookup p with
  | none => (deallocated, st)
  | some bs =>
    (deallocated ++ bs,
      { available_buckets := bs.foldl pushBucketBack st.available_buckets
        chunk_position_to_used_buckets :=
          st.chunk_position_to_used_buckets.filter (fun e => ¬ e.1 = p) })

/-- `MeshBucketManager::deallocate_buckets`. -/
def MeshBucketManager.deallocate_buckets (m : MeshBucketManager)
    (chunk_positions : List Point3i) : List BucketLocation × MeshBucketManager :=
  chunk_positions.foldl deallocStep ([], m)

/-- `MeshBucketManager::is_chunk_allocated`. -/
def MeshBucketManager.is_chunk_allocated (m : MeshBucketManager)
    (chunk_position : Point3i) : Bool :=
  (m.chunk_position_to_used_buckets.lookup chunk_position).isSome

/-! ### Chunk index table (`chunk_index_state.rs`) -/

/-- `RENDER_DISTANCE` (engine_state/mod.rs). -/
def RENDER_DISTANCE : Nat := 2

/-- `WORLD_DIMENSION = (R*2+1)^3 * 2`. -/
def WORLD_DIMENSION : Nat :=
  (RENDER_DISTANCE * 2 + 1) * (RENDER_DISTANCE * 2 + 1) * (RENDER_DISTANCE * 2 + 1) * 2

/-- Name of the chunk index buffer. -/
def CHUNK_INDEX_BUFFER_NAME : String := "chunk_index_buffer"

/-- `ChunkIndexState`: position-to-slot map plus the free-slot queue. -/
structure ChunkIndexState where
  chunk_position_to_gpu_index : List (Point3i × Nat)
  available_chunk_indices : List Nat
deriving Repr

/-- `ChunkIndexState::new` (the GPU buffer creation side effect is external). -/
def ChunkIndexState.new : ChunkIndexState :=
  { chunk_position_to_gpu_index := []
    available_chunk_indices := List.range WORLD_DIMENSION }

/-- `HashMap::insert` on the association list: overwrite or append. -/
def idxMapInsert (m : List (Point3i × Nat)) (p : Point3i) (v : Nat) :
    List (Point3i × Nat) :=
  if (m.lookup p).isSome then
    m.map (fun e => if e.1 = p then (e.1, v) else e)
  else
    m ++ [(p, v)]

/-- `ChunkIndexState::unload_chunk_positions`. -/
def ChunkIndexState.unload_chunk_positions (st : ChunkIndexState)
    (chunk_positions : List Point3i) : ChunkIndexState :=
  chunk_positions.foldl
    (fun st pos =>
      match st.chunk_position_to_gpu_index.lookup pos with
      | none => st
      | some available_index =>
        { chunk_position_to_gpu_index :=
            st.chunk_position_to_gpu_index.filter (fun e => ¬ e.1 = pos)
          available_chunk_indices := st.available_chunk_indices ++ [available_index] })
    st

/-- Body of the `load_chunk_positions` loop: pop a fresh slot, record the
mapping, and emit the chunk-coordinate write; `none` models the
`pop_front().unwrap()` panic on an exhausted slot queue. -/
def cisLoadStep (acc : Option (List BufferWriteCommand × ChunkIndexState))
    (pos : Point3i) : Option (List BufferWriteCommand × ChunkIndexState) :=
  match acc with
  | none => none
  | some (commands, st) =>
    match st.available_chunk_indices with
    | [] => none
    | index :: rest =>
      some (commands ++
          [{ buffer_name := CHUNK_INDEX_BUFFER_NAME
             offset := index * (3 * 4)
             data := .chunkCoordData [pos.x, pos.y, pos.z] }],
        { chunk_position_to_gpu_index :=
            idxMapInsert st.chunk_position_to_gpu_index pos index
          available_chunk_indices := rest })

/-- `ChunkIndexState::load_chunk_positions`. -/
def ChunkIndexState.load_chunk_positions (st : ChunkIndexState)
    (chunk_positions : List Point3i) :
    Option (List BufferWriteCommand × ChunkIndexState) :=
  chunk_positions.foldl cisLoadStep (some ([], st))

/-- `ChunkIndexState::can_allocate_index`. -/
def ChunkIndexState.can_allocate_index (st : ChunkIndexState) : Bool :=
  !st.available_chunk_indices.isEmpty

/-- `ChunkIndexState::get_index_for_position`; `none` models the unwrap panic. -/
def ChunkIndexState.get_index_for_position (st : ChunkIndexState)
    (chunk_position : Point3i) : Option Nat :=
  st.chunk_position_to_gpu_index.lookup chunk_position

/-! ### Mesh container (`mesh/mesh.rs`), data part -/

/-- One side's vertex/index lists (`MeshSide`). -/
structure MeshSide where
  vertices : List Vertex
  indices : List Nat
  len : Nat
  side : BlockSide
deriving DecidableEq, Repr

/-- `MeshSide::new`. -/
def MeshSide.new (side : BlockSide) : MeshSide :=
  { vertices := [], indices := [], len := 0, side := side }

/-- A chunk mesh: the array of six `MeshSide`s, indexed here by the side. -/
structure Mesh where
  mesh : BlockSide → MeshSide

/-- `Mesh::new`. -/
def Mesh.new : Mesh :=
  ⟨fun side => MeshSide.new side⟩

/-- `Mesh::add_vertices`: appends per-side vertices and rebased indices. -/
def Mesh.add_vertices (m : Mesh) (block_vertices : BlockSide → List Vertex)
    (block_indices : BlockSide → List Nat) : Mesh :=
  ⟨fun s =>
    let cur := m.mesh s
    let current_vertices_len := cur.vertices.length
    let new_indices := (block_indices s).map (fun e => e + current_vertices_len)
    { vertices := cur.vertices ++ block_vertices s
      indices := cur.indices ++ new_indices
      len := cur.len + (cur.indices ++ new_indices).length
      side := cur.side }⟩

/-- `Mesh::get_vertex_lens`. -/
def Mesh.get_vertex_lens (m : Mesh) : BlockSide → Nat :=
  fun s => (m.mesh s).vertices.length

/-! ### LRU cache (`lru::LruCache<Point3<i32>, ()>`) -/

/-- A bounded LRU cache of chunk positions, most recent first. -/
structure LruCache where
  cap : Nat
  entries : List Point3i
deriving Repr

/-- `LruCache::push`: insert or promote; evicts the LRU entry when a new key
arrives at capacity. -/
def LruCache.push (c : LruCache) (p : Point3i) : LruCache :=
  if p ∈ c.entries then
    { c with entries := p :: c.entries.erase p }
  else if c.entries.length = c.cap then
    { c with entries := p :: c.entries.dropLast }
  else
    { c with entries := p :: c.entries }

/-- `LruCache::pop_lru`: remove and return the least recently used entry. -/
def LruCache.pop_lru (c : LruCache) : Option (Point3i × LruCache) :=
  match c.entries.getLast? with
  | none => none
  | some q => some (q, { c with entries := c.entries.dropLast })

/-- `LruCache::promote`: move an existing key to most-recently-used. -/
def LruCache.promote (c : LruCache) (p : Point3i) : LruCache :=
  if p ∈ c.entries then { c with entries := p :: c.entries.erase p } else c

/-! ### Mesh manager (`meshing/mod.rs`) -/

/-- `MeshManager::NUM_BUFFERS_PER_SIDE`. -/
def NUM_BUFFERS_PER_SIDE : Nat := 1

/-- `MeshManager::get_vertex_buffer_name`. -/
def get_vertex_buffer_name : BlockSide → String
  | .FRONT => "Vertex Buffer Front"
  | .BACK => "Vertex Buffer Back"
  | .BOTTOM => "Vertex Buffer Bottom"
  | .TOP => "Vertex Buffer Top"
  | .LEFT => "Vertex Buffer Left"
  | .RIGHT => "Vertex Buffer Right"

/-- `MeshManager::get_index_buffer_name`. -/
def get_index_buffer_name : BlockSide → String
  | .FRONT => "Index Buffer Front"
  | .BACK => "Index Buffer Back"
  | .BOTTOM => "Index Buffer Bottom"
  | .TOP => "Index Buffer Top"
  | .LEFT => "Index Buffer Left"
  | .RIGHT => "Index Buffer Right"

/-- `MeshManager::get_indirect_buffer_name`. -/
def get_indirect_buffer_name : BlockSide → String
  | .FRONT => "Indirect Buffer Front"
  | .BACK => "Indirect Buffer Back"
  | .BOTTOM => "Indirect Buffer Bottom"
  | .TOP => "Indirect Buffer Top"
  | .LEFT => "Indirect Buffer Left"
  | .RIGHT => "Indirect Buffer Right"

/-- `MeshManager` state. -/
structure MeshManager where
  bucket_manager : MeshBucketManager
  chunk_index_state : ChunkIndexState
  least_recently_meshed_chunks : LruCache

/-- `MeshManager::new` (GPU buffer setup is an external side effect). -/
def MeshManager.new : MeshManager :=
  { bucket_manager := MeshBucketManager.new NUM_BUFFERS_PER_SIDE
    chunk_index_state := ChunkIndexState.new
    least_recently_meshed_chunks := { cap := 10000, entries := [] } }

/-- `MeshManager::unload_chunk_positions`: free index slots and buckets, and
emit a zero-draw indirect record for every freed bucket. -/
def MeshManager.unload_chunk_positions (m : MeshManager)
    (chunk_positions : List Point3i) : List BufferWriteCommand × MeshManager :=
  let cis := m.chunk_index_state.unload_chunk_positions chunk_positions
  let (buckets_deallocated, bm) := m.bucket_manager.deallocate_buckets chunk_positions
  let index_count := NUM_INDICES_PER_BUCKET
  let write_commands := buckets_deallocated.map (fun bucket =>
    { buffer_name := get_indirect_buffer_name bucket.side
      offset := bucket.indirect_bucket_index * INDIRECT_ARGS_SIZE
      data := .indirectData
        { index_count := 0
          instance_count := 0
          first_index := bucket.indirect_bucket_index * index_count
          base_vertex := (bucket.indirect_bucket_index * NUM_VERTICES_PER_BUCKET : Nat)
          first_instance := 0 } })
  (write_commands,
    { bucket_manager := bm
      chunk_index_state := cis
      least_recently_meshed_chunks := m.least_recently_meshed_chunks })

/-- The `while`-evict loop of `prepare_mesh_for_write`: while either capacity
check fails, pop the least-recently-meshed chunk and unload it.  `none`
models the `pop_lru().unwrap()` panic on an empty recency cache (the fuel
argument only bounds recursion; the caller passes enough fuel that it can
never be the cause of a `none`). -/
def evictLoop (m : MeshManager) (vertex_lens : BlockSide → Nat)
    (acc : List BufferWriteCommand) :
    Nat → Option (List BufferWriteCommand × MeshManager)
  | 0 => none
  | fuel + 1 =>
    if m.bucket_manager.can_allocate_buckets vertex_lens ∧
        m.chunk_index_state.can_allocate_index then
      some (acc, m)
    else
      match m.least_recently_meshed_chunks.pop_lru with
      | none => none
      | some (lru_chunk_position, lru2) =>
        let m1 := { m with least_recently_meshed_chunks := lru2 }
        let (unload_commands, m2) := m1.unload_chunk_positions [lru_chunk_position]
        evictLoop m2 vertex_lens (acc ++ unload_commands) fuel

/-- The three buffer writes emitted for one allocated bucket: vertex payload,
rebased index payload, and the live indirect-draw record. -/
def bucketWriteCommands (side : BlockSide)
    (t : BucketLocation × List Vertex × List Nat) : List BufferWriteCommand :=
  let (bucket, vertices, indices) := t
  [ { buffer_name := get_vertex_buffer_name side
      offset := bucket.vertex_buffer_offset
      data := .vertexData vertices },
    { buffer_name := get_index_buffer_name side
      offset := bucket.index_buffer_offset
      data := .indexData indices },
    { buffer_name := get_indirect_buffer_name side
      offset := bucket.indirect_bucket_index * INDIRECT_ARGS_SIZE
      data := .indirectData
        { index_count := indices.length
          instance_count := 1
          first_index := bucket.indirect_bucket_index * NUM_INDICES_PER_BUCKET
          base_vertex := (bucket.indirect_bucket_index * NUM_VERTICES_PER_BUCKET : Nat)
          first_instance := 0 } } ]

/-- The per-side loop of `prepare_mesh_for_write`: skip empty sides, allocate
buckets for the rest and emit the three write commands per bucket. -/
def prepareSides (bm : MeshBucketManager) (chunk_position : Point3i) :
    List MeshSide → Option (List BufferWriteCommand × MeshBucketManager)
  | [] => some ([], bm)
  | side_mesh :: rest =>
    if side_mesh.vertices.isEmpty then prepareSides bm chunk_position rest
    else
      match bm.allocate_buckets chunk_position side_mesh.vertices side_mesh.indices
          side_mesh.side with
      | none => none
      | some (buckets, bm2) =>
        match prepareSides bm2 chunk_position rest with
        | none => none
        | some (cmds, bm3) =>
          some (buckets.flatMap (bucketWriteCommands side_mesh.side) ++ cmds, bm3)

/-- `MeshManager::prepare_mesh_for_write`. -/
def MeshManager.prepare_mesh_for_write (m : MeshManager)
    (chunk_position : Point3i) (mesh : Mesh) :
    Option (List BufferWriteCommand × MeshManager) :=
  let vertex_lens := mesh.get_vertex_lens
  match evictLoop m vertex_lens []
      (m.least_recently_meshed_chunks.entries.length + 1) with
  | none => none
  | some (write_commands, m1) =>
    let m2 := { m1 with least_recently_meshed_chunks :=
        m1.least_recently_meshed_chunks.push chunk_position }
    match prepareSides m2.bucket_manager chunk_position
        (BlockSide.all.map mesh.mesh) with
    | none => none
    | some (cmds, bm) =>
      some (write_commands ++ cmds, { m2 with bucket_manager := bm })

/-- `MeshManager::is_chunk_meshed` (also promotes recency on a hit). -/
def MeshManager.is_chunk_meshed (m : MeshManager) (chunk_position : Point3i) :
    Bool × MeshManager :=
  let is_chunk_allocated := m.bucket_manager.is_chunk_allocated chunk_position
  (is_chunk_allocated,
    if is_chunk_allocated then
      { m with least_recently_meshed_chunks :=
          m.least_recently_meshed_chunks.promote chunk_position }
    else m)

/-! ### Voxel chunk (`voxels/chunk/mod.rs`) -/

/-- `CHUNK_DIMENSION`. -/
def CHUNK_DIMENSION : Nat := 16

/-- `CHUNK_PLANE_SIZE`. -/
def CHUNK_PLANE_SIZE : Nat := CHUNK_DIMENSION * CHUNK_DIMENSION

/-- `CHUNK_SIZE`. -/
def CHUNK_SIZE : Nat := CHUNK_PLANE_SIZE * CHUNK_DIMENSION

/-- `CHUNK_DIMENSION_WRAPPED`. -/
def CHUNK_DIMENSION_WRAPPED : Nat := CHUNK_DIMENSION + 2

/-- `CHUNK_PLANE_SIZE_WRAPPED`. -/
def CHUNK_PLANE_SIZE_WRAPPED : Nat := CHUNK_DIMENSION_WRAPPED * CHUNK_DIMENSION_WRAPPED

/-- `CHUNK_SIZE_WRAPPED`. -/
def CHUNK_SIZE_WRAPPED : Nat := CHUNK_PLANE_SIZE_WRAPPED * CHUNK_DIMENSION_WRAPPED

/-- A voxel chunk: padded solidity bitset plus the dense non-air block list. -/
structure Chunk where
  position : Point3i
  solid_array : List Bool
  offsets_at_plane : List Nat
  blocks : List Block

/-- `Chunk::is_block_solid` (out-of-range reads, which cannot occur in a
chunk built by the creation iterator, read as `false`). -/
def Chunk.is_block_solid (c : Chunk) (cx cy cz : Nat) : Bool :=
  c.solid_array.getD (cx + CHUNK_DIMENSION_WRAPPED * cy + CHUNK_PLANE_SIZE_WRAPPED * cz) false

/-- `Chunk::generate_adjacent_blocks`: for each side, whether the neighbor on
that side is solid ([bool; 6] modelled as a function of the side). -/
def Chunk.generate_adjacent_blocks (c : Chunk) (x y z : Nat) : BlockSide → Bool :=
  let i := x + 1
  let j := y + 1
  let k := z + 1
  fun side =>
    match side with
    | .FRONT => c.is_block_solid (i - 1) j k
    | .BACK => c.is_block_solid (i + 1) j k
    | .LEFT => c.is_block_solid i j (k - 1)
    | .RIGHT => c.is_block_solid i j (k + 1)
    | .TOP => c.is_block_solid i (j + 1) k
    | .BOTTOM => c.is_block_solid i (j - 1) k

/-! ### Chunk creation (`chunk_creation.rs`) -/

/-- `ChunkCreationIterator` builder state. -/
structure ChunkCreationIterator where
  position : Point3i
  solid_array : List Bool
  offsets_at_plane : List Nat
  blocks : List Block
  local_x : Nat
  local_y : Nat
  local_z : Nat
  block_offset : Nat

/-- `ChunkCreationIterator::new`: initial padding for the first plane, first
row and first column. -/
def ChunkCreationIterator.new (position : Point3i) : ChunkCreationIterator :=
  { position := position
    solid_array :=
      List.replicate (CHUNK_PLANE_SIZE_WRAPPED + CHUNK_DIMENSION_WRAPPED + 1) false
    offsets_at_plane := []
    blocks := []
    local_x := 1
    local_y := 1
    local_z := 1
    block_offset := 0 }

/-- `ChunkCreationIterator::return_chunk`. -/
def ChunkCreationIterator.return_chunk (s : ChunkCreationIterator) : Chunk :=
  { position := s.position
    solid_array := s.solid_array
    offsets_at_plane := s.offsets_at_plane
    blocks := s.blocks }

/-- `ChunkCreationIterator::push_block_type`. -/
def ChunkCreationIterator.push_block_type (s : ChunkCreationIterator)
    (block_type : BlockType) : ChunkCreationIterator :=
  let is_solid := block_type ≠ BlockType.AIR
  let s1 := { s with
    solid_array := s.solid_array ++ [decide is_solid]
    blocks := if is_solid then s.blocks ++ [Block.new block_type] else s.blocks
    block_offset := if is_solid then s.block_offset + 1 else s.block_offset
    local_x := s.local_x + 1 }
  if s1.local_x = CHUNK_DIMENSION_WRAPPED - 1 then
    let s2 := { s1 with
      solid_array := s1.solid_array ++ [false, false]
      local_x := 1
      local_y := s1.local_y + 1 }
    if s2.local_y = CHUNK_DIMENSION_WRAPPED - 1 then
      let s3 := { s2 with
        offsets_at_plane := s2.offsets_at_plane ++ [s2.block_offset]
        solid_array := s2.solid_array ++ List.replicate (2 * CHUNK_DIMENSION_WRAPPED) false
        local_y := 1
        local_z := s2.local_z + 1 }
      if s3.local_z = CHUNK_DIMENSION_WRAPPED - 1 then
        { s3 with solid_array := s3.solid_array ++
            List.replicate (CHUNK_PLANE_SIZE_WRAPPED - CHUNK_DIMENSION_WRAPPED - 1) false }
      else s3
    else s2
  else s1

/-- Build a chunk by pushing a list of block types through the creation
iterator (the pattern of `Chunk::empty` / `solid` / `perlin` …). -/
def chunkFromBlockTypes (position : Point3i) (bts : List BlockType) : Chunk :=
  (bts.foldl ChunkCreationIterator.push_block_type
    (ChunkCreationIterator.new position)).return_chunk

/-! ### Chunk iteration (`chunk_iteration.rs`) -/

/-- `ChunkBlockIterator` cursor state (the chunk reference is passed
separately). -/
structure ChunkBlockIterator where
  current_solid_offset : Nat
  current_block_offset : Nat
  local_x : Nat
  local_y : Nat
  local_z : Nat
deriving DecidableEq, Repr

/-- `ChunkBlockIterator::new`. -/
def ChunkBlockIterator.new : ChunkBlockIterator :=
  { current_solid_offset := 1 + CHUNK_DIMENSION_WRAPPED + CHUNK_PLANE_SIZE_WRAPPED
    current_block_offset := 0
    local_x := 1
    local_y := 1
    local_z := 1 }

/-- The row/plane/chunk boundary bookkeeping of `get_next_block`, shared by
the entry check and the scan loop body; `none` is the end-of-chunk return. -/
def cbiBoundaryFix (s : ChunkBlockIterator) : Option ChunkBlockIterator :=
  if s.local_x = CHUNK_DIMENSION_WRAPPED - 1 then
    let s1 := { s with
      current_solid_offset := s.current_solid_offset + 2
      local_x := 1
      local_y := s.local_y + 1 }
    if s1.local_y = CHUNK_DIMENSION_WRAPPED - 1 then
      let s2 := { s1 with
        current_solid_offset := s1.current_solid_offset + 2 * CHUNK_DIMENSION_WRAPPED
        local_y := 1
        local_z := s1.local_z + 1 }
      if s2.local_z = CHUNK_DIMENSION_WRAPPED - 1 then none
      else some s2
    else some s1
  else some s

/-- The air-skipping scan loop of `get_next_block`.  Fuel only bounds the
recursion; the caller passes more fuel than the loop can consume. -/
def cbiScanLoop (c : Chunk) (s : ChunkBlockIterator) :
    Nat → Option ChunkBlockIterator
  | 0 => none
  | fuel + 1 =>
    if s.current_solid_offset < c.solid_array.length ∧
        ¬ c.solid_array.getD s.current_solid_offset false then
      let s1 := { s with
        local_x := s.local_x + 1
        current_solid_offset := s.current_solid_offset + 1 }
      match cbiBoundaryFix s1 with
      | none => none
      | some s2 => cbiScanLoop c s2 fuel
    else some s

/-- `ChunkBlockIterator::get_next_block`. -/
def Chunk.get_next_block (c : Chunk) (s : ChunkBlockIterator) :
    Option ((Point3n × Block) × ChunkBlockIterator) :=
  if c.blocks.length ≤ s.current_block_offset then none
  else
    match cbiBoundaryFix s with
    | none => none
    | some s1 =>
      match cbiScanLoop c s1 (c.solid_array.length + 1) with
      | none => none
      | some s2 =>
        match c.blocks.get? s2.current_block_offset with
        | none => none
        | some block =>
          some (((⟨s2.local_x - 1, s2.local_y - 1, s2.local_z - 1⟩ : Point3n), block),
            { s2 with
              current_block_offset := s2.current_block_offset + 1
              current_solid_offset := s2.current_solid_offset + 1
              local_x := s2.local_x + 1 })

/-- Drain the iterator (the `while let Some(..) = cbi.get_next_block()`
pattern of `greedy_sided`). -/
def chunkBlocksAux (c : Chunk) (s : ChunkBlockIterator) :
    Nat → List (Point3n × Block)
  | 0 => []
  | fuel + 1 =>
    match c.get_next_block s with
    | none => []
    | some (pb, s2) => pb :: chunkBlocksAux c s2 fuel

/-- The full sequence of (position, block) pairs yielded by the iterator. -/
def Chunk.blockList (c : Chunk) : List (Point3n × Block) :=
  chunkBlocksAux c ChunkBlockIterator.new (c.blocks.length + 1)

/-- Whether the `n`-th pushed block type is solid (non-air). -/
def solidBit (bts : List BlockType) (n : Nat) : Bool :=
  decide (¬ bts.getD n BlockType.AIR = BlockType.AIR)

/-- The padded-bitset index of cell `n` of the scan order: cell
`(n % 16, n / 16 % 16, n / 256)` shifted by one into the padding shell. -/
def bitIndex (n : Nat) : Nat :=
  (n % CHUNK_DIMENSION + 1) +
    CHUNK_DIMENSION_WRAPPED * (n / CHUNK_DIMENSION % CHUNK_DIMENSION + 1) +
    CHUNK_PLANE_SIZE_WRAPPED * (n / CHUNK_PLANE_SIZE + 1)

/-- Number of solid cells among the first `m` pushed block types. -/
def nsolid (bts : List BlockType) (m : Nat) : Nat :=
  ((bts.take m).filter (fun b => ¬ b = BlockType.AIR)).length

/-- The padding bits the creation iterator appends right after pushing its
`k`-th bit: row padding at the end of each row, plane padding at the end of
each plane, and the closing shell after the last cell. -/
def cellPad (k : Nat) : List Bool :=
  (if k % CHUNK_DIMENSION = 0 then [false, false] else []) ++
  (if k % CHUNK_PLANE_SIZE = 0 then
    List.replicate (2 * CHUNK_DIMENSION_WRAPPED) false else []) ++
  (if k = CHUNK_SIZE then
    List.replicate (CHUNK_PLANE_SIZE_WRAPPED - CHUNK_DIMENSION_WRAPPED - 1) false
   else [])

/-- Closed form of the part of the solidity bitset built by the first `m`
pushes (everything after the initial padding). -/
def saBody (bts : List BlockType) : Nat → List Bool
  | 0 => []
  | m + 1 => saBody bts m ++ [solidBit bts m] ++ cellPad (m + 1)

/-- Closed form of the whole solidity bitset after `m` pushes. -/
def saFull (bts : List BlockType) (m : Nat) : List Bool :=
  List.replicate (CHUNK_PLANE_SIZE_WRAPPED + CHUNK_DIMENSION_WRAPPED + 1) false ++
    saBody bts m

/-- The iterator cursor aligned at cell `n`: about to examine cell `n`, with
every earlier solid cell already consumed. -/
def cbiAligned (bts : List BlockType) (n : Nat) : ChunkBlockIterator :=
  { current_solid_offset := bitIndex n
    current_block_offset := nsolid bts n
    local_x := n % CHUNK_DIMENSION + 1
    local_y := n / CHUNK_DIMENSION % CHUNK_DIMENSION + 1
    local_z := n / CHUNK_PLANE_SIZE + 1 }

/-- The raw iterator cursor stored right after yielding (or skipping) cell
`n`, before any boundary bookkeeping. -/
def cbiRaw (bts : List BlockType) (n : Nat) : ChunkBlockIterator :=
  { current_solid_offset := bitIndex n + 1
    current_block_offset := nsolid bts (n + 1)
    local_x := n % CHUNK_DIMENSION + 2
    local_y := n / CHUNK_DIMENSION % CHUNK_DIMENSION + 1
    local_z := n / CHUNK_PLANE_SIZE + 1 }

/-- The scan-order listing of the solid cells from cell `n` on (`f` cells
examined), each paired with its block. -/
def scanOrderFrom (bts : List BlockType) (n : Nat) : Nat → List (Point3n × Block)
  | 0 => []
  | f + 1 =>
    (if solidBit bts n then
      [((⟨n % CHUNK_DIMENSION, n / CHUNK_DIMENSION % CHUNK_DIMENSION,
          n / CHUNK_PLANE_SIZE⟩ : Point3n), Block.new (bts.getD n BlockType.AIR))]
     else []) ++ scanOrderFrom bts (n + 1) f

/-! ### Faces (`mesh/face.rs`) -/

/-- A quad face: four corner points, block type and side. -/
structure Face where
  lr : Point3n
  ll : Point3n
  ur : Point3n
  ul : Point3n
  block_type_int : Nat
  block_side : BlockSide
deriving DecidableEq, Repr

/-- `Face::new`: the unit face of the voxel at (i,j,k) on the given side. -/
def Face.new (i j k : Nat) (block_type_int : Nat) (block_side : BlockSide) : Face :=
  match block_side with
  | .FRONT =>
    { ll := ⟨i, j, k⟩, lr := ⟨i, j, k + 1⟩, ul := ⟨i, j + 1, k⟩, ur := ⟨i, j + 1, k + 1⟩
      block_type_int := block_type_int, block_side := block_side }
  | .BACK =>
    { ll := ⟨i + 1, j, k + 1⟩, lr := ⟨i + 1, j, k⟩, ul := ⟨i + 1, j + 1, k + 1⟩
      ur := ⟨i + 1, j + 1, k⟩, block_type_int := block_type_int, block_side := block_side }
  | .BOTTOM =>
    { ll := ⟨i, j, k + 1⟩, lr := ⟨i, j, k⟩, ul := ⟨i + 1, j, k + 1⟩, ur := ⟨i + 1, j, k⟩
      block_type_int := block_type_int, block_side := block_side }
  | .TOP =>
    { ll := ⟨i, j + 1, k⟩, lr := ⟨i, j + 1, k + 1⟩, ul := ⟨i + 1, j + 1, k⟩
      ur := ⟨i + 1, j + 1, k + 1⟩, block_type_int := block_type_int, block_side := block_side }
  | .LEFT =>
    { ll := ⟨i + 1, j, k⟩, lr := ⟨i, j, k⟩, ul := ⟨i + 1, j + 1, k⟩, ur := ⟨i, j + 1, k⟩
      block_type_int := block_type_int, block_side := block_side }
  | .RIGHT =>
    { ll := ⟨i, j, k + 1⟩, lr := ⟨i + 1, j, k + 1⟩, ul := ⟨i, j + 1, k + 1⟩
      ur := ⟨i + 1, j + 1, k + 1⟩, block_type_int := block_type_int, block_side := block_side }

/-- `Face::merge_up`. -/
def Face.merge_up (f other : Face) : Option Face :=
  if f.block_type_int = other.block_type_int ∧ f.ul = other.ll ∧ f.ur = other.lr then
    some { ul := other.ul, ur := other.ur, ll := f.ll, lr := f.lr
           block_side := f.block_side, block_type_int := f.block_type_int }
  else none

/-- `Face::merge_right`. -/
def Face.merge_right (f other : Face) : Option Face :=
  if f.block_type_int = other.block_type_int ∧ f.lr = other.ll ∧ f.ur = other.ul then
    some { ul := f.ul, ur := other.ur, ll := f.ll, lr := other.lr
           block_side := f.block_side, block_type_int := f.block_type_int }
  else none

/-- `Face::merge_left`. -/
def Face.merge_left (f other : Face) : Option Face :=
  if f.block_type_int = other.block_type_int ∧ f.ll = other.lr ∧ f.ul = other.ur then
    some { ul := other.ul, ur := f.ur, ll := other.ll, lr := f.lr
           block_side := f.block_side, block_type_int := f.block_type_int }
  else none

/-! ### Greedy mesher (`mesh/greedy.rs`) -/

/-- `get_boundary_from_face`. -/
def get_boundary_from_face (face : Face) (is_y_merging : Bool) : Nat :=
  if is_y_merging then
    match face.block_side with
    | .FRONT => face.ul.y
    | .BACK => face.ul.y
    | .LEFT => face.ul.x
    | .RIGHT => face.ur.x
    | .TOP => face.ur.x
    | .BOTTOM => face.ur.x
  else
    match face.block_side with
    | .FRONT => face.ul.z
    | .BACK => face.ul.z
    | .LEFT => face.ul.z
    | .RIGHT => face.ul.z
    | .TOP => face.ul.x
    | .BOTTOM => face.ul.x

/-- The side-directed merge used by the cross-layer pass of
`greedy_merge_and_modify_vecs`. -/
def crossMergeOp (side : BlockSide) (before_face current_face : Face) : Option Face :=
  match side with
  | .FRONT => before_face.merge_right current_face
  | .BACK => before_face.merge_left current_face
  | .LEFT => before_face.merge_up current_face
  | .RIGHT => before_face.merge_up current_face
  | .TOP => before_face.merge_right current_face
  | .BOTTOM => before_face.merge_left current_face

/-- Inner `while` of the two-pointer merge: flush before-faces whose boundary
is below the current face's boundary.  Returns the flushed faces and the new
before-index. -/
def flushBeforeBelow (before : List Face) (bi : Nat) (current_boundary : Nat) :
    Nat → List Face × Nat
  | 0 => ([], bi)
  | fuel + 1 =>
    match before.get? bi with
    | none => ([], bi)
    | some bf =>
      if get_boundary_from_face bf true < current_boundary then
        let r := flushBeforeBelow before (bi + 1) current_boundary fuel
        (bf :: r.1, r.2)
      else ([], bi)

/-- Inner `while` of the two-pointer merge: skip current-faces whose boundary
is below the before face's boundary.  Returns the new current-index. -/
def skipCurrentBelow (current : List Face) (ci : Nat) (before_boundary : Nat) :
    Nat → Nat
  | 0 => ci
  | fuel + 1 =>
    match current.get? ci with
    | none => ci
    | some cf =>
      if get_boundary_from_face cf true < before_boundary then
        skipCurrentBelow current (ci + 1) before_boundary fuel
      else ci

/-- The two-pointer `while` loop of `greedy_merge_and_modify_vecs` for one
layer: walks the before and current lists, merging ties in place into the
current list and flushing unmatched before-faces.  Returns (flushed faces,
updated current list, final before index). -/
def mergeWhileLoop (side : BlockSide) (before : List Face) (current : List Face)
    (bi ci : Nat) : Nat → List Face × List Face × Nat
  | 0 => ([], current, bi)
  | fuel + 1 =>
    match before.get? bi, current.get? ci with
    | some before_face, some current_face =>
      (match crossMergeOp side before_face current_face with
      | some merged_face =>
        mergeWhileLoop side before (current.set ci merged_face) (bi + 1) (ci + 1) fuel
      | none =>
        let before_boundary := get_boundary_from_face before_face true
        let current_boundary := get_boundary_from_face current_face true
        if before_boundary = current_boundary then
          let r := mergeWhileLoop side before current (bi + 1) (ci + 1) fuel
          (before_face :: r.1, r.2.1, r.2.2)
        else if before_boundary < current_boundary then
          let fb := flushBeforeBelow before bi current_boundary (before.length - bi)
          let r := mergeWhileLoop side before current fb.2 ci fuel
          (fb.1 ++ r.1, r.2.1, r.2.2)
        else
          let ci2 := skipCurrentBelow current ci before_boundary (current.length - ci)
          if ci2 = current.length then
            let r := mergeWhileLoop side before current (bi + 1) ci2 fuel
            (before_face :: r.1, r.2.1, r.2.2)
          else
            mergeWhileLoop side before current bi ci2 fuel)
    | _, _ => ([], current, bi)

/-- One layer of `greedy_merge_and_modify_vecs`: the three-way match on the
lengths of the before and current lists.  Returns (faces flushed to
`faces_to_make`, the new before list). -/
def greedyMergeLayer (side : BlockSide) (before current : List Face) :
    List Face × List Face :=
  match before.length, current.length with
  | 0, _ => ([], current)
  | _ + 1, 0 => (before, [])
  | _ + 1, _ + 1 =>
    let r := mergeWhileLoop side before current 0 0 (before.length + current.length + 1)
    (r.1 ++ before.drop r.2.2, r.2.1)

/-- `greedy_merge_and_modify_vecs`: apply the layer merge at every layer
index; the current layers end up emptied.  Returns (new before layers, faces
flushed in layer order). -/
def greedyMergeAndModifyVecs (side : BlockSide)
    (current before : List (List Face)) : List (List Face) × List Face :=
  let results := (List.range CHUNK_DIMENSION).map (fun layer_index =>
    greedyMergeLayer side (before.getD layer_index []) (current.getD layer_index []))
  (results.map (fun r => r.2), (results.map (fun r => r.1)).flatten)

/-- The in-layer (strip-extending) merge used when a fresh face is pushed. -/
def inLayerMergeOp (side : BlockSide) (face side_face : Face) : Option Face :=
  match side with
  | .FRONT => face.merge_up side_face
  | .BACK => face.merge_up side_face
  | .LEFT => face.merge_left side_face
  | .RIGHT => face.merge_right side_face
  | .TOP => face.merge_up side_face
  | .BOTTOM => face.merge_up side_face

/-- The layer index a face of the given cell goes to, per side. -/
def orientationIndex (side : BlockSide) (x y z : Nat) : Nat :=
  match side with
  | .FRONT => x
  | .BACK => x
  | .LEFT => z
  | .RIGHT => z
  | .TOP => y
  | .BOTTOM => y

/-- Push a fresh unit face into its layer, merging with the layer's last face
when possible (the `match side_layers[..].last()` block of `greedy_sided`). -/
def pushFaceInLayer (side : BlockSide) (layers : List (List Face))
    (layer_index : Nat) (side_face : Face) : List (List Face) :=
  let layer := layers.getD layer_index []
  match layer.getLast? with
  | some face =>
    match inLayerMergeOp side face side_face with
    | some merged_face => layers.set layer_index (layer.dropLast ++ [merged_face])
    | none => layers.set layer_index (layer ++ [side_face])
  | none => layers.set layer_index (layer ++ [side_face])

/-- Running state of the `greedy_sided` main loop. -/
structure GreedyState where
  side_layers : BlockSide → List (List Face)
  side_before_layers : BlockSide → List (List Face)
  faces_to_make : List Face
  current_y : Nat
  current_z : Nat

/-- Initial `greedy_sided` state: 16 empty layers per side. -/
def GreedyState.init : GreedyState :=
  { side_layers := fun _ => List.replicate CHUNK_DIMENSION []
    side_before_layers := fun _ => List.replicate CHUNK_DIMENSION []
    faces_to_make := []
    current_y := 0
    current_z := 0 }

/-- Run the cross-layer merge for one side of the state (one
`greedy_merge_and_modify_vecs(&mut side_layers[s], &mut side_before_layers[s], ..)`
call). -/
def flushSide (st : GreedyState) (side : BlockSide) : GreedyState :=
  let r := greedyMergeAndModifyVecs side (st.side_layers side) (st.side_before_layers side)
  { st with
    side_layers := fun s =>
      if s = side then List.replicate CHUNK_DIMENSION [] else st.side_layers s
    side_before_layers := fun s => if s = side then r.1 else st.side_before_layers s
    faces_to_make := st.faces_to_make ++ r.2 }

/-- Conditionally flush one side (the `if contains_x` guards). -/
def flushSideIf (sides : List BlockSide) (st : GreedyState) (side : BlockSide) :
    GreedyState :=
  if side ∈ sides then flushSide st side else st

/-- The body of the `while let` loop of `greedy_sided` for one yielded
(position, block): layer-crossing flushes, then face emission with in-layer
merging for each requested side whose neighbor is empty. -/
def processBlock (chunk : Chunk) (sides : List BlockSide) (st : GreedyState)
    (pb : Point3n × Block) : GreedyState :=
  let i := pb.1.x
  let j := pb.1.y
  let k := pb.1.z
  let st :=
    if st.current_y < j then
      flushSideIf sides (flushSideIf sides st .LEFT) .RIGHT
    else st
  let st :=
    if st.current_z < k then
      flushSideIf sides
        (flushSideIf sides (flushSideIf sides (flushSideIf sides st .FRONT) .BACK) .TOP)
        .BOTTOM
    else st
  let st := { st with current_y := j, current_z := k }
  let adjacent_blocks_data := chunk.generate_adjacent_blocks i j k
  sides.foldl
    (fun st side =>
      if ¬ adjacent_blocks_data side then
        let side_face := Face.new i j k pb.2.block_type side
        let oi := orientationIndex side i j k
        { st with side_layers := fun s =>
            if s = side then pushFaceInLayer side (st.side_layers side) oi side_face
            else st.side_layers s }
      else st)
    st

/-- The face stream of `greedy_sided`: run the main loop over the iterator
output, do the final per-side flushes, then drain the leftover layers in
enum-index order. -/
def greedyFaces (chunk : Chunk) (sides : List BlockSide) : List Face :=
  let st := (chunk.blockList).foldl (processBlock chunk sides) GreedyState.init
  let st := flushSideIf sides st .FRONT
  let st := flushSideIf sides st .BACK
  let st := flushSideIf sides st .LEFT
  let st := flushSideIf sides st .RIGHT
  let st := flushSideIf sides st .TOP
  let st := flushSideIf sides st .BOTTOM
  st.faces_to_make ++
    (BlockSide.all.map (fun s =>
      (st.side_before_layers s).flatten ++ (st.side_layers s).flatten)).flatten

/-- The area covered by a face, read off its corners according to the corner
layout `Face::new` uses for its side. -/
def faceArea (f : Face) : Nat :=
  match f.block_side with
  | .FRONT => (f.ul.y - f.ll.y) * (f.lr.z - f.ll.z)
  | .BACK => (f.ul.y - f.ll.y) * (f.ll.z - f.lr.z)
  | .BOTTOM => (f.ul.x - f.ll.x) * (f.ll.z - f.lr.z)
  | .TOP => (f.ul.x - f.ll.x) * (f.lr.z - f.ll.z)
  | .LEFT => (f.ul.y - f.ll.y) * (f.ll.x - f.lr.x)
  | .RIGHT => (f.ul.y - f.ll.y) * (f.lr.x - f.ll.x)

/-- A face is a non-degenerate axis-aligned rectangle in the corner
orientation of its side. -/
def FaceWF (f : Face) : Prop :=
  match f.block_side with
  | .FRONT =>
    f.lr.x = f.ll.x ∧ f.lr.y = f.ll.y ∧ f.ll.z < f.lr.z ∧
    f.ul.x = f.ll.x ∧ f.ul.z = f.ll.z ∧ f.ll.y < f.ul.y ∧
    f.ur.x = f.ll.x ∧ f.ur.y = f.ul.y ∧ f.ur.z = f.lr.z
  | .BACK =>
    f.lr.x = f.ll.x ∧ f.lr.y = f.ll.y ∧ f.lr.z < f.ll.z ∧
    f.ul.x = f.ll.x ∧ f.ul.z = f.ll.z ∧ f.ll.y < f.ul.y ∧
    f.ur.x = f.ll.x ∧ f.ur.y = f.ul.y ∧ f.ur.z = f.lr.z
  | .BOTTOM =>
    f.lr.x = f.ll.x ∧ f.lr.y = f.ll.y ∧ f.lr.z < f.ll.z ∧
    f.ul.y = f.ll.y ∧ f.ul.z = f.ll.z ∧ f.ll.x < f.ul.x ∧
    f.ur.x = f.ul.x ∧ f.ur.y = f.ll.y ∧ f.ur.z = f.lr.z
  | .TOP =>
    f.lr.x = f.ll.x ∧ f.lr.y = f.ll.y ∧ f.ll.z < f.lr.z ∧
    f.ul.y = f.ll.y ∧ f.ul.z = f.ll.z ∧ f.ll.x < f.ul.x ∧
    f.ur.x = f.ul.x ∧ f.ur.y = f.ll.y ∧ f.ur.z = f.lr.z
  | .LEFT =>
    f.lr.y = f.ll.y ∧ f.lr.z = f.ll.z ∧ f.lr.x < f.ll.x ∧
    f.ul.x = f.ll.x ∧ f.ul.z = f.ll.z ∧ f.ll.y < f.ul.y ∧
    f.ur.x = f.lr.x ∧ f.ur.y = f.ul.y ∧ f.ur.z = f.ll.z
  | .RIGHT =>
    f.lr.y = f.ll.y ∧ f.lr.z = f.ll.z ∧ f.ll.x < f.lr.x ∧
    f.ul.x = f.ll.x ∧ f.ul.z = f.ll.z ∧ f.ll.y < f.ul.y ∧
    f.ur.x = f.lr.x ∧ f.ur.y = f.ul.y ∧ f.ur.z = f.ll.z

/-- Total area of a list of faces. -/
def areaSum (l : List Face) : Nat := (l.map faceArea).sum

/-! ### Vertex/index emission (`mesh/mesh.rs`) -/

/-- `BLOCK_TYPE_TO_TEXTURE_INDICES` (indexed by the block-type
discriminant). -/
def BLOCK_TYPE_TO_TEXTURE_INDICES : List (List Nat) :=
  [[0, 0, 0, 0, 0, 0], [1, 1, 1, 1, 1, 1], [4, 4, 4, 4, 4, 4], [2, 2, 2, 2, 3, 1]]

/-- `Block::get_texture_indices_from_int` (out-of-table types, which panic in
the source, read as an empty row). -/
def get_texture_indices_from_int (btype_int : Nat) : List Nat :=
  BLOCK_TYPE_TO_TEXTURE_INDICES.getD btype_int []

/-- `Mesh::generate_face_vertices`: the four corner vertices of a face, with
texture offsets from the face's span (`as u8` is a mod-256 cast). -/
def Mesh.generate_face_vertices (face : Face) (chunk_coordinate_index : Nat) :
    List Vertex :=
  let texture_indices := get_texture_indices_from_int face.block_type_int
  let tuv : Nat × Nat × Nat :=
    match face.block_side with
    | .FRONT => (0, (face.lr.z - face.ll.z) % 256, (face.ul.y - face.ll.y) % 256)
    | .BACK => (1, (face.ll.z - face.lr.z) % 256, (face.ul.y - face.ll.y) % 256)
    | .LEFT => (2, (face.ll.x - face.lr.x) % 256, (face.ul.y - face.ll.y) % 256)
    | .RIGHT => (3, (face.lr.x - face.ll.x) % 256, (face.ul.y - face.ll.y) % 256)
    | .TOP => (4, (face.lr.z - face.ll.z) % 256, (face.ul.x - face.ll.x) % 256)
    | .BOTTOM => (5, (face.ll.z - face.lr.z) % 256, (face.ul.x - face.ll.x) % 256)
  let texture_index := tuv.1
  let u_offset := tuv.2.1
  let v_offset := tuv.2.2
  let ti := texture_indices.getD texture_index 0
  [ Vertex.new ⟨face.ll.x, face.ll.y, face.ll.z⟩ ti 0 v_offset chunk_coordinate_index,
    Vertex.new ⟨face.lr.x, face.lr.y, face.lr.z⟩ ti u_offset v_offset chunk_coordinate_index,
    Vertex.new ⟨face.ul.x, face.ul.y, face.ul.z⟩ ti 0 0 chunk_coordinate_index,
    Vertex.new ⟨face.ur.x, face.ur.y, face.ur.z⟩ ti u_offset 0 chunk_coordinate_index ]

/-- `Mesh::generate_face_indices`: the six indices of the face's two
triangles, offset by four per previously generated face. -/
def Mesh.generate_face_indices (num_faces_generated : Nat) : List Nat :=
  [ num_faces_generated * 4,
    1 + num_faces_generated * 4,
    3 + num_faces_generated * 4,
    num_faces_generated * 4,
    3 + num_faces_generated * 4,
    2 + num_faces_generated * 4 ]

/-- One step of the final emission loop of `greedy_sided`: extend the
per-side vertex and index vectors and bump that side's face counter. -/
def assembleStep (index : Nat)
    (acc : (BlockSide → List Vertex) × (BlockSide → List Nat) × (BlockSide → Nat))
    (face : Face) :
    (BlockSide → List Vertex) × (BlockSide → List Nat) × (BlockSide → Nat) :=
  let s := face.block_side
  (fun t => if t = s then acc.1 t ++ Mesh.generate_face_vertices face index else acc.1 t,
   fun t => if t = s then acc.2.1 t ++ Mesh.generate_face_indices (acc.2.2 s) else acc.2.1 t,
   fun t => if t = s then acc.2.2 t + 1 else acc.2.2 t)

/-- `greedy_sided`: the face stream followed by vertex/index emission. -/
def greedy_sided (chunk : Chunk) (index : Nat) (sides : List BlockSide) : Mesh :=
  let faces_to_make := greedyFaces chunk sides
  let acc := faces_to_make.foldl (assembleStep index)
    (fun _ => [], fun _ => [], fun _ => 0)
  Mesh.new.add_vertices acc.1 acc.2.1

/-- `MeshManager::generate_mesh_for_chunk`: load the chunk's index slot, mesh
it, prepare the mesh, and append the index-load write commands. -/
def MeshManager.generate_mesh_for_chunk (m : MeshManager) (chunk : Chunk)
    (sides_to_generate : List BlockSide) :
    Option (List BufferWriteCommand × MeshManager) :=
  match m.chunk_index_state.load_chunk_positions [chunk.position] with
  | none => none
  | some (chunk_index_buffer_write_commands, cis) =>
    let m1 := { m with chunk_index_state := cis }
    match cis.get_index_for_position chunk.position with
    | none => none
    | some chunk_index =>
      let mesh := greedy_sided chunk chunk_index sides_to_generate
      match m1.prepare_mesh_for_write chunk.position mesh with
      | none => none
      | some (mesh_write_commands, m2) =>
        some (mesh_write_commands ++ chunk_index_buffer_write_commands, m2)

/-- One externally triggered mesh-manager operation (the three entry points
through which the rest of the engine mutates a `MeshManager`). -/
inductive MMOp where
  | generateMesh (chunk : Chunk) (sides : List BlockSide)
  | prepareMesh (p : Point3i) (mesh : Mesh)
  | unloadChunks (ps : List Point3i)

/-- Run one mesh-manager operation, dropping the emitted write commands. -/
def MeshManager.runOp (m : MeshManager) : MMOp → Option MeshManager
  | .generateMesh chunk sides =>
    match m.generate_mesh_for_chunk chunk sides with
    | none => none
    | some (_, m2) => some m2
  | .prepareMesh p mesh =>
    match m.prepare_mesh_for_write p mesh with
    | none => none
    | some (_, m2) => some m2
  | .unloadChunks ps => some (m.unload_chunk_positions ps).2

/-- Run a sequence of mesh-manager operations. -/
def MeshManager.runOps (m : MeshManager) : List MMOp → Option MeshManager
  | [] => some m
  | op :: rest =>
    match m.runOp op with
    | none => none
    | some m2 => MeshManager.runOps m2 rest

/-- The eviction discipline of `prepare_mesh_for_write`, as a relation:
while either the bucket allocator or the chunk-index table cannot satisfy
the mesh footprint `vl`, pop the least-recently-meshed chunk and unload it
(freeing its buckets and index slot and emitting the zero-draw indirect
writes); stop exactly when both capacity checks pass. -/
inductive EvictStar (vl : BlockSide → Nat) : MeshManager → MeshManager → Prop
  | refl (m : MeshManager)
      (hok : m.bucket_manager.can_allocate_buckets vl ∧
        m.chunk_index_state.can_allocate_index) : EvictStar vl m m
  | step (m m2 m3 : MeshManager) (lru_chunk_position : Point3i) (lru2 : LruCache)
      (hfail : ¬ (m.bucket_manager.can_allocate_buckets vl ∧
        m.chunk_index_state.can_allocate_index))
      (hpop : m.least_recently_meshed_chunks.pop_lru =
        some (lru_chunk_position, lru2))
      (hm2 : m2 = (MeshManager.unload_chunk_positions
        { m with least_recently_meshed_chunks := lru2 }
        [lru_chunk_position]).2)
      (hrest : EvictStar vl m2 m3) : EvictStar vl m m3

/-! ### Task scheduler (`task_management/mod.rs`).  Tasks are modelled as
opaque identifiers; a worker channel is its in-flight counter plus its
connection status (sends fail on a disconnected channel). -/

/-- `MAX_TASKS_IN_FLIGHT`. -/
def MAX_TASKS_IN_FLIGHT : Nat := 1

/-- A `TaskChannel`, reduced to the state the scheduler logic reads. -/
structure TaskChannel where
  num_tasks_in_flight : Nat
  connected : Bool
deriving DecidableEq, Repr

/-- `TaskManager` scheduling state. -/
structure TaskManager where
  channels : List TaskChannel
  queued_tasks : List Nat
  current_channel : Nat
deriving DecidableEq, Repr

/-- `TaskManager::try_send_task`: `none` is the `Err(task)` case (worker
disconnected); on success the channel's in-flight counter is bumped. -/
def TaskManager.try_send_task (tm : TaskManager) (channel_idx : Nat) :
    Option TaskManager :=
  match tm.channels.get? channel_idx with
  | none => none
  | some ch =>
    if ch.connected then
      let ch2 := { ch with num_tasks_in_flight := ch.num_tasks_in_flight + 1 }
      some { tm with channels := tm.channels.set channel_idx ch2 }
    else none

/-- The round-robin probe loop of `find_available_channel`. -/
def findAvailLoop (channels : List TaskChannel) (start_channel current : Nat) :
    Nat → Option Nat
  | 0 => none
  | fuel + 1 =>
    match channels.get? current with
    | none => none
    | some ch =>
      if ch.num_tasks_in_flight < MAX_TASKS_IN_FLIGHT then some current
      else
        let nxt := (current + 1) % channels.length
        if nxt = start_channel then none
        else findAvailLoop channels start_channel nxt fuel

/-- `TaskManager::find_available_channel`. -/
def TaskManager.find_available_channel (tm : TaskManager) : Option Nat :=
  if tm.channels.isEmpty then none
  else if tm.channels.all (fun ch => MAX_TASKS_IN_FLIGHT ≤ ch.num_tasks_in_flight) then
    none
  else
    findAvailLoop tm.channels tm.current_channel tm.current_channel
      (tm.channels.length + 1)

/-- `TaskManager::publish_task`: `true` iff dispatched to a worker now,
`false` iff pushed to the FIFO queue. -/
def TaskManager.publish_task (tm : TaskManager) (task : Nat) : Bool × TaskManager :=
  if tm.channels.isEmpty then
    (false, { tm with queued_tasks := tm.queued_tasks ++ [task] })
  else
    match tm.find_available_channel with
    | some channel_idx =>
      match tm.try_send_task channel_idx with
      | some tm2 =>
        (true, { tm2 with current_channel := (channel_idx + 1) % tm2.channels.length })
      | none => (false, { tm with queued_tasks := tm.queued_tasks ++ [task] })
    | none => (false, { tm with queued_tasks := tm.queued_tasks ++ [task] })

/-- The drain loop of `process_queued_tasks`: pop, send, move to the next
available channel; on a disconnected channel push the task back to the front
and stop. -/
def processQueuedLoop (tm : TaskManager) (channel_idx : Nat) : Nat → TaskManager
  | 0 => tm
  | fuel + 1 =>
    match tm.queued_tasks with
    | [] => tm
    | _task :: rest =>
      let tm1 := { tm with queued_tasks := rest }
      match tm1.try_send_task channel_idx with
      | some tm2 =>
        match tm2.find_available_channel with
        | some next_idx => processQueuedLoop tm2 next_idx fuel
        | none => tm2
      | none => tm

/-- `TaskManager::process_queued_tasks`. -/
def TaskManager.process_queued_tasks (tm : TaskManager) : TaskManager :=
  if tm.queued_tasks.isEmpty then tm
  else
    match tm.find_available_channel with
    | none => tm
    | some channel_idx => processQueuedLoop tm channel_idx (tm.queued_tasks.length + 1)

/-- One successful `try_recv` inside `process_completed_tasks`, for a result
with no follow-up tasks (its write commands go to the external buffer
state): the channel's in-flight counter is decremented. -/
def TaskManager.complete_task_on_channel (tm : TaskManager) (i : Nat) : TaskManager :=
  match tm.channels.get? i with
  | none => tm
  | some ch =>
    let ch2 := { ch with num_tasks_in_flight := ch.num_tasks_in_flight - 1 }
    { tm with channels := tm.channels.set i ch2 }

/-! ## Properties of the face merge operations (C5) -/

/-- C5: two faces on the same side merge into exactly one face precisely when
their block types are equal and the corners of the shared edge coincide: each
of `merge_up`, `merge_right` and `merge_left` returns `some` iff the block
types agree and the respective shared-edge corner pairs are equal, and faces
with differing block types never merge. -/
theorem merge_returns_some_iff_same_type_and_shared_edge (f g : Face) :
    ((f.merge_up g).isSome ↔
      f.block_type_int = g.block_type_int ∧ f.ul = g.ll ∧ f.ur = g.lr) ∧
    ((f.merge_right g).isSome ↔
      f.block_type_int = g.block_type_int ∧ f.lr = g.ll ∧ f.ur = g.ul) ∧
    ((f.merge_left g).isSome ↔
      f.block_type_int = g.block_type_int ∧ f.ll = g.lr ∧ f.ul = g.ur) ∧
    (f.block_type_int ≠ g.block_type_int →
      f.merge_up g = none ∧ f.merge_right g = none ∧ f.merge_left g = none) := by
  refine ⟨?_, ?_, ?_, fun hne => ⟨?_, ?_, ?_⟩⟩ <;>
    simp only [Face.merge_up, Face.merge_right, Face.merge_left] <;>
    split <;> simp_all

/-- Witness for C5 at concrete faces: the two unit FRONT faces of cells
(0,0,0) and (0,1,0) of the same type share their full edge and merge. -/
theorem merge_returns_some_iff_witness :
    ((Face.new 0 0 0 1 .FRONT).merge_up (Face.new 0 1 0 1 .FRONT)).isSome ∧
    ((Face.new 0 0 0 1 .FRONT).merge_up (Face.new 0 1 0 2 .FRONT)) = none := by
  constructor
  · exact (merge_returns_some_iff_same_type_and_shared_edge _ _).1.mpr (by decide)
  · exact ((merge_returns_some_iff_same_type_and_shared_edge
      (Face.new 0 0 0 1 .FRONT) (Face.new 0 1 0 2 .FRONT)).2.2.2 (by decide)).1

/-! ## Properties of the bucket allocator (C2, C4) -/

/-- The bucket-draining loop: with the 1.5x index relation and enough free
buckets, it succeeds, consumes exactly the first `n` free buckets, splits the
vertices in order into chunks of at most 1024, and keeps the exact 3:2
index-to-vertex relation (hence at most 1536 indices) in every bucket. -/
theorem allocLoop_spec (n : Nat) :
    ∀ (avail : List BucketLocation) (remV : List Vertex) (remI : List Nat) (cur : Nat),
    2 * remI.length = 3 * remV.length →
    rustDivCeil remV.length NUM_VERTICES_PER_BUCKET = n →
    n ≤ avail.length →
    ∃ acc, allocLoop avail remV remI cur n = some (acc, avail.drop n) ∧
      acc.map (fun t => t.1) = avail.take n ∧
      (∀ t ∈ acc, t.2.1.length ≤ 1024 ∧ t.2.2.length ≤ 1536 ∧
        2 * t.2.2.length = 3 * t.2.1.length) ∧
      (acc.map (fun t => t.2.1)).flatten = remV := by
  induction n with
  | zero =>
    intro avail remV remI cur hr hc _hle
    have hlen : remV.length = 0 := by
      simp only [rustDivCeil, NUM_VERTICES_PER_BUCKET] at hc
      omega
    have hnil : remV = [] := List.eq_nil_of_length_eq_zero hlen
    subst hnil
    exact ⟨[], by simp [allocLoop], by simp, by simp, by simp⟩
  | succ n ih =>
    intro avail remV remI cur hr hc hle
    obtain ⟨b, rest, rfl⟩ : ∃ b rest, avail = b :: rest := by
      cases avail with
      | nil => simp at hle
      | cons b rest => exact ⟨b, rest, rfl⟩
    have hvc : min NUM_VERTICES_PER_BUCKET remV.length * 3 / 2 ≤ remI.length ∧
        2 * (min NUM_VERTICES_PER_BUCKET remV.length * 3 / 2) =
          3 * min NUM_VERTICES_PER_BUCKET remV.length := by
      simp only [NUM_VERTICES_PER_BUCKET]
      omega
    set vc := min NUM_VERTICES_PER_BUCKET remV.length with hvcdef
    set ic := vc * 3 / 2 with hicdef
    have hr2 : 2 * (remI.drop ic).length = 3 * (remV.drop vc).length := by
      simp only [List.length_drop]
      simp only [NUM_VERTICES_PER_BUCKET, hvcdef, hicdef] at *
      omega
    have hc2 : rustDivCeil (remV.drop vc).length NUM_VERTICES_PER_BUCKET = n := by
      simp only [List.length_drop]
      simp only [rustDivCeil, NUM_VERTICES_PER_BUCKET, hvcdef] at *
      omega
    have hle2 : n ≤ rest.length := by simpa using hle
    obtain ⟨acc, heq, hmap, hall, hflat⟩ :=
      ih rest (remV.drop vc) (remI.drop ic) (cur + (remV.take vc).length) hr2 hc2 hle2
    refine ⟨(b, remV.take vc, (remI.take ic).map (fun x => x - cur)) :: acc, ?_, ?_, ?_, ?_⟩
    · simp only [allocLoop, ← hvcdef, ← hicdef, heq, List.drop_succ_cons]
    · simpa using hmap
    · intro t ht
      rcases List.mem_cons.mp ht with h | h
      · subst h
        refine ⟨?_, ?_, ?_⟩ <;>
          simp only [List.length_map, List.length_take, NUM_VERTICES_PER_BUCKET,
            hvcdef, hicdef] <;> omega
      · exact hall t h
    · simp only [List.map_cons, List.flatten_cons, hflat]
      exact List.take_append_drop vc remV

/-- C2: for every `allocate_buckets` call whose index list is exactly 1.5
times as long as its vertex list and with enough free buckets, every bucket
triple returned has at most 1024 vertices, at most 1536 indices, and exactly
3/2 as many indices as vertices, and the vertex slices concatenate back to
the input vertex list. -/
theorem allocate_buckets_bucket_spec (m : MeshBucketManager) (p : Point3i)
    (vertex_vec : List Vertex) (index_vec : List Nat) (side : BlockSide)
    (hrel : 2 * index_vec.length = 3 * vertex_vec.length)
    (hcap : rustDivCeil vertex_vec.length NUM_VERTICES_PER_BUCKET ≤
      (m.available_buckets side).length) :
    ∃ triples m2, m.allocate_buckets p vertex_vec index_vec side = some (triples, m2) ∧
      (∀ t ∈ triples, t.2.1.length ≤ 1024 ∧ t.2.2.length ≤ 1536 ∧
        2 * t.2.2.length = 3 * t.2.1.length) ∧
      (triples.map (fun t => t.2.1)).flatten = vertex_vec := by
  obtain ⟨acc, heq, _hmap, hall, hflat⟩ :=
    allocLoop_spec (rustDivCeil vertex_vec.length NUM_VERTICES_PER_BUCKET)
      (m.available_buckets side) vertex_vec index_vec 0 hrel rfl hcap
  have hne : ¬ index_vec.length ≠ vertex_vec.length * 3 / 2 := by omega
  simp only [MeshBucketManager.allocate_buckets, if_neg hne, heq]
  exact ⟨acc, _, rfl, hall, hflat⟩

/-- Witness for C2: allocating 1500 vertices with 2250 indices from a fresh
manager splits into a full bucket and a 476-vertex bucket. -/
theorem allocate_buckets_bucket_spec_witness :
    ∃ triples m2,
      (MeshBucketManager.new 1).allocate_buckets ⟨0, 0, 0⟩
        (List.replicate 1500 (Vertex.new ⟨0, 0, 0⟩ 0 0 0 0))
        (List.replicate 2250 0) BlockSide.FRONT = some (triples, m2) ∧
      (∀ t ∈ triples, t.2.1.length ≤ 1024 ∧ t.2.2.length ≤ 1536 ∧
        2 * t.2.2.length = 3 * t.2.1.length) ∧
      (triples.map (fun t => t.2.1)).flatten =
        List.replicate 1500 (Vertex.new ⟨0, 0, 0⟩ 0 0 0 0) := by
  refine allocate_buckets_bucket_spec (MeshBucketManager.new 1) ⟨0, 0, 0⟩ _ _ _
    (by simp) ?_
  have h2048 : ((MeshBucketManager.new 1).available_buckets BlockSide.FRONT).length = 2048 := by
    simp only [MeshBucketManager.new]
    rw [show List.range 1 = [0] from rfl]
    simp [NUM_BUCKETS_PER_BUFFER]
  rw [h2048]
  simp [rustDivCeil, NUM_VERTICES_PER_BUCKET]

/-- The buckets a chunk currently owns (empty when the chunk has none). -/
def chunkOwnedBuckets (m : MeshBucketManager) (p : Point3i) : List BucketLocation :=
  (m.chunk_position_to_used_buckets.lookup p).getD []

/-- Folding `push_back` over deallocated buckets appends each bucket to the
free queue of its own side. -/
theorem pushBack_fold_spec (bs : List BucketLocation) :
    ∀ (avail : BlockSide → List BucketLocation) (s : BlockSide),
    (bs.foldl pushBucketBack avail) s = avail s ++ bs.filter (fun b => b.side = s) := by
  induction bs with
  | nil => simp
  | cons b t ih =>
    intro avail s
    simp only [List.foldl_cons, ih, List.filter_cons]
    by_cases hb : b.side = s
    · simp [pushBucketBack, hb]
    · have : ¬ s = b.side := fun h => hb h.symm
      simp [pushBucketBack, this, hb]

/-- Deallocating one owning chunk returns exactly its buckets, appends each
to its side's free queue, and deletes the ownership record. -/
theorem deallocate_single_spec (m : MeshBucketManager) (p : Point3i)
    (bs : List BucketLocation)
    (h : m.chunk_position_to_used_buckets.lookup p = some bs) :
    (m.deallocate_buckets [p]).1 = bs ∧
    (∀ s, (m.deallocate_buckets [p]).2.available_buckets s =
      m.available_buckets s ++ bs.filter (fun b => b.side = s)) ∧
    (m.deallocate_buckets [p]).2.chunk_position_to_used_buckets =
      m.chunk_position_to_used_buckets.filter (fun e => ¬ e.1 = p) := by
  refine ⟨?_, ?_, ?_⟩ <;>
    simp only [MeshBucketManager.deallocate_buckets, List.foldl_cons, List.foldl_nil,
      deallocStep, h] <;>
    simp [pushBack_fold_spec]

/-- Association-list `lookup` at the head key. -/
theorem lookup_cons_self {α β : Type} [BEq α] [LawfulBEq α] (k : α) (v : β)
    (t : List (α × β)) : ((k, v) :: t).lookup k = some v := by
  simp [List.lookup_cons]

/-- Association-list `lookup` skips a head with a different key. -/
theorem lookup_cons_ne {α β : Type} [BEq α] [LawfulBEq α] (k p : α) (v : β)
    (t : List (α × β)) (h : p ≠ k) : ((k, v) :: t).lookup p = t.lookup p := by
  simp [List.lookup_cons, beq_false_of_ne h]

/-- After filtering out a key, lookup of that key fails. -/
theorem lookup_filter_self {β : Type} (l : List (Point3i × β)) (p : Point3i) :
    (l.filter (fun e => ¬ e.1 = p)).lookup p = none := by
  induction l with
  | nil => rfl
  | cons e t ih =>
    obtain ⟨k, v⟩ := e
    by_cases hk : k = p
    · simpa [List.filter_cons, hk] using ih
    · simp only [List.filter_cons]
      rw [if_pos (by simpa using hk)]
      rw [lookup_cons_ne k p v _ (fun h => hk h.symm)]
      exact ih

/-- A successful `allocLoop` run consumes exactly the first `n` free buckets. -/
theorem allocLoop_shape (n : Nat) :
    ∀ (avail : List BucketLocation) (remV : List Vertex) (remI : List Nat)
      (cur : Nat) (acc : List (BucketLocation × List Vertex × List Nat))
      (avail2 : List BucketLocation),
    allocLoop avail remV remI cur n = some (acc, avail2) →
    acc.map (fun t => t.1) = avail.take n ∧ avail2 = avail.drop n := by
  induction n with
  | zero =>
    intro avail remV remI cur acc avail2 h
    simp only [allocLoop, Option.some.injEq, Prod.mk.injEq] at h
    simp [← h.1, ← h.2]
  | succ n ih =>
    intro avail remV remI cur acc avail2 h
    cases avail with
    | nil => simp [allocLoop] at h
    | cons b rest =>
      simp only [allocLoop] at h
      cases hh : allocLoop rest (remV.drop (min NUM_VERTICES_PER_BUCKET remV.length))
          (remI.drop (min NUM_VERTICES_PER_BUCKET remV.length * 3 / 2))
          (cur + (remV.take (min NUM_VERTICES_PER_BUCKET remV.length)).length) n with
      | none => rw [hh] at h; simp at h
      | some r =>
        rw [hh] at h
        obtain ⟨acc0, avail0⟩ := r
        simp only [Option.some.injEq, Prod.mk.injEq] at h
        obtain ⟨ha, hb⟩ := h
        obtain ⟨ih1, ih2⟩ := ih rest _ _ _ acc0 avail0 hh
        subst ha hb
        simp [ih1, ih2]

/-- Lookup after the extend-existing branch of `ownMapExtend`. -/
theorem lookup_map_extend (mp : List (Point3i × List BucketLocation))
    (p : Point3i) (bs v : List BucketLocation) (hl : mp.lookup p = some v) :
    (mp.map (fun e => if e.1 = p then (e.1, e.2 ++ bs) else e)).lookup p =
      some (v ++ bs) := by
  induction mp with
  | nil => simp at hl
  | cons e t ih =>
    obtain ⟨k, w⟩ := e
    by_cases hk : k = p
    · subst hk
      rw [lookup_cons_self] at hl
      simp only [List.map_cons]
      simp only [if_true]
      rw [lookup_cons_self]
      simp only [Option.some.injEq] at hl
      rw [hl]
    · rw [lookup_cons_ne _ _ _ _ (fun h => hk h.symm)] at hl
      simp only [List.map_cons, if_neg hk]
      rw [lookup_cons_ne _ _ _ _ (fun h => hk h.symm)]
      exact ih hl

/-- The extend-existing branch does not touch other keys. -/
theorem lookup_map_extend_ne (mp : List (Point3i × List BucketLocation))
    (p q : Point3i) (bs : List BucketLocation) (hq : q ≠ p) :
    (mp.map (fun e => if e.1 = p then (e.1, e.2 ++ bs) else e)).lookup q =
      mp.lookup q := by
  induction mp with
  | nil => rfl
  | cons e t ih =>
    obtain ⟨k, w⟩ := e
    by_cases hk : k = p
    · subst hk
      simp only [List.map_cons]
      simp only [if_true]
      rw [lookup_cons_ne _ _ _ _ hq, lookup_cons_ne _ _ _ _ hq]
      exact ih
    · simp only [List.map_cons, if_neg hk]
      by_cases hkq : k = q
      · subst hkq
        rw [lookup_cons_self, lookup_cons_self]
      · rw [lookup_cons_ne _ _ _ _ (fun h => hkq h.symm),
          lookup_cons_ne _ _ _ _ (fun h => hkq h.symm)]
        exact ih

/-- Lookup after the append-new branch of `ownMapExtend`. -/
theorem lookup_append_new {β : Type} (mp : List (Point3i × β))
    (p : Point3i) (bs : β) (hl : mp.lookup p = none) :
    (mp ++ [(p, bs)]).lookup p = some bs := by
  induction mp with
  | nil => simp [lookup_cons_self]
  | cons e t ih =>
    obtain ⟨k, w⟩ := e
    by_cases hk : k = p
    · subst hk
      rw [lookup_cons_self] at hl
      simp at hl
    · rw [lookup_cons_ne _ _ _ _ (fun h => hk h.symm)] at hl
      rw [List.cons_append, lookup_cons_ne _ _ _ _ (fun h => hk h.symm)]
      exact ih hl

/-- The append-new branch does not touch other keys. -/
theorem lookup_append_ne {β : Type} (mp : List (Point3i × β))
    (p q : Point3i) (bs : β) (hq : q ≠ p) :
    (mp ++ [(p, bs)]).lookup q = mp.lookup q := by
  induction mp with
  | nil =>
    simp only [List.nil_append]
    rw [lookup_cons_ne _ _ _ _ hq]
  | cons e t ih =>
    obtain ⟨k, w⟩ := e
    rw [List.cons_append]
    by_cases hkq : k = q
    · subst hkq
      rw [lookup_cons_self, lookup_cons_self]
    · rw [lookup_cons_ne _ _ _ _ (fun h => hkq h.symm),
        lookup_cons_ne _ _ _ _ (fun h => hkq h.symm)]
      exact ih

/-- `ownMapExtend` extends exactly the given chunk's ownership record. -/
theorem ownMapExtend_lookup_self (mp : List (Point3i × List BucketLocation))
    (p : Point3i) (bs : List BucketLocation) :
    (ownMapExtend mp p bs).lookup p = some ((mp.lookup p).getD [] ++ bs) := by
  unfold ownMapExtend
  cases hl : mp.lookup p with
  | some v =>
    rw [if_pos (by simp [hl])]
    simp only [Option.getD_some]
    exact lookup_map_extend mp p bs v hl
  | none =>
    rw [if_neg (by simp [hl])]
    simp only [Option.getD_none, List.nil_append]
    exact lookup_append_new mp p bs hl

/-- `ownMapExtend` leaves other chunks' ownership records unchanged. -/
theorem ownMapExtend_lookup_other (mp : List (Point3i × List BucketLocation))
    (p q : Point3i) (bs : List BucketLocation) (hq : q ≠ p) :
    (ownMapExtend mp p bs).lookup q = mp.lookup q := by
  unfold ownMapExtend
  split
  · exact lookup_map_extend_ne mp p q bs hq
  · exact lookup_append_ne mp p q bs hq

/-- Deallocating a chunk that owns nothing is a no-op. -/
theorem deallocate_single_noop (m : MeshBucketManager) (p : Point3i)
    (h : m.chunk_position_to_used_buckets.lookup p = none) :
    m.deallocate_buckets [p] = ([], m) := by
  simp only [MeshBucketManager.deallocate_buckets, List.foldl_cons, List.foldl_nil,
    deallocStep, h]

/-- One successful allocation moves buckets of the allocation's side from the
free queue into the chunk's ownership record, conserving the per-side sum of
free and owned buckets; other chunks and other sides are untouched. -/
theorem allocate_buckets_conserves (m m2 : MeshBucketManager) (p : Point3i)
    (v : List Vertex) (ivec : List Nat) (sd : BlockSide)
    (tr : List (BucketLocation × List Vertex × List Nat))
    (h : m.allocate_buckets p v ivec sd = some (tr, m2))
    (hside : ∀ b ∈ m.available_buckets sd, b.side = sd) :
    (∀ s, (m2.available_buckets s).length +
        ((chunkOwnedBuckets m2 p).filter (fun b => b.side = s)).length =
      (m.available_buckets s).length +
        ((chunkOwnedBuckets m p).filter (fun b => b.side = s)).length) ∧
    (∀ s, ∀ b ∈ m2.available_buckets s, b ∈ m.available_buckets s) ∧
    (∀ q, q ≠ p → m2.chunk_position_to_used_buckets.lookup q =
      m.chunk_position_to_used_buckets.lookup q) := by
  unfold MeshBucketManager.allocate_buckets at h
  split at h
  · exact absurd h (by simp)
  · dsimp only at h
    cases hloop : allocLoop (m.available_buckets sd) v ivec 0
        (rustDivCeil v.length NUM_VERTICES_PER_BUCKET) with
    | none => rw [hloop] at h; simp at h
    | some r =>
      rw [hloop] at h
      obtain ⟨acc, avail2⟩ := r
      simp only [Option.some.injEq, Prod.mk.injEq] at h
      obtain ⟨htr, hm2⟩ := h
      obtain ⟨hused, havail2⟩ := allocLoop_shape _ _ _ _ _ _ _ hloop
      subst htr
      subst havail2
      set n := rustDivCeil v.length NUM_VERTICES_PER_BUCKET with hn
      have hm2avail : ∀ s, m2.available_buckets s =
          if s = sd then (m.available_buckets sd).drop n else m.available_buckets s := by
        intro s
        rw [← hm2]
      have hm2map : m2.chunk_position_to_used_buckets =
          ownMapExtend m.chunk_position_to_used_buckets p
            (acc.map (fun t => t.1)) := by
        rw [← hm2]
      have husedside : ∀ b ∈ acc.map (fun t => t.1), b.side = sd := by
        intro b hb
        rw [hused] at hb
        exact hside b (List.mem_of_mem_take hb)
      refine ⟨?_, ?_, ?_⟩
      · intro s
        have howned : chunkOwnedBuckets m2 p =
            chunkOwnedBuckets m p ++ acc.map (fun t => t.1) := by
          unfold chunkOwnedBuckets
          rw [hm2map, ownMapExtend_lookup_self]
          simp
        rw [howned, hm2avail, List.filter_append, List.length_append, hused]
        by_cases hs : s = sd
        · subst hs
          have hfl : ((m.available_buckets s).take n).filter (fun b => b.side = s) =
              (m.available_buckets s).take n := by
            rw [List.filter_eq_self]
            intro b hb
            simp [hside b (List.mem_of_mem_take hb)]
          rw [if_pos rfl, hfl]
          simp only [List.length_drop, List.length_take]
          omega
        · have hfl : ((m.available_buckets sd).take n).filter (fun b => b.side = s) = [] := by
            rw [List.filter_eq_nil_iff]
            intro b hb
            have hbs : b.side = sd := hside b (List.mem_of_mem_take hb)
            simp only [hbs, decide_eq_true_eq]
            exact fun hcc => hs hcc.symm
          rw [if_neg hs, hfl]
          simp
      · intro s b hb
        rw [hm2avail] at hb
        by_cases hs : s = sd
        · subst hs
          rw [if_pos rfl] at hb
          exact List.mem_of_mem_drop hb
        · rwa [if_neg hs] at hb
      · intro q hq
        rw [hm2map]
        exact ownMapExtend_lookup_other _ _ _ _ hq

/-- A sequence of `allocate_buckets` calls for one chunk (the statement-side
fold used to phrase the allocator round trip). -/
def allocSeq (m : MeshBucketManager) (p : Point3i) :
    List (List Vertex × List Nat × BlockSide) → Option MeshBucketManager
  | [] => some m
  | a :: rest =>
    match m.allocate_buckets p a.1 a.2.1 a.2.2 with
    | none => none
    | some (_, m2) => allocSeq m2 p rest

/-- A successful allocation sequence for one chunk conserves, per side, the
free count plus the chunk's owned count, keeps sides well-sorted, and leaves
other chunks alone. -/
theorem allocSeq_conserves (allocs : List (List Vertex × List Nat × BlockSide)) :
    ∀ (m m2 : MeshBucketManager) (p : Point3i),
    (∀ s, ∀ b ∈ m.available_buckets s, b.side = s) →
    allocSeq m p allocs = some m2 →
    (∀ s, (m2.available_buckets s).length +
        ((chunkOwnedBuckets m2 p).filter (fun b => b.side = s)).length =
      (m.available_buckets s).length +
        ((chunkOwnedBuckets m p).filter (fun b => b.side = s)).length) ∧
    (∀ s, ∀ b ∈ m2.available_buckets s, b ∈ m.available_buckets s) := by
  induction allocs with
  | nil =>
    intro m m2 p _ h
    simp only [allocSeq, Option.some.injEq] at h
    subst h
    exact ⟨fun s => rfl, fun s b hb => hb⟩
  | cons a rest ih =>
    intro m m2 p hside h
    simp only [allocSeq] at h
    cases ha : m.allocate_buckets p a.1 a.2.1 a.2.2 with
    | none => rw [ha] at h; simp at h
    | some r =>
      rw [ha] at h
      obtain ⟨tr, m1⟩ := r
      obtain ⟨hcons, hsub, _⟩ :=
        allocate_buckets_conserves m m1 p a.1 a.2.1 a.2.2 tr ha (hside a.2.2)
      have hside1 : ∀ s, ∀ b ∈ m1.available_buckets s, b.side = s :=
        fun s b hb => hside s b (hsub s b hb)
      obtain ⟨ih1, ih2⟩ := ih m1 m2 p hside1 h
      exact ⟨fun s => by rw [ih1 s, hcons s],
        fun s b hb => hsub s b (ih2 s b hb)⟩

/-- C4: deallocating a chunk that owns buckets returns exactly its buckets to
their sides' free queues and removes its ownership record; and for any
successful sequence of allocations for a previously bucket-free chunk,
deallocating that chunk restores every side's free-bucket count to its value
before those allocations. -/
theorem deallocate_returns_buckets_and_restores_free_counts :
    (∀ (m : MeshBucketManager) (p : Point3i) (bs : List BucketLocation),
      m.chunk_position_to_used_buckets.lookup p = some bs →
      (m.deallocate_buckets [p]).1 = bs ∧
      (∀ s, (m.deallocate_buckets [p]).2.available_buckets s =
        m.available_buckets s ++ bs.filter (fun b => b.side = s)) ∧
      (m.deallocate_buckets [p]).2.chunk_position_to_used_buckets.lookup p = none) ∧
    (∀ (m : MeshBucketManager) (p : Point3i)
      (allocs : List (List Vertex × List Nat × BlockSide)) (m2 : MeshBucketManager),
      (∀ s, ∀ b ∈ m.available_buckets s, b.side = s) →
      m.chunk_position_to_used_buckets.lookup p = none →
      allocSeq m p allocs = some m2 →
      ∀ s, ((m2.deallocate_buckets [p]).2.available_buckets s).length =
        (m.available_buckets s).length) := by
  constructor
  · intro m p bs h
    obtain ⟨h1, h2, h3⟩ := deallocate_single_spec m p bs h
    exact ⟨h1, h2, by rw [h3]; exact lookup_filter_self _ _⟩
  · intro m p allocs m2 hside hnone hseq
    intro s
    obtain ⟨hcons, _⟩ := allocSeq_conserves allocs m m2 p hside hseq
    have hownm : chunkOwnedBuckets m p = [] := by
      unfold chunkOwnedBuckets
      rw [hnone]
      rfl
    cases hl : m2.chunk_position_to_used_buckets.lookup p with
    | none =>
      rw [deallocate_single_noop m2 p hl]
      have hc := hcons s
      rw [hownm] at hc
      unfold chunkOwnedBuckets at hc
      rw [hl] at hc
      simpa using hc
    | some bs =>
      obtain ⟨_, h2, _⟩ := deallocate_single_spec m2 p bs hl
      rw [h2 s, List.length_append]
      have hc := hcons s
      rw [hownm] at hc
      unfold chunkOwnedBuckets at hc
      rw [hl] at hc
      simp only [Option.getD_some, List.filter_nil, List.length_nil] at hc
      omega

/-- A one-bucket-per-side manager used to witness the round-trip law. -/
def roundTripWitnessManager : MeshBucketManager :=
  { available_buckets := fun sd =>
      [{ buffer_number := 0, vertex_buffer_offset := 0, index_buffer_offset := 0
         indirect_bucket_index := 0, side := sd }]
    chunk_position_to_used_buckets := [] }

/-- The single four-vertex allocation used to witness the round-trip law. -/
def roundTripWitnessAllocs : List (List Vertex × List Nat × BlockSide) :=
  [([Vertex.new ⟨0, 0, 0⟩ 0 0 0 0, Vertex.new ⟨0, 0, 0⟩ 0 0 0 0,
     Vertex.new ⟨0, 0, 0⟩ 0 0 0 0, Vertex.new ⟨0, 0, 0⟩ 0 0 0 0],
    [0, 1, 3, 0, 3, 2], BlockSide.FRONT)]

/-- Witness for C4 at a small concrete state: one allocation of four vertices
for a fresh chunk, then deallocation, restores every side's free count. -/
theorem deallocate_restores_free_counts_witness :
    ∃ m2, allocSeq roundTripWitnessManager ⟨0, 0, 0⟩ roundTripWitnessAllocs = some m2 ∧
      ∀ s, ((m2.deallocate_buckets [⟨0, 0, 0⟩]).2.available_buckets s).length =
        (roundTripWitnessManager.available_buckets s).length := by
  have hside : ∀ s, ∀ b ∈ roundTripWitnessManager.available_buckets s, b.side = s := by
    intro s b hb
    simp only [roundTripWitnessManager, List.mem_singleton] at hb
    subst hb
    rfl
  exact ⟨_, rfl,
    deallocate_returns_buckets_and_restores_free_counts.2 roundTripWitnessManager
      ⟨0, 0, 0⟩ roundTripWitnessAllocs _ hside rfl rfl⟩

/-! ## Properties of the task scheduler (C7) -/

/-- Total number of in-flight tasks across all worker channels. -/
def totalInFlight (tm : TaskManager) : Nat :=
  (tm.channels.map (fun c => c.num_tasks_in_flight)).sum

/-- Replacing a list element shifts a mapped sum by the field difference. -/
theorem sum_map_set_channels (l : List TaskChannel) :
    ∀ (i : Nat) (ch ch2 : TaskChannel), l.get? i = some ch →
    ((l.set i ch2).map (fun c => c.num_tasks_in_flight)).sum + ch.num_tasks_in_flight =
      (l.map (fun c => c.num_tasks_in_flight)).sum + ch2.num_tasks_in_flight := by
  induction l with
  | nil => intro i ch ch2 h; simp at h
  | cons a t ih =>
    intro i ch ch2 h
    cases i with
    | zero =>
      simp only [List.get?] at h
      injection h with h
      subst h
      simp only [List.set_cons_zero, List.map_cons, List.sum_cons]
      omega
    | succ n =>
      simp only [List.get?] at h
      have hih := ih n ch ch2 h
      simp only [List.set_cons_succ, List.map_cons, List.sum_cons]
      omega

/-- A successful `try_send_task` only bumps one in-flight counter. -/
theorem try_send_task_spec (tm : TaskManager) (i : Nat) (tm2 : TaskManager)
    (h : tm.try_send_task i = some tm2) :
    tm2.queued_tasks = tm.queued_tasks ∧ totalInFlight tm2 = totalInFlight tm + 1 := by
  unfold TaskManager.try_send_task at h
  cases hg : tm.channels.get? i with
  | none => rw [hg] at h; exact absurd h (by simp)
  | some ch =>
    rw [hg] at h
    dsimp only at h
    by_cases hc : ch.connected = true
    · rw [if_pos hc] at h
      injection h with h
      subst h
      refine ⟨rfl, ?_⟩
      have hsum := sum_map_set_channels tm.channels i ch
        { ch with num_tasks_in_flight := ch.num_tasks_in_flight + 1 } hg
      unfold totalInFlight
      simp only at hsum ⊢
      omega
    · rw [if_neg hc] at h
      exact absurd h (by simp)

/-- The fixed two-worker manager of the spec's scheduling scenario. -/
def twoWorkerManager : TaskManager :=
  { channels := [⟨0, true⟩, ⟨0, true⟩], queued_tasks := [], current_channel := 0 }

/-- Publish five tasks in a row, collecting the returned booleans. -/
def publishFive : List Bool × TaskManager :=
  [1, 2, 3, 4, 5].foldl
    (fun acc t =>
      let r := acc.2.publish_task t
      (acc.1 ++ [r.1], r.2))
    ([], twoWorkerManager)

/-- C7: `publish_task` returns `true` iff the task was dispatched to a worker
now (one in-flight counter bumped, queue untouched) and `false` iff it was
queued (queue extended at the back, channels untouched); in the concrete
scenario, five publishes to a fresh two-worker manager dispatch exactly two
and queue three, and after one completion `process_queued_tasks` dispatches
exactly one queued task. -/
theorem publish_dispatches_immediately_or_queues :
    (∀ (tm : TaskManager) (task : Nat),
      ((tm.publish_task task).1 = true →
        (tm.publish_task task).2.queued_tasks = tm.queued_tasks ∧
        totalInFlight (tm.publish_task task).2 = totalInFlight tm + 1) ∧
      ((tm.publish_task task).1 = false →
        (tm.publish_task task).2.queued_tasks = tm.queued_tasks ++ [task] ∧
        (tm.publish_task task).2.channels = tm.channels)) ∧
    (publishFive.1 = [true, true, false, false, false] ∧
      publishFive.2.queued_tasks = [3, 4, 5] ∧
      totalInFlight publishFive.2 = 2 ∧
      ((publishFive.2.complete_task_on_channel 0).process_queued_tasks).queued_tasks =
        [4, 5] ∧
      totalInFlight ((publishFive.2.complete_task_on_channel 0).process_queued_tasks) =
        2) := by
  constructor
  · intro tm task
    unfold TaskManager.publish_task
    split
    · exact ⟨fun h => by simp at h, fun _ => ⟨rfl, rfl⟩⟩
    · cases hf : tm.find_available_channel with
      | some ci =>
        dsimp only
        cases hs : tm.try_send_task ci with
        | some tm2 =>
          dsimp only
          obtain ⟨hq, hsum⟩ := try_send_task_spec tm ci tm2 hs
          refine ⟨fun _ => ⟨hq, ?_⟩, fun h => by simp at h⟩
          exact hsum
        | none =>
          exact ⟨fun h => by simp at h, fun _ => ⟨rfl, rfl⟩⟩
      | none =>
        exact ⟨fun h => by simp at h, fun _ => ⟨rfl, rfl⟩⟩
  · refine ⟨by decide, by decide, by decide, by decide, by decide⟩

/-- Witness for C7: the first publish into the fresh two-worker manager
dispatches immediately and leaves the queue empty. -/
theorem publish_dispatches_witness :
    (twoWorkerManager.publish_task 1).2.queued_tasks = twoWorkerManager.queued_tasks ∧
    totalInFlight (twoWorkerManager.publish_task 1).2 = totalInFlight twoWorkerManager + 1 :=
  (publish_dispatches_immediately_or_queues.1 twoWorkerManager 1).1 (by decide)

/-! ## Properties of the chunk index table (C6) -/

/-- A two-slot chunk index state used to exhibit the double-load slot leak. -/
def cisTwoSlots : ChunkIndexState :=
  { chunk_position_to_gpu_index := [], available_chunk_indices := [0, 1] }

/-- Counterexample for C6: `load_chunk_positions` does not guard against a
position that is already loaded.  Loading the same position twice issues a
second slot to it and silently drops the first: after `load p; load p;
unload p`, slot 0 — which the first load assigned to `p` — is neither in the
available queue nor assigned to any position, so it is never freed even
though its chunk was unloaded. -/
theorem chunk_index_double_load_leaks_slot :
    ∃ r1 r2,
      cisTwoSlots.load_chunk_positions [⟨1, 2, 3⟩] = some r1 ∧
      r1.2.chunk_position_to_gpu_index = [(⟨1, 2, 3⟩, 0)] ∧
      r1.2.load_chunk_positions [⟨1, 2, 3⟩] = some r2 ∧
      r2.2.chunk_position_to_gpu_index = [(⟨1, 2, 3⟩, 1)] ∧
      (r2.2.unload_chunk_positions [⟨1, 2, 3⟩]).chunk_position_to_gpu_index = [] ∧
      (r2.2.unload_chunk_positions [⟨1, 2, 3⟩]).available_chunk_indices = [1] := by
  exact ⟨_, _, rfl, rfl, rfl, rfl, rfl, rfl⟩

/-- The chunk-index invariants: the free queue has no duplicates, the map has
unique keys and unique slot values, and no slot is simultaneously free and
assigned. -/
def ChunkIndexInv (st : ChunkIndexState) : Prop :=
  st.available_chunk_indices.Nodup ∧
  (st.chunk_position_to_gpu_index.map Prod.fst).Nodup ∧
  (st.chunk_position_to_gpu_index.map Prod.snd).Nodup ∧
  (∀ i ∈ st.available_chunk_indices,
    ∀ e ∈ st.chunk_position_to_gpu_index, e.2 ≠ i)

/-- A key whose lookup fails heads no entry of the association list. -/
theorem lookup_none_forall {β : Type} (l : List (Point3i × β)) (p : Point3i)
    (h : l.lookup p = none) : ∀ e ∈ l, e.1 ≠ p := by
  induction l with
  | nil => simp
  | cons e t ih =>
    obtain ⟨k, v⟩ := e
    by_cases hk : k = p
    · subst hk
      rw [lookup_cons_self] at h
      simp at h
    · rw [lookup_cons_ne _ _ _ _ (fun hh => hk hh.symm)] at h
      intro e he
      rcases List.mem_cons.mp he with rfl | he
      · exact hk
      · exact ih h e he

/-- A successful lookup comes from an entry of the list. -/
theorem lookup_some_mem {β : Type} (l : List (Point3i × β)) (p : Point3i) (v : β)
    (h : l.lookup p = some v) : (p, v) ∈ l := by
  induction l with
  | nil => simp at h
  | cons e t ih =>
    obtain ⟨k, w⟩ := e
    by_cases hk : k = p
    · subst hk
      rw [lookup_cons_self] at h
      injection h with h
      subst h
      exact List.mem_cons_self _ _
    · rw [lookup_cons_ne _ _ _ _ (fun hh => hk hh.symm)] at h
      exact List.mem_cons_of_mem _ (ih h)

/-- A fresh key makes `idxMapInsert` append. -/
theorem idxMapInsert_fresh (m : List (Point3i × Nat)) (p : Point3i) (i : Nat)
    (h : m.lookup p = none) : idxMapInsert m p i = m ++ [(p, i)] := by
  unfold idxMapInsert
  rw [if_neg (by simp [h])]

/-- One fresh load step preserves the chunk-index invariants. -/
theorem cis_load_step_inv (st : ChunkIndexState) (p : Point3i) (i : Nat)
    (rest : List Nat) (hInv : ChunkIndexInv st)
    (hfresh : st.chunk_position_to_gpu_index.lookup p = none)
    (havail : st.available_chunk_indices = i :: rest) :
    ChunkIndexInv ⟨st.chunk_position_to_gpu_index ++ [(p, i)], rest⟩ := by
  obtain ⟨hnav, hk, hv, hdis⟩ := hInv
  rw [havail] at hnav hdis
  refine ⟨(List.nodup_cons.mp hnav).2, ?_, ?_, ?_⟩
  · rw [List.map_append, List.nodup_append]
    refine ⟨hk, by simp, ?_⟩
    intro a ha hb
    simp only [List.map_cons, List.map_nil, List.mem_singleton] at hb
    subst hb
    obtain ⟨e, he, hfst⟩ := List.mem_map.mp ha
    exact lookup_none_forall _ _ hfresh e he hfst
  · rw [List.map_append, List.nodup_append]
    refine ⟨hv, by simp, ?_⟩
    intro a ha hb
    simp only [List.map_cons, List.map_nil, List.mem_singleton] at hb
    subst hb
    obtain ⟨e, he, hsnd⟩ := List.mem_map.mp ha
    exact hdis a (List.mem_cons_self _ _) e he hsnd
  · intro j hj e he
    rcases List.mem_append.mp he with he | he
    · exact hdis j (List.mem_cons_of_mem _ hj) e he
    · simp only [List.mem_singleton] at he
      subst he
      simp only [ne_eq]
      intro hji
      subst hji
      exact (List.nodup_cons.mp hnav).1 hj

/-- Folding the load step over `none` stays `none`. -/
theorem cis_load_fold_none (ps : List Point3i) :
    ps.foldl cisLoadStep none = none := by
  induction ps with
  | nil => rfl
  | cons p t ih => simpa [cisLoadStep] using ih

/-- The load loop over fresh, duplicate-free positions: preserves the
invariants, issues slots from the front of the free queue (never slots in
use), maps each loaded position to exactly one slot, and leaves other
positions' slots alone. -/
theorem cis_load_fold_spec (ps : List Point3i) :
    ∀ (st : ChunkIndexState) (cs cmds2 : List BufferWriteCommand)
      (st2 : ChunkIndexState),
    ChunkIndexInv st → ps.Nodup →
    (∀ p ∈ ps, st.chunk_position_to_gpu_index.lookup p = none) →
    ps.foldl cisLoadStep (some (cs, st)) = some (cmds2, st2) →
    ChunkIndexInv st2 ∧
    st2.available_chunk_indices = st.available_chunk_indices.drop ps.length ∧
    (∀ p ∈ ps, ∃ i, st2.chunk_position_to_gpu_index.lookup p = some i ∧
      i ∈ st.available_chunk_indices ∧
      ∀ e ∈ st.chunk_position_to_gpu_index, e.2 ≠ i) ∧
    (∀ q, q ∉ ps → st2.chunk_position_to_gpu_index.lookup q =
      st.chunk_position_to_gpu_index.lookup q) := by
  induction ps with
  | nil =>
    intro st cs cmds2 st2 hInv _ _ h
    simp only [List.foldl_nil, Option.some.injEq, Prod.mk.injEq] at h
    obtain ⟨_, h2⟩ := h
    subst h2
    exact ⟨hInv, by simp, by simp, fun q _ => rfl⟩
  | cons p t ih =>
    intro st cs cmds2 st2 hInv hnd hfresh h
    rw [List.foldl_cons] at h
    cases havail : st.available_chunk_indices with
    | nil =>
      rw [show cisLoadStep (some (cs, st)) p = none by
          simp [cisLoadStep, havail]] at h
      rw [cis_load_fold_none] at h
      exact absurd h (by simp)
    | cons i rest =>
      have hstep : cisLoadStep (some (cs, st)) p =
          some (cs ++
              [{ buffer_name := CHUNK_INDEX_BUFFER_NAME
                 offset := i * (3 * 4)
                 data := .chunkCoordData [p.x, p.y, p.z] }],
            { chunk_position_to_gpu_index :=
                st.chunk_position_to_gpu_index ++ [(p, i)]
              available_chunk_indices := rest }) := by
        simp [cisLoadStep, havail,
          idxMapInsert_fresh _ _ _ (hfresh p (List.mem_cons_self _ _))]
      rw [hstep] at h
      set st1 : ChunkIndexState :=
        { chunk_position_to_gpu_index := st.chunk_position_to_gpu_index ++ [(p, i)]
          available_chunk_indices := rest } with hst1
      have hInv1 : ChunkIndexInv st1 :=
        cis_load_step_inv st p i rest hInv (hfresh p (List.mem_cons_self _ _)) havail
      have hnd1 : t.Nodup := (List.nodup_cons.mp hnd).2
      have hpnott : p ∉ t := (List.nodup_cons.mp hnd).1
      have hfresh1 : ∀ q ∈ t, st1.chunk_position_to_gpu_index.lookup q = none := by
        intro q hq
        have hqp : q ≠ p := fun hh => hpnott (hh ▸ hq)
        show (st.chunk_position_to_gpu_index ++ [(p, i)]).lookup q = none
        rw [lookup_append_ne _ _ _ _ hqp]
        exact hfresh q (List.mem_cons_of_mem _ hq)
      obtain ⟨iInv, iav, iassigned, ipres⟩ := ih st1 _ cmds2 st2 hInv1 hnd1 hfresh1 h
      refine ⟨iInv, ?_, ?_, ?_⟩
      · rw [iav]
        simp [hst1]
      · intro q hq
        rcases List.mem_cons.mp hq with rfl | hq
        · refine ⟨i, ?_, List.mem_cons_self _ _, ?_⟩
          · rw [ipres q hpnott]
            exact lookup_append_new _ _ _ (hfresh q (List.mem_cons_self _ _))
          · intro e he
            exact (hInv.2.2.2) i (by rw [havail]; exact List.mem_cons_self _ _) e he
        · obtain ⟨j, hj1, hj2, hj3⟩ := iassigned q hq
          refine ⟨j, hj1, ?_, ?_⟩
          · exact List.mem_cons_of_mem _ (by simpa [hst1] using hj2)
          · intro e he
            exact hj3 e (List.mem_append_left _ he)
      · intro q hq
        have hqp : q ≠ p := fun hh => hq (hh ▸ List.mem_cons_self _ _)
        have hqt : q ∉ t := fun hh => hq (List.mem_cons_of_mem _ hh)
        rw [ipres q hqt]
        exact lookup_append_ne _ _ _ _ hqp

/-- One unload step (for a loaded position) preserves the invariants. -/
theorem cis_unload_step_inv (st : ChunkIndexState) (p : Point3i) (i : Nat)
    (hInv : ChunkIndexInv st)
    (hl : st.chunk_position_to_gpu_index.lookup p = some i) :
    ChunkIndexInv
      ⟨st.chunk_position_to_gpu_index.filter (fun e => ¬ e.1 = p),
        st.available_chunk_indices ++ [i]⟩ := by
  obtain ⟨hnav, hk, hv, hdis⟩ := hInv
  have hmem : (p, i) ∈ st.chunk_position_to_gpu_index := lookup_some_mem _ _ _ hl
  have hsub : (st.chunk_position_to_gpu_index.filter (fun e => ¬ e.1 = p)).Sublist
      st.chunk_position_to_gpu_index := List.filter_sublist _
  refine ⟨?_, (hsub.map Prod.fst).nodup hk, (hsub.map Prod.snd).nodup hv, ?_⟩
  · rw [List.nodup_append]
    refine ⟨hnav, by simp, ?_⟩
    intro a ha hb
    simp only [List.mem_singleton] at hb
    exact hdis i (hb ▸ ha) (p, i) hmem rfl
  · intro j hj e he
    rcases List.mem_append.mp hj with hj | hj
    · exact hdis j hj e (hsub.mem he)
    · simp only [List.mem_singleton] at hj
      rw [hj]
      intro hei
      have hein : e ∈ st.chunk_position_to_gpu_index := hsub.mem he
      have hepi : e = (p, i) :=
        List.inj_on_of_nodup_map hv hein hmem (by simpa using hei)
      have hep : e.1 ≠ p := by
        have := List.of_mem_filter he
        simpa using this
      exact hep (by rw [hepi])

/-- The unload loop preserves the invariants. -/
theorem cis_unload_fold_inv (ps : List Point3i) :
    ∀ st : ChunkIndexState, ChunkIndexInv st →
    ChunkIndexInv (st.unload_chunk_positions ps) := by
  induction ps with
  | nil => intro st h; exact h
  | cons p t ih =>
    intro st hInv
    show ChunkIndexInv ((p :: t).foldl _ st)
    rw [List.foldl_cons]
    cases hl : st.chunk_position_to_gpu_index.lookup p with
    | none =>
      have : ChunkIndexInv (st.unload_chunk_positions t) := ih st hInv
      simpa [ChunkIndexState.unload_chunk_positions, hl] using this
    | some i =>
      have hstep := cis_unload_step_inv st p i hInv hl
      have := ih _ hstep
      simpa [ChunkIndexState.unload_chunk_positions, hl] using this

/-- C6 (amended): provided a position is never loaded again while it is still
loaded, the chunk-index table maintains its invariants: starting from the
fresh table they hold; a successful guarded load keeps them, issues each
loaded position exactly one slot taken from the free queue (never a slot
that is in use) and leaves other positions alone; unloading keeps the
invariants; and unloading a loaded position returns exactly its slot to the
free queue and clears its assignment, which is the only way a slot is ever
freed. -/
theorem chunk_index_slots_amended :
    ChunkIndexInv ChunkIndexState.new ∧
    (∀ (st : ChunkIndexState) (ps : List Point3i)
      (cmds : List BufferWriteCommand) (st2 : ChunkIndexState),
      ChunkIndexInv st → ps.Nodup →
      (∀ p ∈ ps, st.chunk_position_to_gpu_index.lookup p = none) →
      st.load_chunk_positions ps = some (cmds, st2) →
      ChunkIndexInv st2 ∧
      st2.available_chunk_indices = st.available_chunk_indices.drop ps.length ∧
      (∀ p ∈ ps, ∃ i, st2.chunk_position_to_gpu_index.lookup p = some i ∧
        i ∈ st.available_chunk_indices ∧
        ∀ e ∈ st.chunk_position_to_gpu_index, e.2 ≠ i) ∧
      (∀ q, q ∉ ps → st2.chunk_position_to_gpu_index.lookup q =
        st.chunk_position_to_gpu_index.lookup q)) ∧
    (∀ (st : ChunkIndexState) (ps : List Point3i),
      ChunkIndexInv st → ChunkIndexInv (st.unload_chunk_positions ps)) ∧
    (∀ (st : ChunkIndexState) (p : Point3i) (i : Nat),
      ChunkIndexInv st → st.chunk_position_to_gpu_index.lookup p = some i →
      (st.unload_chunk_positions [p]).available_chunk_indices =
        st.available_chunk_indices ++ [i] ∧
      (st.unload_chunk_positions [p]).chunk_position_to_gpu_index.lookup p =
        none) := by
  refine ⟨?_, ?_, fun st ps => cis_unload_fold_inv ps st, ?_⟩
  · refine ⟨?_, by simp [ChunkIndexState.new], by simp [ChunkIndexState.new], ?_⟩
    · show (List.range WORLD_DIMENSION).Nodup
      exact List.nodup_range _
    · intro i _ e he
      simp [ChunkIndexState.new] at he
  · intro st ps cmds st2 hInv hnd hfresh h
    exact cis_load_fold_spec ps st [] cmds st2 hInv hnd hfresh h
  · intro st p i hInv hl
    constructor
    · show ([p].foldl _ st).available_chunk_indices = _
      simp [ChunkIndexState.unload_chunk_positions, hl]
    · show ([p].foldl _ st).chunk_position_to_gpu_index.lookup p = none
      simp only [List.foldl_cons, List.foldl_nil, hl]
      exact lookup_filter_self _ _

/-- Witness for the amended C6: loading one position into the two-slot table
issues it slot 0 from the free queue. -/
theorem chunk_index_slots_amended_witness :
    ∃ st2, cisTwoSlots.load_chunk_positions [⟨1, 2, 3⟩] =
        some ([{ buffer_name := CHUNK_INDEX_BUFFER_NAME, offset := 0
                 data := .chunkCoordData [1, 2, 3] }], st2) ∧
      ChunkIndexInv st2 ∧
      st2.available_chunk_indices = [1] := by
  obtain ⟨hInv, hav, _, _⟩ :=
    (chunk_index_slots_amended.2.1) cisTwoSlots [⟨1, 2, 3⟩] _ _
      (by refine ⟨?_, ?_, ?_, ?_⟩ <;> simp [cisTwoSlots]) (by simp)
      (by intro p hp; simp only [List.mem_singleton] at hp; subst hp; rfl) rfl
  exact ⟨_, rfl, hInv, hav⟩

/-! ## Index bounds of the emitted mesh (C10) -/

/-- A face's four vertices. -/
theorem generate_face_vertices_length (face : Face) (index : Nat) :
    (Mesh.generate_face_vertices face index).length = 4 := rfl

/-- Folding the emission step preserves: each side's vertex count is four per
emitted face, and every emitted index is below that count. -/
theorem assemble_fold_inv (faces : List Face) (index : Nat) :
    ∀ acc : (BlockSide → List Vertex) × (BlockSide → List Nat) × (BlockSide → Nat),
    (∀ s, (acc.1 s).length = 4 * acc.2.2 s) →
    (∀ s, ∀ i ∈ acc.2.1 s, i < 4 * acc.2.2 s) →
    (∀ s, ((faces.foldl (assembleStep index) acc).1 s).length =
      4 * (faces.foldl (assembleStep index) acc).2.2 s) ∧
    (∀ s, ∀ i ∈ (faces.foldl (assembleStep index) acc).2.1 s,
      i < 4 * (faces.foldl (assembleStep index) acc).2.2 s) := by
  induction faces with
  | nil => intro acc h1 h2; exact ⟨h1, h2⟩
  | cons f t ih =>
    intro acc h1 h2
    rw [List.foldl_cons]
    apply ih
    · intro s
      dsimp only [assembleStep]
      by_cases hs : s = f.block_side
      · rw [if_pos hs, if_pos hs, List.length_append, generate_face_vertices_length, h1 s]
        omega
      · rw [if_neg hs, if_neg hs]
        exact h1 s
    · intro s i hi
      dsimp only [assembleStep] at hi ⊢
      by_cases hs : s = f.block_side
      · rw [if_pos hs] at hi
        rw [if_pos hs]
        have hseq : acc.2.2 s = acc.2.2 f.block_side := by rw [hs]
        rcases List.mem_append.mp hi with hmem | hmem
        · have := h2 s i hmem
          omega
        · simp only [Mesh.generate_face_indices, List.mem_cons,
            List.not_mem_nil, or_false] at hmem
          rcases hmem with rfl | rfl | rfl | rfl | rfl | rfl <;> omega
      · rw [if_neg hs] at hi
        rw [if_neg hs]
        exact h2 s i hi

/-- C10: in the `Mesh` returned by `greedy_sided`, every element of each
side's index list is strictly below that side's vertex count, so indexing
the side's vertex array with an emitted index never goes out of bounds. -/
theorem greedy_sided_indices_in_bounds (chunk : Chunk) (index : Nat)
    (sides : List BlockSide) (s : BlockSide) (i : Nat)
    (hi : i ∈ ((greedy_sided chunk index sides).mesh s).indices) :
    i < ((greedy_sided chunk index sides).mesh s).vertices.length := by
  unfold greedy_sided at hi ⊢
  dsimp only [Mesh.add_vertices, Mesh.new, MeshSide.new] at hi ⊢
  simp only [List.nil_append, List.length_nil, List.mem_map] at hi
  obtain ⟨j, hj, hji⟩ := hi
  obtain ⟨hlen, hbound⟩ :=
    assemble_fold_inv (greedyFaces chunk sides) index
      (fun _ => [], fun _ => [], fun _ => 0) (fun s => rfl) (fun s i hi => by simp at hi)
  have hjb := hbound s j hj
  have hl := hlen s
  simp only [List.length_append, List.length_nil]
  omega

/-- A minimal chunk value with a single dirt block, used to exercise the
emission path concretely. -/
def tinyChunk : Chunk :=
  { position := ⟨0, 0, 0⟩
    solid_array := []
    offsets_at_plane := []
    blocks := [Block.new .DIRT] }

/-- Witness for C10: a concrete emitted index of the tiny chunk's FRONT side
is below the side's vertex count. -/
theorem greedy_sided_indices_in_bounds_witness :
    3 ∈ ((greedy_sided tinyChunk 0 BlockSide.all).mesh .FRONT).indices ∧
    3 < ((greedy_sided tinyChunk 0 BlockSide.all).mesh .FRONT).vertices.length :=
  ⟨by decide, greedy_sided_indices_in_bounds tinyChunk 0 BlockSide.all .FRONT 3 (by decide)⟩

/-! ## Empty chunks (C8) -/

/-- Flattening a list of empty lists gives the empty list. -/
theorem flatten_nil_of_all_nil {α : Type} (l : List (List α))
    (h : ∀ x ∈ l, x = []) : l.flatten = [] := by
  induction l with
  | nil => rfl
  | cons x t ih =>
    rw [List.flatten_cons, h x (List.mem_cons_self _ _), List.nil_append]
    exact ih (fun y hy => h y (List.mem_cons_of_mem _ hy))

/-- `getD` of a list of empty lists is empty. -/
theorem getD_nil_of_all_nil (l : List (List Face)) (i : Nat)
    (h : ∀ x ∈ l, x = []) : l.getD i [] = [] := by
  unfold List.getD
  cases hg : l.get? i with
  | none => rfl
  | some x => exact h x (List.get?_mem hg)

/-- All of a greedy state's layers are empty. -/
def EmptyLayers (st : GreedyState) : Prop :=
  (∀ s, ∀ l ∈ st.side_layers s, l = []) ∧
  (∀ s, ∀ l ∈ st.side_before_layers s, l = [])

/-- Pushing a block type of AIR leaves the dense block list untouched. -/
theorem push_air_blocks (s : ChunkCreationIterator) :
    (s.push_block_type BlockType.AIR).blocks = s.blocks := by
  unfold ChunkCreationIterator.push_block_type
  dsimp only
  split
  · split
    · split <;> rfl
    · rfl
  · rfl

/-- Pushing only AIR produces no dense blocks. -/
theorem foldl_air_blocks (bts : List BlockType) :
    ∀ s : ChunkCreationIterator, (∀ b ∈ bts, b = BlockType.AIR) →
    (bts.foldl ChunkCreationIterator.push_block_type s).blocks = s.blocks := by
  induction bts with
  | nil => intro s _; rfl
  | cons b t ih =>
    intro s h
    rw [List.foldl_cons, h b (List.mem_cons_self _ _)]
    rw [ih _ (fun x hx => h x (List.mem_cons_of_mem _ hx))]
    exact push_air_blocks s

/-- A chunk with no dense blocks yields an empty iterator stream. -/
theorem blockList_nil (c : Chunk) (h : c.blocks = []) : c.blockList = [] := by
  unfold Chunk.blockList
  rw [h]
  show chunkBlocksAux c ChunkBlockIterator.new 1 = []
  unfold chunkBlocksAux
  rw [show c.get_next_block ChunkBlockIterator.new = none by
    unfold Chunk.get_next_block
    rw [if_pos (by rw [h]; exact Nat.zero_le _)]]

/-- Merging two empty layers flushes nothing and leaves nothing. -/
theorem greedyMergeLayer_nil (side : BlockSide) :
    greedyMergeLayer side [] [] = ([], []) := rfl

/-- The cross-layer flush of an all-empty state keeps it all-empty and adds
no faces. -/
theorem flushSide_empty (st : GreedyState) (side : BlockSide)
    (hE : EmptyLayers st) :
    EmptyLayers (flushSide st side) ∧
    (flushSide st side).faces_to_make = st.faces_to_make := by
  have hlayers : ∀ i, greedyMergeLayer side
      ((st.side_before_layers side).getD i []) ((st.side_layers side).getD i []) =
      ([], []) := by
    intro i
    rw [getD_nil_of_all_nil _ _ (hE.2 side), getD_nil_of_all_nil _ _ (hE.1 side)]
    rfl
  refine ⟨⟨?_, ?_⟩, ?_⟩
  · intro s l hl
    unfold flushSide at hl
    dsimp only at hl
    by_cases hs : s = side
    · rw [if_pos hs] at hl
      exact (List.eq_of_mem_replicate hl)
    · rw [if_neg hs] at hl
      exact hE.1 s l hl
  · intro s l hl
    unfold flushSide at hl
    dsimp only at hl
    by_cases hs : s = side
    · rw [if_pos hs] at hl
      unfold greedyMergeAndModifyVecs at hl
      dsimp only at hl
      obtain ⟨r, hr, hrl⟩ := List.mem_map.mp hl
      obtain ⟨i, _, hri⟩ := List.mem_map.mp hr
      rw [← hri, hlayers i] at hrl
      exact hrl.symm
    · rw [if_neg hs] at hl
      exact hE.2 s l hl
  · unfold flushSide greedyMergeAndModifyVecs
    dsimp only
    rw [flatten_nil_of_all_nil, List.append_nil]
    intro x hx
    obtain ⟨r, hr, hrx⟩ := List.mem_map.mp hx
    obtain ⟨i, _, hri⟩ := List.mem_map.mp hr
    rw [← hri, hlayers i] at hrx
    exact hrx.symm

/-- The conditional flush preserves all-empty states. -/
theorem flushSideIf_empty (sides : List BlockSide) (st : GreedyState)
    (side : BlockSide) (hE : EmptyLayers st) :
    EmptyLayers (flushSideIf sides st side) ∧
    (flushSideIf sides st side).faces_to_make = st.faces_to_make := by
  unfold flushSideIf
  split
  · exact flushSide_empty st side hE
  · exact ⟨hE, rfl⟩

/-- An all-air chunk produces no faces at all. -/
theorem greedyFaces_empty_chunk (c : Chunk) (sides : List BlockSide)
    (h : c.blocks = []) : greedyFaces c sides = [] := by
  unfold greedyFaces
  rw [blockList_nil c h, List.foldl_nil]
  dsimp only
  have h0 : EmptyLayers GreedyState.init ∧
      GreedyState.init.faces_to_make = [] := by
    refine ⟨⟨?_, ?_⟩, rfl⟩ <;>
      exact fun s l hl => List.eq_of_mem_replicate hl
  obtain ⟨hE1, hf1⟩ := flushSideIf_empty sides GreedyState.init .FRONT h0.1
  obtain ⟨hE2, hf2⟩ := flushSideIf_empty sides _ .BACK hE1
  obtain ⟨hE3, hf3⟩ := flushSideIf_empty sides _ .LEFT hE2
  obtain ⟨hE4, hf4⟩ := flushSideIf_empty sides _ .RIGHT hE3
  obtain ⟨hE5, hf5⟩ := flushSideIf_empty sides _ .TOP hE4
  obtain ⟨hE6, hf6⟩ := flushSideIf_empty sides _ .BOTTOM hE5
  rw [hf6, hf5, hf4, hf3, hf2, hf1, h0.2, List.nil_append]
  apply flatten_nil_of_all_nil
  intro x hx
  obtain ⟨s, _, hsx⟩ := List.mem_map.mp hx
  rw [← hsx]
  rw [flatten_nil_of_all_nil _ (hE6.2 s), flatten_nil_of_all_nil _ (hE6.1 s)]
  rfl

/-- The per-side loop of `prepare_mesh_for_write` skips all-empty sides. -/
theorem prepareSides_all_empty (bm : MeshBucketManager) (p : Point3i) :
    ∀ ms : List MeshSide, (∀ sm ∈ ms, sm.vertices = []) →
    prepareSides bm p ms = some ([], bm) := by
  intro ms
  induction ms with
  | nil => intro _; rfl
  | cons sm t ih =>
    intro h
    unfold prepareSides
    rw [if_pos (by rw [h sm (List.mem_cons_self _ _)]; rfl)]
    exact ih (fun x hx => h x (List.mem_cons_of_mem _ hx))

/-- C8: a chunk built from only AIR block types greedy-meshes to a `Mesh`
whose six per-side vertex and index lists are all empty, and
`prepare_mesh_for_write` applied to that mesh, whenever a chunk-index slot is
free, evicts nothing and emits zero buffer-write commands. -/
theorem empty_chunk_empty_mesh_and_no_writes (pos : Point3i) (bts : List BlockType)
    (idx : Nat) (sides : List BlockSide)
    (_hlen : bts.length = CHUNK_SIZE)
    (hall : ∀ b ∈ bts, b = BlockType.AIR) :
    (∀ s, ((greedy_sided (chunkFromBlockTypes pos bts) idx sides).mesh s).vertices = [] ∧
      ((greedy_sided (chunkFromBlockTypes pos bts) idx sides).mesh s).indices = []) ∧
    (∀ (m : MeshManager) (p : Point3i),
      m.chunk_index_state.can_allocate_index = true →
      ∃ m2, m.prepare_mesh_for_write p
        (greedy_sided (chunkFromBlockTypes pos bts) idx sides) = some ([], m2)) := by
  have hblocks : (chunkFromBlockTypes pos bts).blocks = [] := by
    unfold chunkFromBlockTypes ChunkCreationIterator.return_chunk
    exact foldl_air_blocks bts _ hall
  have hfaces : greedyFaces (chunkFromBlockTypes pos bts) sides = [] :=
    greedyFaces_empty_chunk _ sides hblocks
  have hmesh : ∀ s,
      ((greedy_sided (chunkFromBlockTypes pos bts) idx sides).mesh s).vertices = [] ∧
      ((greedy_sided (chunkFromBlockTypes pos bts) idx sides).mesh s).indices = [] := by
    intro s
    unfold greedy_sided
    rw [hfaces]
    exact ⟨rfl, rfl⟩
  refine ⟨hmesh, ?_⟩
  intro m p hidx
  have hvl : ∀ s, (greedy_sided (chunkFromBlockTypes pos bts) idx sides).get_vertex_lens s = 0 := by
    intro s
    unfold Mesh.get_vertex_lens
    rw [(hmesh s).1]
    rfl
  have hcan : m.bucket_manager.can_allocate_buckets
      (greedy_sided (chunkFromBlockTypes pos bts) idx sides).get_vertex_lens = true := by
    unfold MeshBucketManager.can_allocate_buckets
    rw [List.all_eq_true]
    intro side _
    rw [hvl side]
    simp [rustDivCeil, NUM_VERTICES_PER_BUCKET]
  unfold MeshManager.prepare_mesh_for_write
  dsimp only
  rw [show evictLoop m (greedy_sided (chunkFromBlockTypes pos bts) idx sides).get_vertex_lens []
      (m.least_recently_meshed_chunks.entries.length + 1) = some ([], m) by
    unfold evictLoop
    rw [if_pos ⟨hcan, hidx⟩]]
  dsimp only
  rw [prepareSides_all_empty _ _ _ (by
    intro sm hsm
    obtain ⟨s, _, hssm⟩ := List.mem_map.mp hsm
    rw [← hssm]
    exact (hmesh s).1)]
  exact ⟨_, rfl⟩

/-- Witness for C8: the all-air chunk at the origin, with a fresh mesh
manager. -/
theorem empty_chunk_empty_mesh_witness :
    ((greedy_sided (chunkFromBlockTypes ⟨0, 0, 0⟩ (List.replicate CHUNK_SIZE BlockType.AIR))
        0 BlockSide.all).mesh .FRONT).vertices = [] ∧
    ∃ m2, MeshManager.new.prepare_mesh_for_write ⟨0, 0, 0⟩
      (greedy_sided (chunkFromBlockTypes ⟨0, 0, 0⟩ (List.replicate CHUNK_SIZE BlockType.AIR))
        0 BlockSide.all) = some ([], m2) := by
  have h := empty_chunk_empty_mesh_and_no_writes ⟨0, 0, 0⟩
    (List.replicate CHUNK_SIZE BlockType.AIR) 0 BlockSide.all
    (by simp) (fun b hb => List.eq_of_mem_replicate hb)
  exact ⟨(h.1 .FRONT).1, h.2 MeshManager.new ⟨0, 0, 0⟩ rfl⟩

/-! ## The mesh manager's eviction discipline and bucket bound (C1) -/

/-- Number of buckets currently owned by chunks, per side. -/
def usedBucketCount (bm : MeshBucketManager) (s : BlockSide) : Nat :=
  (bm.chunk_position_to_used_buckets.map
    (fun e => (e.2.filter (fun b => b.side = s)).length)).sum

/-- The bucket-manager invariants: free buckets sit in the queue of their own
side, ownership keys are unique, and per side the free plus owned counts
always equal the fixed pool size. -/
def SideInv (bm : MeshBucketManager) : Prop :=
  (∀ s, ∀ b ∈ bm.available_buckets s, b.side = s) ∧
  (bm.chunk_position_to_used_buckets.map Prod.fst).Nodup ∧
  (∀ s, (bm.available_buckets s).length + usedBucketCount bm s =
    NUM_BUFFERS_PER_SIDE * NUM_BUCKETS_PER_BUFFER)

/-- `ownMapExtend` preserves the key list when the key is present, and
appends the fresh key otherwise. -/
theorem ownMapExtend_keys (mp : List (Point3i × List BucketLocation))
    (p : Point3i) (bs : List BucketLocation)
    (hnd : (mp.map Prod.fst).Nodup) :
    ((ownMapExtend mp p bs).map Prod.fst).Nodup := by
  unfold ownMapExtend
  split
  · rw [List.map_map]
    have : mp.map (Prod.fst ∘ fun e => if e.1 = p then (e.1, e.2 ++ bs) else e) =
        mp.map Prod.fst := by
      apply List.map_congr_left
      intro e _
      show (if e.1 = p then (e.1, e.2 ++ bs) else e).1 = e.1
      split <;> rfl
    rw [this]
    exact hnd
  · rename_i hfresh
    have hnone : mp.lookup p = none := by
      cases hl : mp.lookup p
      · rfl
      · rw [hl] at hfresh; simp at hfresh
    rw [List.map_append, List.nodup_append]
    refine ⟨hnd, by simp, ?_⟩
    intro a ha hb
    simp only [List.map_cons, List.map_nil, List.mem_singleton] at hb
    subst hb
    obtain ⟨e, he, hfst⟩ := List.mem_map.mp ha
    exact lookup_none_forall _ _ hnone e he hfst

/-- Effect of the extend-existing branch on an additive per-entry sum with
unique keys. -/
theorem sum_map_extend_present (g : List BucketLocation → Nat)
    (hg : ∀ v w, g (v ++ w) = g v + g w) (bs : List BucketLocation)
    (p : Point3i) :
    ∀ (mp : List (Point3i × List BucketLocation)) (v : List BucketLocation),
    (mp.map Prod.fst).Nodup → mp.lookup p = some v →
    ((mp.map (fun e => if e.1 = p then (e.1, e.2 ++ bs) else e)).map
      (fun e => g e.2)).sum =
      (mp.map (fun e => g e.2)).sum + g bs := by
  intro mp
  induction mp with
  | nil => intro v _ hl; simp at hl
  | cons e t ih =>
    intro v hnd hl
    obtain ⟨k, w⟩ := e
    by_cases hk : k = p
    · subst hk
      have hknot : ∀ e2 ∈ t, ¬ e2.1 = k := by
        intro e2 he2 hek
        rw [List.map_cons, List.nodup_cons] at hnd
        exact hnd.1 (List.mem_map.mpr ⟨e2, he2, hek⟩)
      have htmap : t.map (fun e => if e.1 = k then (e.1, e.2 ++ bs) else e) = t := by
        conv_rhs => rw [← List.map_id t]
        apply List.map_congr_left
        intro e2 he2
        rw [if_neg (hknot e2 he2)]
        rfl
      simp only [List.map_cons, if_pos rfl, if_true, htmap, List.sum_cons]
      rw [hg w bs]
      omega
    · have hl2 : t.lookup p = some v := by
        rw [lookup_cons_ne _ _ _ _ (fun hh => hk hh.symm)] at hl
        exact hl
      have hnd2 : (t.map Prod.fst).Nodup := by
        rw [List.map_cons, List.nodup_cons] at hnd
        exact hnd.2
      simp only [List.map_cons, if_neg hk, List.sum_cons]
      rw [ih v hnd2 hl2]
      omega

/-- Effect of `ownMapExtend` on an additive per-entry sum with unique keys. -/
theorem sum_map_ownMapExtend (g : List BucketLocation → Nat)
    (hg : ∀ v w, g (v ++ w) = g v + g w)
    (mp : List (Point3i × List BucketLocation)) (p : Point3i)
    (bs : List BucketLocation) (hnd : (mp.map Prod.fst).Nodup) :
    ((ownMapExtend mp p bs).map (fun e => g e.2)).sum =
      (mp.map (fun e => g e.2)).sum + g bs := by
  unfold ownMapExtend
  split
  · rename_i hpres
    cases hl : mp.lookup p with
    | none => rw [hl] at hpres; simp at hpres
    | some v => exact sum_map_extend_present g hg bs p mp v hnd hl
  · simp [hg]

/-- Effect of dropping a unique key on an additive per-entry sum. -/
theorem sum_map_filter_key (g : List BucketLocation → Nat) (p : Point3i) :
    ∀ (mp : List (Point3i × List BucketLocation)) (v : List BucketLocation),
    (mp.map Prod.fst).Nodup → mp.lookup p = some v →
    ((mp.filter (fun e => ¬ e.1 = p)).map (fun e => g e.2)).sum + g v =
      (mp.map (fun e => g e.2)).sum := by
  intro mp
  induction mp with
  | nil => intro v _ hl; simp at hl
  | cons e t ih =>
    intro v hnd hl
    obtain ⟨k, w⟩ := e
    by_cases hk : k = p
    · subst hk
      rw [lookup_cons_self] at hl
      injection hl with hl
      subst hl
      have hknot : ∀ e2 ∈ t, ¬ e2.1 = k := by
        intro e2 he2 hek
        rw [List.map_cons, List.nodup_cons] at hnd
        exact hnd.1 (List.mem_map.mpr ⟨e2, he2, hek⟩)
      have htf : t.filter (fun e => ¬ e.1 = k) = t := by
        rw [List.filter_eq_self]
        intro e2 he2
        simpa using hknot e2 he2
      rw [List.filter_cons]
      rw [if_neg (by simp)]
      rw [htf, List.map_cons, List.sum_cons]
      dsimp only
      omega
    · have hl2 : t.lookup p = some v := by
        rw [lookup_cons_ne _ _ _ _ (fun hh => hk hh.symm)] at hl
        exact hl
      have hnd2 : (t.map Prod.fst).Nodup := by
        rw [List.map_cons, List.nodup_cons] at hnd
        exact hnd.2
      rw [List.filter_cons, if_pos (by simpa using hk)]
      simp only [List.map_cons, List.sum_cons]
      rw [← ih v hnd2 hl2]
      omega

/-- A successful `allocate_buckets` call preserves the bucket-manager
invariants. -/
theorem allocate_sideInv (m m2 : MeshBucketManager) (p : Point3i)
    (v : List Vertex) (ivec : List Nat) (sd : BlockSide)
    (tr : List (BucketLocation × List Vertex × List Nat))
    (h : m.allocate_buckets p v ivec sd = some (tr, m2))
    (hi : SideInv m) : SideInv m2 := by
  obtain ⟨hside, hnd, hsum⟩ := hi
  unfold MeshBucketManager.allocate_buckets at h
  split at h
  · exact absurd h (by simp)
  · dsimp only at h
    cases hloop : allocLoop (m.available_buckets sd) v ivec 0
        (rustDivCeil v.length NUM_VERTICES_PER_BUCKET) with
    | none => rw [hloop] at h; simp at h
    | some r =>
      rw [hloop] at h
      obtain ⟨acc, avail2⟩ := r
      simp only [Option.some.injEq, Prod.mk.injEq] at h
      obtain ⟨htr, hm2⟩ := h
      obtain ⟨hused, havail2⟩ := allocLoop_shape _ _ _ _ _ _ _ hloop
      subst havail2
      set n := rustDivCeil v.length NUM_VERTICES_PER_BUCKET with hn
      have hm2avail : ∀ s, m2.available_buckets s =
          if s = sd then (m.available_buckets sd).drop n
          else m.available_buckets s := by
        intro s
        rw [← hm2]
      have hm2map : m2.chunk_position_to_used_buckets =
          ownMapExtend m.chunk_position_to_used_buckets p
            (acc.map (fun t => t.1)) := by
        rw [← hm2]
      refine ⟨?_, ?_, ?_⟩
      · intro s b hb
        rw [hm2avail] at hb
        by_cases hs : s = sd
        · subst hs
          rw [if_pos rfl] at hb
          exact hside s b (List.mem_of_mem_drop hb)
        · rw [if_neg hs] at hb
          exact hside s b hb
      · rw [hm2map]
        exact ownMapExtend_keys _ _ _ hnd
      · intro s
        have hg : ∀ a b2 : List BucketLocation,
            ((a ++ b2).filter (fun b => b.side = s)).length =
            (a.filter (fun b => b.side = s)).length +
            (b2.filter (fun b => b.side = s)).length := by
          intro a b2
          rw [List.filter_append, List.length_append]
        have huse : usedBucketCount m2 s =
            usedBucketCount m s +
            ((acc.map (fun t => t.1)).filter (fun b => b.side = s)).length := by
          unfold usedBucketCount
          rw [hm2map]
          exact sum_map_ownMapExtend
            (fun l => (l.filter (fun b => b.side = s)).length) hg
            m.chunk_position_to_used_buckets p (acc.map (fun t => t.1)) hnd
        rw [hm2avail, huse]
        by_cases hs : s = sd
        · subst hs
          rw [if_pos rfl]
          have hfl : ((acc.map (fun t => t.1)).filter (fun b => b.side = s)) =
              acc.map (fun t => t.1) := by
            rw [List.filter_eq_self]
            intro b hb
            rw [hused] at hb
            simp [hside s b (List.mem_of_mem_take hb)]
          rw [hfl, hused]
          have := hsum s
          simp only [List.length_drop, List.length_take]
          omega
        · rw [if_neg hs]
          have hfl : ((acc.map (fun t => t.1)).filter (fun b => b.side = s)) =
              ([] : List BucketLocation) := by
            rw [List.filter_eq_nil_iff]
            intro b hb
            rw [hused] at hb
            have hbs : b.side = sd := hside sd b (List.mem_of_mem_take hb)
            simp only [hbs, decide_eq_true_eq]
            exact fun hcc => hs hcc.symm
          rw [hfl]
          have := hsum s
          simpa using this

/-- Deallocating one owning chunk preserves the bucket-manager invariants. -/
theorem dealloc_one_sideInv (bm : MeshBucketManager) (p : Point3i)
    (bs : List BucketLocation)
    (hl : bm.chunk_position_to_used_buckets.lookup p = some bs)
    (hi : SideInv bm) :
    SideInv { available_buckets := bs.foldl pushBucketBack bm.available_buckets
              chunk_position_to_used_buckets :=
                bm.chunk_position_to_used_buckets.filter
                  (fun e => ¬ e.1 = p) } := by
  obtain ⟨hside, hnd, hsum⟩ := hi
  refine ⟨?_, ?_, ?_⟩
  · intro s b hb
    dsimp only at hb
    rw [pushBack_fold_spec] at hb
    rcases List.mem_append.mp hb with hb | hb
    · exact hside s b hb
    · have := List.of_mem_filter hb
      simpa using this
  · exact ((List.filter_sublist _).map Prod.fst).nodup hnd
  · intro s
    have hkey : ((bm.chunk_position_to_used_buckets.filter
          (fun e => ¬ e.1 = p)).map
          (fun e => (e.2.filter (fun b => b.side = s)).length)).sum +
        (bs.filter (fun b => b.side = s)).length =
        (bm.chunk_position_to_used_buckets.map
          (fun e => (e.2.filter (fun b => b.side = s)).length)).sum :=
      sum_map_filter_key (fun l => (l.filter (fun b => b.side = s)).length) p
        bm.chunk_position_to_used_buckets bs hnd hl
    have hs := hsum s
    unfold usedBucketCount at hs ⊢
    dsimp only
    rw [pushBack_fold_spec, List.length_append]
    omega

/-- Folding the deallocation step over any position list preserves the
bucket-manager invariants. -/
theorem dealloc_fold_sideInv (ps : List Point3i) :
    ∀ (d : List BucketLocation) (bm : MeshBucketManager), SideInv bm →
    SideInv (ps.foldl deallocStep (d, bm)).2 := by
  induction ps with
  | nil => intro d bm hi; exact hi
  | cons p t ih =>
    intro d bm hi
    rw [List.foldl_cons]
    cases hl : bm.chunk_position_to_used_buckets.lookup p with
    | none =>
      have hstep : deallocStep (d, bm) p = (d, bm) := by
        simp only [deallocStep, hl]
      rw [hstep]
      exact ih d bm hi
    | some bs =>
      have hstep : deallocStep (d, bm) p = (d ++ bs,
          { available_buckets := bs.foldl pushBucketBack bm.available_buckets
            chunk_position_to_used_buckets :=
              bm.chunk_position_to_used_buckets.filter
                (fun e => ¬ e.1 = p) }) := by
        simp only [deallocStep, hl]
      rw [hstep]
      exact ih _ _ (dealloc_one_sideInv bm p bs hl hi)

/-- `MeshManager::unload_chunk_positions` preserves the bucket-manager
invariants. -/
theorem unload_preserves_sideInv (m : MeshManager) (ps : List Point3i)
    (hi : SideInv m.bucket_manager) :
    SideInv ((m.unload_chunk_positions ps).2.bucket_manager) := by
  have heq : (m.unload_chunk_positions ps).2.bucket_manager =
      (m.bucket_manager.deallocate_buckets ps).2 := rfl
  rw [heq]
  unfold MeshBucketManager.deallocate_buckets
  exact dealloc_fold_sideInv ps [] m.bucket_manager hi

/-- The per-side allocation loop of `prepare_mesh_for_write` preserves the
bucket-manager invariants. -/
theorem prepareSides_sideInv (ms : List MeshSide) :
    ∀ (bm : MeshBucketManager) (p : Point3i) (cmds : List BufferWriteCommand)
      (bm2 : MeshBucketManager),
    prepareSides bm p ms = some (cmds, bm2) → SideInv bm → SideInv bm2 := by
  induction ms with
  | nil =>
    intro bm p cmds bm2 h hi
    simp only [prepareSides, Option.some.injEq, Prod.mk.injEq] at h
    rw [← h.2]
    exact hi
  | cons sm rest ih =>
    intro bm p cmds bm2 h hi
    rw [prepareSides] at h
    split at h
    · exact ih bm p cmds bm2 h hi
    · cases ha : bm.allocate_buckets p sm.vertices sm.indices sm.side with
      | none => rw [ha] at h; simp at h
      | some r =>
        rw [ha] at h
        obtain ⟨buckets, bmA⟩ := r
        dsimp only at h
        have hiA := allocate_sideInv bm bmA p _ _ _ _ ha hi
        cases hr : prepareSides bmA p rest with
        | none => rw [hr] at h; simp at h
        | some r2 =>
          rw [hr] at h
          obtain ⟨cmds2, bm3⟩ := r2
          simp only [Option.some.injEq, Prod.mk.injEq] at h
          rw [← h.2]
          exact ih bmA p cmds2 bm3 hr hiA

/-- A successful run of the eviction loop realises the eviction relation,
ends in a state where both capacity checks pass, and preserves the
bucket-manager invariants. -/
theorem evictLoop_evictStar (vl : BlockSide → Nat) (fuel : Nat) :
    ∀ (m : MeshManager) (acc cmds : List BufferWriteCommand) (m1 : MeshManager),
    evictLoop m vl acc fuel = some (cmds, m1) →
    EvictStar vl m m1 ∧
    m1.bucket_manager.can_allocate_buckets vl = true ∧
    m1.chunk_index_state.can_allocate_index = true ∧
    (SideInv m.bucket_manager → SideInv m1.bucket_manager) := by
  induction fuel with
  | zero =>
    intro m acc cmds m1 h
    exact absurd h (by simp [evictLoop])
  | succ fuel ih =>
    intro m acc cmds m1 h
    unfold evictLoop at h
    split at h
    · rename_i hok
      simp only [Option.some.injEq, Prod.mk.injEq] at h
      obtain ⟨hacc, hm⟩ := h
      subst hm
      exact ⟨EvictStar.refl m hok, hok.1, hok.2, fun hi => hi⟩
    · rename_i hfail
      cases hpop : m.least_recently_meshed_chunks.pop_lru with
      | none => rw [hpop] at h; simp at h
      | some pr =>
        obtain ⟨lru, lru2⟩ := pr
        rw [hpop] at h
        dsimp only at h
        cases hu : MeshManager.unload_chunk_positions
            { m with least_recently_meshed_chunks := lru2 } [lru] with
        | mk uc m2 =>
          rw [hu] at h
          dsimp only at h
          obtain ⟨hstar, hc1, hc2, hpres⟩ := ih m2 (acc ++ uc) cmds m1 h
          refine ⟨EvictStar.step m m2 m1 lru lru2 hfail hpop (by rw [hu]) hstar,
            hc1, hc2, ?_⟩
          intro hi
          apply hpres
          have hun := unload_preserves_sideInv
            { m with least_recently_meshed_chunks := lru2 } [lru] hi
          rw [hu] at hun
          exact hun

/-- Structure of a successful `prepare_mesh_for_write`: it factors into an
eviction phase ending only when both capacity checks pass, then the LRU push
of the new chunk, then per-side bucket allocation; and it preserves the
bucket-manager invariants. -/
theorem prepare_mesh_spec (m : MeshManager) (p : Point3i) (mesh : Mesh)
    (cmds : List BufferWriteCommand) (m2 : MeshManager)
    (h : m.prepare_mesh_for_write p mesh = some (cmds, m2)) :
    (SideInv m.bucket_manager → SideInv m2.bucket_manager) ∧
    ∃ m1 : MeshManager, EvictStar mesh.get_vertex_lens m m1 ∧
      m1.bucket_manager.can_allocate_buckets mesh.get_vertex_lens = true ∧
      m1.chunk_index_state.can_allocate_index = true ∧
      m2.least_recently_meshed_chunks =
        m1.least_recently_meshed_chunks.push p ∧
      ∃ (cmds2 : List BufferWriteCommand) (bm : MeshBucketManager),
        prepareSides m1.bucket_manager p (BlockSide.all.map mesh.mesh) =
          some (cmds2, bm) ∧ m2.bucket_manager = bm := by
  unfold MeshManager.prepare_mesh_for_write at h
  dsimp only at h
  cases he : evictLoop m mesh.get_vertex_lens []
      (m.least_recently_meshed_chunks.entries.length + 1) with
  | none => rw [he] at h; simp at h
  | some r =>
    rw [he] at h
    obtain ⟨wc, m1⟩ := r
    dsimp only at h
    cases hp : prepareSides m1.bucket_manager p (BlockSide.all.map mesh.mesh) with
    | none => rw [hp] at h; simp at h
    | some r2 =>
      rw [hp] at h
      obtain ⟨cmds2, bm⟩ := r2
      simp only [Option.some.injEq, Prod.mk.injEq] at h
      obtain ⟨hcmds, hm2⟩ := h
      obtain ⟨hstar, hc1, hc2, hpres⟩ := evictLoop_evictStar _ _ _ _ _ _ he
      refine ⟨?_, m1, hstar, hc1, hc2, ?_, cmds2, bm, hp, ?_⟩
      · intro hi
        have hbm := prepareSides_sideInv _ _ _ _ _ hp (hpres hi)
        rw [← hm2]
        exact hbm
      · rw [← hm2]
      · rw [← hm2]

/-- `MeshManager::generate_mesh_for_chunk` preserves the bucket-manager
invariants. -/
theorem generate_sideInv (m : MeshManager) (chunk : Chunk)
    (sides : List BlockSide) (wc : List BufferWriteCommand) (m2 : MeshManager)
    (h : m.generate_mesh_for_chunk chunk sides = some (wc, m2))
    (hi : SideInv m.bucket_manager) : SideInv m2.bucket_manager := by
  unfold MeshManager.generate_mesh_for_chunk at h
  cases hl : m.chunk_index_state.load_chunk_positions [chunk.position] with
  | none => rw [hl] at h; simp at h
  | some r =>
    rw [hl] at h
    obtain ⟨wcl, cis⟩ := r
    dsimp only at h
    cases hg : cis.get_index_for_position chunk.position with
    | none => rw [hg] at h; simp at h
    | some ci =>
      rw [hg] at h
      dsimp only at h
      cases hp : MeshManager.prepare_mesh_for_write
          { m with chunk_index_state := cis } chunk.position
          (greedy_sided chunk ci sides) with
      | none => rw [hp] at h; simp at h
      | some r2 =>
        rw [hp] at h
        obtain ⟨wc2, m3⟩ := r2
        simp only [Option.some.injEq, Prod.mk.injEq] at h
        rw [← h.2]
        exact (prepare_mesh_spec _ _ _ _ _ hp).1 hi

/-- Each mesh-manager operation preserves the bucket-manager invariants. -/
theorem runOp_sideInv (m : MeshManager) (op : MMOp) (m2 : MeshManager)
    (h : m.runOp op = some m2) (hi : SideInv m.bucket_manager) :
    SideInv m2.bucket_manager := by
  cases op with
  | generateMesh chunk sides =>
    unfold MeshManager.runOp at h
    dsimp only at h
    cases hg : m.generate_mesh_for_chunk chunk sides with
    | none => rw [hg] at h; simp at h
    | some r =>
      rw [hg] at h
      obtain ⟨wc, m3⟩ := r
      simp only [Option.some.injEq] at h
      rw [← h]
      exact generate_sideInv m chunk sides wc m3 hg hi
  | prepareMesh p mesh =>
    unfold MeshManager.runOp at h
    dsimp only at h
    cases hp : m.prepare_mesh_for_write p mesh with
    | none => rw [hp] at h; simp at h
    | some r =>
      rw [hp] at h
      obtain ⟨wc, m3⟩ := r
      simp only [Option.some.injEq] at h
      rw [← h]
      exact (prepare_mesh_spec _ _ _ _ _ hp).1 hi
  | unloadChunks ps =>
    unfold MeshManager.runOp at h
    dsimp only at h
    simp only [Option.some.injEq] at h
    rw [← h]
    exact unload_preserves_sideInv m ps hi

/-- Any successful operation sequence preserves the bucket-manager
invariants. -/
theorem runOps_sideInv (ops : List MMOp) :
    ∀ (m m2 : MeshManager), MeshManager.runOps m ops = some m2 →
    SideInv m.bucket_manager → SideInv m2.bucket_manager := by
  induction ops with
  | nil =>
    intro m m2 h hi
    simp only [MeshManager.runOps, Option.some.injEq] at h
    rw [← h]
    exact hi
  | cons op rest ih =>
    intro m m2 h hi
    rw [MeshManager.runOps] at h
    cases ho : m.runOp op with
    | none => rw [ho] at h; simp at h
    | some m1 =>
      rw [ho] at h
      exact ih m1 m2 h (runOp_sideInv m op m1 ho hi)

/-- The freshly built bucket manager satisfies the invariants. -/
theorem new_sideInv : SideInv (MeshBucketManager.new NUM_BUFFERS_PER_SIDE) := by
  refine ⟨?_, ?_, ?_⟩
  · intro s b hb
    simp only [MeshBucketManager.new, List.mem_flatMap, List.mem_map,
      List.mem_range] at hb
    obtain ⟨bn, _, bi, _, hb⟩ := hb
    rw [← hb]
  · simp [MeshBucketManager.new]
  · intro s
    have hlen :
        ((MeshBucketManager.new NUM_BUFFERS_PER_SIDE).available_buckets s).length
        = 2048 := by
      simp only [MeshBucketManager.new]
      rw [show List.range NUM_BUFFERS_PER_SIDE = [0] from rfl]
      simp [NUM_BUCKETS_PER_BUFFER]
    rw [hlen]
    rfl

/-- `LruCache::push` always leaves the pushed key most-recently-used. -/
theorem lru_push_head (c : LruCache) (p : Point3i) :
    (c.push p).entries.head? = some p := by
  unfold LruCache.push
  split
  · rfl
  · split <;> rfl

/-- C1: for every sequence of mesh-manager operations starting from the
initial manager (with its pool of `NUM_BUFFERS_PER_SIDE * NUM_BUCKETS_PER_BUFFER`
buckets per side), the buckets in use per side never exceed the pool size;
and every successful `prepare_mesh_for_write` factors as an eviction phase —
which repeatedly pops the least-recently-meshed chunk and unloads it (freeing
its buckets and index slot and emitting the zero-draw indirect writes) while
either capacity check fails, ending exactly when both checks pass — followed
by recording the new chunk as most-recently-meshed and only then allocating
its buckets side by side. -/
theorem prepare_evicts_until_fit_and_buckets_bounded :
    (∀ (ops : List MMOp) (m : MeshManager),
        MeshManager.runOps MeshManager.new ops = some m →
        ∀ s, usedBucketCount m.bucket_manager s ≤
          NUM_BUFFERS_PER_SIDE * NUM_BUCKETS_PER_BUFFER) ∧
    (∀ (m : MeshManager) (p : Point3i) (mesh : Mesh)
        (cmds : List BufferWriteCommand) (m2 : MeshManager),
        m.prepare_mesh_for_write p mesh = some (cmds, m2) →
        ∃ m1 : MeshManager, EvictStar mesh.get_vertex_lens m m1 ∧
          m1.bucket_manager.can_allocate_buckets mesh.get_vertex_lens = true ∧
          m1.chunk_index_state.can_allocate_index = true ∧
          m2.least_recently_meshed_chunks =
            m1.least_recently_meshed_chunks.push p ∧
          m2.least_recently_meshed_chunks.entries.head? = some p ∧
          ∃ (cmds2 : List BufferWriteCommand) (bm : MeshBucketManager),
            prepareSides m1.bucket_manager p (BlockSide.all.map mesh.mesh) =
              some (cmds2, bm) ∧ m2.bucket_manager = bm) := by
  constructor
  · intro ops m h s
    have hi := runOps_sideInv ops MeshManager.new m h new_sideInv
    have hs := hi.2.2 s
    omega
  · intro m p mesh cmds m2 h
    obtain ⟨-, m1, hstar, hc1, hc2, hlru, hrest⟩ :=
      prepare_mesh_spec m p mesh cmds m2 h
    exact ⟨m1, hstar, hc1, hc2, hlru,
      by rw [hlru]; exact lru_push_head _ _, hrest⟩

/-- Witness for C1 at a concrete run: preparing one empty mesh from the
fresh manager succeeds and the per-side bound holds in the final state. -/
theorem prepare_evicts_until_fit_witness :
    ∃ m : MeshManager,
      MeshManager.runOps MeshManager.new
        [MMOp.prepareMesh ⟨0, 0, 0⟩ Mesh.new] = some m ∧
      ∀ s, usedBucketCount m.bucket_manager s ≤
        NUM_BUFFERS_PER_SIDE * NUM_BUCKETS_PER_BUFFER := by
  have hcan : MeshManager.new.bucket_manager.can_allocate_buckets
      Mesh.new.get_vertex_lens = true := by
    unfold MeshBucketManager.can_allocate_buckets
    rw [List.all_eq_true]
    intro side _
    have h0 : rustDivCeil (Mesh.new.get_vertex_lens side)
        NUM_VERTICES_PER_BUCKET = 0 := by
      show rustDivCeil 0 NUM_VERTICES_PER_BUCKET = 0
      rfl
    rw [h0]
    simp
  have hidx : MeshManager.new.chunk_index_state.can_allocate_index = true := rfl
  have hev : evictLoop MeshManager.new Mesh.new.get_vertex_lens []
      (MeshManager.new.least_recently_meshed_chunks.entries.length + 1) =
      some ([], MeshManager.new) := by
    unfold evictLoop
    rw [if_pos ⟨hcan, hidx⟩]
  have hprep : MeshManager.new.prepare_mesh_for_write ⟨0, 0, 0⟩ Mesh.new =
      some ([],
        { bucket_manager := MeshManager.new.bucket_manager
          chunk_index_state := MeshManager.new.chunk_index_state
          least_recently_meshed_chunks :=
            MeshManager.new.least_recently_meshed_chunks.push ⟨0, 0, 0⟩ }) := by
    unfold MeshManager.prepare_mesh_for_write
    dsimp only
    rw [hev]
    dsimp only
    rw [prepareSides_all_empty _ _ _ (by
      intro sm hsm
      obtain ⟨s, _, hssm⟩ := List.mem_map.mp hsm
      rw [← hssm]
      rfl)]
    rfl
  have hrun : MeshManager.runOps MeshManager.new
      [MMOp.prepareMesh ⟨0, 0, 0⟩ Mesh.new] =
      some { bucket_manager := MeshManager.new.bucket_manager
             chunk_index_state := MeshManager.new.chunk_index_state
             least_recently_meshed_chunks :=
               MeshManager.new.least_recently_meshed_chunks.push ⟨0, 0, 0⟩ } := by
    unfold MeshManager.runOps MeshManager.runOp
    dsimp only
    rw [hprep]
    rfl
  exact ⟨_, hrun, prepare_evicts_until_fit_and_buckets_bounded.1 _ _ hrun⟩

/-! ## Chunk creation and iteration invariants (C9) -/

/-- Splitting off the last element of a longer take. -/
theorem take_succ_getD (bts : List BlockType) (m : Nat) (h : m < bts.length) :
    bts.take (m + 1) = bts.take m ++ [bts.getD m BlockType.AIR] := by
  rw [List.take_succ]
  congr 1
  rw [List.getD_eq_getElem?_getD, List.getElem?_eq_getElem h]
  rfl

/-- `nsolid` after one more push. -/
theorem nsolid_succ (bts : List BlockType) (m : Nat) (h : m < bts.length) :
    nsolid bts (m + 1) = nsolid bts m + (if solidBit bts m then 1 else 0) := by
  unfold nsolid
  rw [take_succ_getD bts m h, List.filter_append]
  by_cases hb : bts.getD m BlockType.AIR = BlockType.AIR
  · rw [List.getD_eq_getElem?_getD] at hb
    simp [solidBit, List.getD_eq_getElem?_getD, hb]
  · rw [List.getD_eq_getElem?_getD] at hb
    simp [solidBit, List.getD_eq_getElem?_getD, hb]

/-- `nsolid` is monotone. -/
theorem nsolid_le (bts : List BlockType) :
    ∀ (k a : Nat), a + k ≤ bts.length → nsolid bts a ≤ nsolid bts (a + k) := by
  intro k
  induction k with
  | zero => intro a _; exact le_refl _
  | succ k ih =>
    intro a h
    have h1 : a + k < bts.length := by omega
    have h2 := ih a (by omega)
    rw [show a + (k + 1) = a + k + 1 from rfl, nsolid_succ bts (a + k) h1]
    split <;> omega

/-- `nsolid` is unchanged over a stretch of air cells. -/
theorem nsolid_stable (bts : List BlockType) :
    ∀ (k a : Nat), a + k ≤ bts.length →
    (∀ j, a ≤ j → j < a + k → solidBit bts j = false) →
    nsolid bts (a + k) = nsolid bts a := by
  intro k
  induction k with
  | zero => intro a _ _; rfl
  | succ k ih =>
    intro a h hf
    rw [show a + (k + 1) = a + k + 1 from rfl, nsolid_succ bts (a + k) (by omega),
      hf (a + k) (by omega) (by omega)]
    simp only [Bool.false_eq_true, if_false, Nat.add_zero]
    exact ih a (by omega) (fun j h1 h2 => hf j h1 (by omega))

/-- If the total solid count is already reached at `n`, every later bit is
unset. -/
theorem nsolid_saturated_bit_false (bts : List BlockType) (n j : Nat)
    (hj : n ≤ j) (hlt : j < bts.length)
    (heq : nsolid bts bts.length ≤ nsolid bts n) : solidBit bts j = false := by
  by_contra hb
  have hb' : solidBit bts j = true := by simpa using hb
  have h1 : nsolid bts n ≤ nsolid bts j := by
    have := nsolid_le bts (j - n) n (by omega)
    rw [show n + (j - n) = j from by omega] at this
    exact this
  have h2 : nsolid bts (j + 1) = nsolid bts j + 1 := by
    rw [nsolid_succ bts j hlt, hb']
    rfl
  have h3 : nsolid bts (j + 1) ≤ nsolid bts bts.length := by
    have := nsolid_le bts (bts.length - (j + 1)) (j + 1) (by omega)
    rw [show j + 1 + (bts.length - (j + 1)) = bts.length from by omega] at this
    exact this
  omega

/-- If solid cells remain past `n`, there is a first one. -/
theorem first_solid (bts : List BlockType) :
    ∀ (k n : Nat), n + k = bts.length →
    nsolid bts n < nsolid bts bts.length →
    ∃ m, n ≤ m ∧ m < bts.length ∧ solidBit bts m = true ∧
      ∀ j, n ≤ j → j < m → solidBit bts j = false := by
  intro k
  induction k with
  | zero =>
    intro n h hlt
    rw [Nat.add_zero] at h
    subst h
    exact absurd hlt (lt_irrefl _)
  | succ k ih =>
    intro n h hlt
    by_cases hb : solidBit bts n = true
    · exact ⟨n, le_refl n, by omega, hb, fun j h1 h2 => absurd h1 (by omega)⟩
    · have hbf : solidBit bts n = false := by simpa using hb
      have hn : nsolid bts (n + 1) = nsolid bts n := by
        rw [nsolid_succ bts n (by omega), hbf]
        rfl
      obtain ⟨m, h1, h2, h3, h4⟩ := ih (n + 1) (by omega) (by rw [hn]; exact hlt)
      refine ⟨m, by omega, h2, h3, fun j hj1 hj2 => ?_⟩
      by_cases hjn : j = n
      · subst hjn; exact hbf
      · exact h4 j (by omega) hj2


/-- One push from the closed-form creation state reaches the closed-form
state of the next cell. -/
theorem push_block_closed_step (bts : List BlockType) (pos : Point3i) (m : Nat)
    (hm : m < bts.length) (hsz : m < CHUNK_SIZE) :
    ChunkCreationIterator.push_block_type
      { position := pos
        solid_array := saFull bts m
        offsets_at_plane := (List.range (m / CHUNK_PLANE_SIZE)).map
          (fun k => nsolid bts (CHUNK_PLANE_SIZE * (k + 1)))
        blocks := ((bts.take m).filter (fun b => ¬ b = BlockType.AIR)).map Block.new
        local_x := m % CHUNK_DIMENSION + 1
        local_y := m / CHUNK_DIMENSION % CHUNK_DIMENSION + 1
        local_z := m / CHUNK_PLANE_SIZE + 1
        block_offset := nsolid bts m } (bts.getD m BlockType.AIR) =
      { position := pos
        solid_array := saFull bts (m + 1)
        offsets_at_plane := (List.range ((m + 1) / CHUNK_PLANE_SIZE)).map
          (fun k => nsolid bts (CHUNK_PLANE_SIZE * (k + 1)))
        blocks := ((bts.take (m + 1)).filter (fun b => ¬ b = BlockType.AIR)).map Block.new
        local_x := (m + 1) % CHUNK_DIMENSION + 1
        local_y := (m + 1) / CHUNK_DIMENSION % CHUNK_DIMENSION + 1
        local_z := (m + 1) / CHUNK_PLANE_SIZE + 1
        block_offset := nsolid bts (m + 1) } := by
  have e16 : CHUNK_DIMENSION = 16 := rfl
  have e18 : CHUNK_DIMENSION_WRAPPED = 18 := rfl
  have e256 : CHUNK_PLANE_SIZE = 256 := rfl
  have e4096 : CHUNK_SIZE = 4096 := rfl
  have hsz' : m < 4096 := by rw [e4096] at hsz; exact hsz
  have hblk : ((bts.take (m + 1)).filter (fun b => ¬ b = BlockType.AIR)).map Block.new =
      (((bts.take m).filter (fun b => ¬ b = BlockType.AIR)).map Block.new) ++
      (if ¬ bts.getD m BlockType.AIR = BlockType.AIR then
        [Block.new (bts.getD m BlockType.AIR)] else []) := by
    rw [take_succ_getD bts m hm, List.filter_append, List.map_append]
    congr 1
    by_cases hb : bts.getD m BlockType.AIR = BlockType.AIR
    · rw [List.getD_eq_getElem?_getD] at hb
      simp [List.getD_eq_getElem?_getD, hb]
    · rw [List.getD_eq_getElem?_getD] at hb
      simp [List.getD_eq_getElem?_getD, hb]
  have hsa : saFull bts (m + 1) = saFull bts m ++ [solidBit bts m] ++ cellPad (m + 1) := by
    unfold saFull
    rw [show saBody bts (m + 1) =
      saBody bts m ++ [solidBit bts m] ++ cellPad (m + 1) from rfl]
    simp [List.append_assoc]
  have hns := nsolid_succ bts m hm
  unfold ChunkCreationIterator.push_block_type
  dsimp only
  by_cases hx : m % CHUNK_DIMENSION = 15
  · rw [if_pos (show m % CHUNK_DIMENSION + 1 + 1 = CHUNK_DIMENSION_WRAPPED - 1 by
      rw [e16] at hx ⊢; rw [e18]; omega)]
    by_cases hy : m / CHUNK_DIMENSION % CHUNK_DIMENSION = 15
    · rw [if_pos (show m / CHUNK_DIMENSION % CHUNK_DIMENSION + 1 + 1 =
          CHUNK_DIMENSION_WRAPPED - 1 by rw [e16] at hy ⊢; rw [e18]; omega)]
      by_cases hz : m / CHUNK_PLANE_SIZE = 15
      · rw [if_pos (show m / CHUNK_PLANE_SIZE + 1 + 1 = CHUNK_DIMENSION_WRAPPED - 1 by
          rw [e256] at hz ⊢; rw [e18]; omega)]
        have hpad : cellPad (m + 1) = [false, false] ++
            List.replicate (2 * CHUNK_DIMENSION_WRAPPED) false ++
            List.replicate (CHUNK_PLANE_SIZE_WRAPPED - CHUNK_DIMENSION_WRAPPED - 1)
              false := by
          unfold cellPad
          rw [if_pos (by rw [e16] at hx ⊢; omega),
            if_pos (by rw [e16] at hx; rw [e16] at hy; rw [e256]; omega),
            if_pos (by rw [e16] at hx; rw [e16] at hy; rw [e256] at hz; rw [e4096]; omega)]
        rw [ChunkCreationIterator.mk.injEq]
        refine ⟨rfl, ?_, ?_, ?_, ?_, ?_, ?_, ?_⟩
        · rw [hsa, hpad]
          simp [solidBit, List.append_assoc]
        · rw [show (m + 1) / CHUNK_PLANE_SIZE = m / CHUNK_PLANE_SIZE + 1 by
            rw [e256]; rw [e256] at hz; rw [e16] at hx hy; omega]
          rw [List.range_succ, List.map_append]
          simp only [List.map_cons, List.map_nil]
          congr 1
          rw [show CHUNK_PLANE_SIZE * (m / CHUNK_PLANE_SIZE + 1) = m + 1 by
            rw [e256]; rw [e256] at hz; rw [e16] at hx hy; omega]
          rw [hns]
          by_cases hb : bts.getD m BlockType.AIR = BlockType.AIR <;>
            rw [List.getD_eq_getElem?_getD] at hb <;>
            simp [solidBit, List.getD_eq_getElem?_getD, hb]
        · rw [hblk]
          by_cases hb : bts.getD m BlockType.AIR = BlockType.AIR <;>
            rw [List.getD_eq_getElem?_getD] at hb <;>
            simp [List.getD_eq_getElem?_getD, hb]
        · rw [e16] at hx ⊢; omega
        · rw [e16] at hx hy ⊢; omega
        · rw [e256]; rw [e256] at hz; rw [e16] at hx hy; omega
        · rw [hns]
          by_cases hb : bts.getD m BlockType.AIR = BlockType.AIR <;>
            rw [List.getD_eq_getElem?_getD] at hb <;>
            simp [solidBit, List.getD_eq_getElem?_getD, hb]
      · rw [if_neg (show ¬ (m / CHUNK_PLANE_SIZE + 1 + 1 = CHUNK_DIMENSION_WRAPPED - 1) by
          rw [e256] at hz ⊢; rw [e18]; omega)]
        have hpad : cellPad (m + 1) = [false, false] ++
            List.replicate (2 * CHUNK_DIMENSION_WRAPPED) false := by
          unfold cellPad
          rw [if_pos (by rw [e16] at hx ⊢; omega),
            if_pos (by rw [e16] at hx; rw [e16] at hy; rw [e256]; omega),
            if_neg (by rw [e16] at hx; rw [e16] at hy; rw [e256] at hz; rw [e4096]; omega)]
          simp [List.append_assoc]
        rw [ChunkCreationIterator.mk.injEq]
        refine ⟨rfl, ?_, ?_, ?_, ?_, ?_, ?_, ?_⟩
        · rw [hsa, hpad]
          simp [solidBit, List.append_assoc]
        · rw [show (m + 1) / CHUNK_PLANE_SIZE = m / CHUNK_PLANE_SIZE + 1 by
            rw [e256]; rw [e16] at hx hy; omega]
          rw [List.range_succ, List.map_append]
          simp only [List.map_cons, List.map_nil]
          congr 1
          rw [show CHUNK_PLANE_SIZE * (m / CHUNK_PLANE_SIZE + 1) = m + 1 by
            rw [e256]; rw [e16] at hx hy; omega]
          rw [hns]
          by_cases hb : bts.getD m BlockType.AIR = BlockType.AIR <;>
            rw [List.getD_eq_getElem?_getD] at hb <;>
            simp [solidBit, List.getD_eq_getElem?_getD, hb]
        · rw [hblk]
          by_cases hb : bts.getD m BlockType.AIR = BlockType.AIR <;>
            rw [List.getD_eq_getElem?_getD] at hb <;>
            simp [List.getD_eq_getElem?_getD, hb]
        · rw [e16] at hx ⊢; omega
        · rw [e16] at hx hy ⊢; omega
        · rw [e256]; rw [e16] at hx hy; omega
        · rw [hns]
          by_cases hb : bts.getD m BlockType.AIR = BlockType.AIR <;>
            rw [List.getD_eq_getElem?_getD] at hb <;>
            simp [solidBit, List.getD_eq_getElem?_getD, hb]
    · rw [if_neg (show ¬ (m / CHUNK_DIMENSION % CHUNK_DIMENSION + 1 + 1 =
          CHUNK_DIMENSION_WRAPPED - 1) by rw [e16] at hy ⊢; rw [e18]; omega)]
      have hpad : cellPad (m + 1) = [false, false] := by
        unfold cellPad
        rw [if_pos (by rw [e16] at hx ⊢; omega),
          if_neg (by rw [e16] at hx; rw [e16] at hy; rw [e256]; omega),
          if_neg (by rw [e16] at hx; rw [e16] at hy; rw [e4096]; omega)]
        rfl
      rw [ChunkCreationIterator.mk.injEq]
      refine ⟨rfl, ?_, ?_, ?_, ?_, ?_, ?_, ?_⟩
      · rw [hsa, hpad]
        simp [solidBit, List.append_assoc]
      · rw [show (m + 1) / CHUNK_PLANE_SIZE = m / CHUNK_PLANE_SIZE by
          rw [e256]; rw [e16] at hx hy; omega]
      · rw [hblk]
        by_cases hb : bts.getD m BlockType.AIR = BlockType.AIR <;>
          rw [List.getD_eq_getElem?_getD] at hb <;>
          simp [List.getD_eq_getElem?_getD, hb]
      · rw [e16] at hx ⊢; omega
      · rw [e16] at hx hy ⊢; omega
      · rw [e256]; rw [e16] at hx hy; omega
      · rw [hns]
        by_cases hb : bts.getD m BlockType.AIR = BlockType.AIR <;>
          rw [List.getD_eq_getElem?_getD] at hb <;>
          simp [solidBit, List.getD_eq_getElem?_getD, hb]
  · rw [if_neg (show ¬ (m % CHUNK_DIMENSION + 1 + 1 = CHUNK_DIMENSION_WRAPPED - 1) by
      rw [e16] at hx ⊢; rw [e18]; omega)]
    have hpad : cellPad (m + 1) = [] := by
      unfold cellPad
      rw [if_neg (by rw [e16] at hx ⊢; omega),
        if_neg (by rw [e16] at hx; rw [e256]; omega),
        if_neg (by rw [e16] at hx; rw [e4096]; omega)]
      rfl
    rw [ChunkCreationIterator.mk.injEq]
    refine ⟨rfl, ?_, ?_, ?_, ?_, ?_, ?_, ?_⟩
    · rw [hsa, hpad]
      simp [solidBit, List.append_assoc]
    · rw [show (m + 1) / CHUNK_PLANE_SIZE = m / CHUNK_PLANE_SIZE by
        rw [e256]; rw [e16] at hx; omega]
    · rw [hblk]
      by_cases hb : bts.getD m BlockType.AIR = BlockType.AIR <;>
        rw [List.getD_eq_getElem?_getD] at hb <;>
        simp [List.getD_eq_getElem?_getD, hb]
    · rw [e16] at hx ⊢; omega
    · rw [e16] at hx ⊢; omega
    · rw [e256]; rw [e16] at hx; omega
    · rw [hns]
      by_cases hb : bts.getD m BlockType.AIR = BlockType.AIR <;>
        rw [List.getD_eq_getElem?_getD] at hb <;>
        simp [solidBit, List.getD_eq_getElem?_getD, hb]

/-- Closed form of the creation-iterator state after the first `m` pushes. -/
theorem push_fold_closed (pos : Point3i) (bts : List BlockType) :
    ∀ m, m ≤ bts.length → m ≤ CHUNK_SIZE →
    (bts.take m).foldl ChunkCreationIterator.push_block_type
      (ChunkCreationIterator.new pos) =
    { position := pos
      solid_array := saFull bts m
      offsets_at_plane := (List.range (m / CHUNK_PLANE_SIZE)).map
        (fun k => nsolid bts (CHUNK_PLANE_SIZE * (k + 1)))
      blocks := ((bts.take m).filter (fun b => ¬ b = BlockType.AIR)).map Block.new
      local_x := m % CHUNK_DIMENSION + 1
      local_y := m / CHUNK_DIMENSION % CHUNK_DIMENSION + 1
      local_z := m / CHUNK_PLANE_SIZE + 1
      block_offset := nsolid bts m } := by
  intro m
  induction m with
  | zero =>
    intro _ _
    rw [show bts.take 0 = [] from rfl, List.foldl_nil]
    unfold ChunkCreationIterator.new
    rw [ChunkCreationIterator.mk.injEq]
    refine ⟨rfl, ?_, ?_, ?_, ?_, ?_, ?_, ?_⟩ <;> simp [saFull, saBody, nsolid]
  | succ m ih =>
    intro hle hsz
    have hlt : m < bts.length := by omega
    conv_lhs => rw [take_succ_getD bts m hlt, List.foldl_append, List.foldl_cons,
      List.foldl_nil, ih (by omega) (by omega)]
    exact push_block_closed_step bts pos m hlt (by omega)

/-- The two chunk fields the invariants speak about, in closed form. -/
theorem chunkFromBlockTypes_closed (pos : Point3i) (bts : List BlockType)
    (hlen : bts.length = CHUNK_SIZE) :
    (chunkFromBlockTypes pos bts).solid_array = saFull bts CHUNK_SIZE ∧
    (chunkFromBlockTypes pos bts).blocks =
      (bts.filter (fun b => ¬ b = BlockType.AIR)).map Block.new := by
  unfold chunkFromBlockTypes ChunkCreationIterator.return_chunk
  have h := push_fold_closed pos bts bts.length (le_refl _) (by omega)
  rw [List.take_length] at h
  rw [h]
  constructor
  · dsimp only
    rw [hlen]
  · dsimp only

/-- Length of the closed-form bitset body. -/
theorem saBody_length (bts : List BlockType) :
    ∀ m, m ≤ 4096 → (saBody bts m).length =
      m + 2 * (m / 16) + 36 * (m / 256) + (if m = 4096 then 305 else 0) := by
  intro m
  induction m with
  | zero => intro _; simp [saBody]
  | succ m ih =>
    intro h
    show (saBody bts m ++ [solidBit bts m] ++ cellPad (m + 1)).length = _
    rw [List.length_append, List.length_append, ih (by omega)]
    have hcp : (cellPad (m + 1)).length =
        (if (m + 1) % 16 = 0 then 2 else 0) +
        (if (m + 1) % 256 = 0 then 36 else 0) +
        (if m + 1 = 4096 then 305 else 0) := by
      unfold cellPad
      rw [show CHUNK_DIMENSION = 16 from rfl, show CHUNK_PLANE_SIZE = 256 from rfl,
        show CHUNK_SIZE = 4096 from rfl, show CHUNK_DIMENSION_WRAPPED = 18 from rfl,
        show CHUNK_PLANE_SIZE_WRAPPED = 324 from rfl]
      by_cases h1 : (m + 1) % 16 = 0 <;> by_cases h2 : (m + 1) % 256 = 0 <;>
        by_cases h3 : m + 1 = 4096 <;>
        simp [h1, h2, h3]
    rw [hcp, if_neg (show ¬ m = 4096 by omega)]
    by_cases h1 : (m + 1) % 16 = 0 <;> by_cases h2 : (m + 1) % 256 = 0 <;>
      by_cases h3 : m + 1 = 4096 <;> simp only [h1, h2, h3, if_true, if_false,
        if_pos, if_neg, List.length_singleton] <;> omega

/-- The finished bitset has exactly the padded-chunk length. -/
theorem saFull_length (bts : List BlockType) :
    (saFull bts CHUNK_SIZE).length = CHUNK_SIZE_WRAPPED := by
  unfold saFull
  rw [List.length_append, List.length_replicate,
    show CHUNK_SIZE = 4096 from rfl, saBody_length bts 4096 (le_refl _)]
  rfl

/-- `saBody` grows by appending only. -/
theorem saBody_prefix (bts : List BlockType) :
    ∀ k m, ∃ t, saBody bts (m + k) = saBody bts m ++ t := by
  intro k
  induction k with
  | zero => intro m; exact ⟨[], by simp⟩
  | succ k ih =>
    intro m
    obtain ⟨t, ht⟩ := ih m
    refine ⟨t ++ ([solidBit bts (m + k)] ++ cellPad (m + k + 1)), ?_⟩
    rw [show saBody bts (m + (k + 1)) =
      saBody bts (m + k) ++ [solidBit bts (m + k)] ++ cellPad (m + k + 1) from rfl, ht]
    simp [List.append_assoc]

/-- The bit of cell `n` sits at its closed-form offset. -/
theorem saFull_getD_bit (bts : List BlockType) (n m : Nat) (hn : n < m)
    (hm : m ≤ 4096) :
    (saFull bts m).getD (343 + (n + 2 * (n / 16) + 36 * (n / 256))) false =
      solidBit bts n := by
  obtain ⟨t, ht⟩ := saBody_prefix bts (m - (n + 1)) (n + 1)
  rw [show n + 1 + (m - (n + 1)) = m from by omega] at ht
  have hlen : (saBody bts n).length = n + 2 * (n / 16) + 36 * (n / 256) := by
    rw [saBody_length bts n (by omega), if_neg (show ¬ n = 4096 by omega)]
    omega
  unfold saFull
  rw [ht, show saBody bts (n + 1) =
    saBody bts n ++ [solidBit bts n] ++ cellPad (n + 1) from rfl]
  rw [List.getD_append_right _ _ _ _ (by
    rw [List.length_replicate]
    rw [show CHUNK_PLANE_SIZE_WRAPPED + CHUNK_DIMENSION_WRAPPED + 1 = 343 from rfl]
    omega)]
  rw [List.length_replicate,
    show CHUNK_PLANE_SIZE_WRAPPED + CHUNK_DIMENSION_WRAPPED + 1 = 343 from rfl,
    show 343 + (n + 2 * (n / 16) + 36 * (n / 256)) - 343 =
      n + 2 * (n / 16) + 36 * (n / 256) from by omega]
  rw [List.append_assoc, List.append_assoc]
  rw [List.getD_append_right _ _ _ _ (le_of_eq hlen)]
  rw [hlen, Nat.sub_self]
  rfl

/-- The count of set bits in the closed-form body equals the solid count. -/
theorem saBody_count (bts : List BlockType) :
    ∀ m, m ≤ bts.length → (saBody bts m).count true = nsolid bts m := by
  intro m
  induction m with
  | zero => intro _; rfl
  | succ m ih =>
    intro h
    rw [show saBody bts (m + 1) =
      saBody bts m ++ [solidBit bts m] ++ cellPad (m + 1) from rfl]
    rw [List.count_append, List.count_append, ih (by omega),
      nsolid_succ bts m (by omega)]
    have hpad : (cellPad (m + 1)).count true = 0 := by
      unfold cellPad
      rw [List.count_append, List.count_append]
      split <;> split <;> split <;> simp [List.count_replicate]
    rw [hpad]
    by_cases hb : solidBit bts m = true
    · rw [hb]
      simp
    · rw [Bool.not_eq_true] at hb
      rw [hb]
      simp

/-- Every entry of a padding segment is unset. -/
theorem cellPad_getD_false (k i : Nat) : (cellPad k).getD i false = false := by
  have hall : ∀ b ∈ cellPad k, b = false := by
    intro b hb
    unfold cellPad at hb
    split at hb <;> split at hb <;> split at hb <;>
      simp [List.mem_replicate] at hb <;> tauto
  rw [List.getD_eq_getElem?_getD]
  cases hg : (cellPad k)[i]? with
  | none => rfl
  | some b =>
    rw [hall b (List.getElem?_mem hg)]
    rfl

/-- Every set bit of the closed-form body sits at a cell's offset. -/
theorem saBody_true_is_cell (bts : List BlockType) :
    ∀ m, m ≤ 4096 → ∀ i, (saBody bts m).getD i false = true →
    ∃ j, j < m ∧ i = j + 2 * (j / 16) + 36 * (j / 256) ∧
      solidBit bts j = true := by
  intro m
  induction m with
  | zero => intro _ i h; simp [saBody] at h
  | succ m ih =>
    intro hm i h
    rw [show saBody bts (m + 1) =
      saBody bts m ++ [solidBit bts m] ++ cellPad (m + 1) from rfl,
      List.append_assoc] at h
    have hlen : (saBody bts m).length = m + 2 * (m / 16) + 36 * (m / 256) := by
      rw [saBody_length bts m (by omega), if_neg (show ¬ m = 4096 by omega)]
      omega
    by_cases hi : i < (saBody bts m).length
    · rw [List.getD_append _ _ _ _ hi] at h
      obtain ⟨j, h1, h2, h3⟩ := ih (by omega) i h
      exact ⟨j, by omega, h2, h3⟩
    · rw [List.getD_append_right _ _ _ _ (by omega)] at h
      by_cases hd : i - (saBody bts m).length = 0
      · rw [hd] at h
        have hbit : solidBit bts m = true := h
        exact ⟨m, by omega, by omega, hbit⟩
      · rw [show i - (saBody bts m).length =
          (i - (saBody bts m).length - 1) + 1 from by omega] at h
        have h' : (cellPad (m + 1)).getD
            (i - (saBody bts m).length - 1) false = true := h
        rw [cellPad_getD_false] at h'
        exact absurd h' (by simp)

/-- The padded index of a cell, in the offset form used by the closed-form
bitset. -/
theorem bitIndex_eq (n : Nat) (hn : n < 4096) :
    bitIndex n = 343 + (n + 2 * (n / 16) + 36 * (n / 256)) := by
  unfold bitIndex
  rw [show CHUNK_DIMENSION = 16 from rfl, show CHUNK_DIMENSION_WRAPPED = 18 from rfl,
    show CHUNK_PLANE_SIZE = 256 from rfl, show CHUNK_PLANE_SIZE_WRAPPED = 324 from rfl]
  omega

/-- Count of set bits before a cell's padded index. -/
theorem saFull_take_count (bts : List BlockType) (n : Nat) (hn : n < 4096)
    (hlen : bts.length = CHUNK_SIZE) :
    ((saFull bts CHUNK_SIZE).take (bitIndex n)).count true = nsolid bts n := by
  obtain ⟨t, ht⟩ := saBody_prefix bts (4096 - n) n
  rw [show n + (4096 - n) = 4096 from by omega] at ht
  have hlenn : (saBody bts n).length = n + 2 * (n / 16) + 36 * (n / 256) := by
    rw [saBody_length bts n (by omega), if_neg (show ¬ n = 4096 by omega)]
    omega
  unfold saFull
  rw [show CHUNK_SIZE = 4096 from rfl, ht, bitIndex_eq n hn]
  rw [show (343 : Nat) + (n + 2 * (n / 16) + 36 * (n / 256)) =
    (List.replicate (CHUNK_PLANE_SIZE_WRAPPED + CHUNK_DIMENSION_WRAPPED + 1)
      (false : Bool)).length + (n + 2 * (n / 16) + 36 * (n / 256)) from by
    rw [List.length_replicate]
    rfl]
  rw [List.take_append, List.count_append]
  rw [show n + 2 * (n / 16) + 36 * (n / 256) = (saBody bts n).length from hlenn.symm]
  rw [List.take_left, saBody_count bts n (by
    rw [hlen, show CHUNK_SIZE = 4096 from rfl]
    omega)]
  simp [List.count_replicate]

/-- The dense array holds, at each cell's rank, that cell's block. -/
theorem filter_map_get_rank :
    ∀ (l : List BlockType) (n : Nat), n < l.length →
    ¬ l.getD n BlockType.AIR = BlockType.AIR →
    ((l.filter (fun b => ¬ b = BlockType.AIR)).map Block.new).get?
      (((l.take n).filter (fun b => ¬ b = BlockType.AIR)).length) =
    some (Block.new (l.getD n BlockType.AIR)) := by
  intro l
  induction l with
  | nil => intro n h; simp at h
  | cons a t ih =>
    intro n hn hsol
    cases n with
    | zero =>
      have ha : (a :: t).getD 0 BlockType.AIR = a := rfl
      rw [ha] at hsol ⊢
      rw [show (a :: t).take 0 = [] from rfl]
      rw [List.filter_cons, if_pos (by simpa using hsol)]
      rfl
    | succ n =>
      have ha : (a :: t).getD (n + 1) BlockType.AIR = t.getD n BlockType.AIR := rfl
      rw [ha] at hsol ⊢
      rw [show (a :: t).take (n + 1) = a :: t.take n from rfl]
      rw [List.filter_cons, List.filter_cons]
      by_cases hb : a = BlockType.AIR
      · rw [if_neg (by simpa using hb), if_neg (by simpa using hb)]
        exact ih n (by simpa using hn) hsol
      · rw [if_pos (by simpa using hb), if_pos (by simpa using hb)]
        rw [List.length_cons, List.map_cons]
        rw [show ∀ (x : Block) (xs : List Block) (k : Nat),
          (x :: xs).get? (k + 1) = xs.get? k from fun x xs k => rfl]
        exact ih n (by simpa using hn) hsol

/-- The boundary bookkeeping is the identity on an aligned cursor. -/
theorem cbiFix_aligned (bts : List BlockType) (n : Nat) :
    cbiBoundaryFix (cbiAligned bts n) = some (cbiAligned bts n) := by
  unfold cbiBoundaryFix cbiAligned
  dsimp only
  rw [if_neg (show ¬ (n % CHUNK_DIMENSION + 1 = CHUNK_DIMENSION_WRAPPED - 1) by
    rw [show CHUNK_DIMENSION = 16 from rfl, show CHUNK_DIMENSION_WRAPPED = 18 from rfl]
    omega)]

/-- The boundary bookkeeping realigns a raw cursor to the next cell. -/
theorem cbiFix_raw_mid (bts : List BlockType) (n : Nat) (h : n + 1 < 4096) :
    cbiBoundaryFix (cbiRaw bts n) = some (cbiAligned bts (n + 1)) := by
  have e16 : CHUNK_DIMENSION = 16 := rfl
  have e18 : CHUNK_DIMENSION_WRAPPED = 18 := rfl
  have e256 : CHUNK_PLANE_SIZE = 256 := rfl
  have e324 : CHUNK_PLANE_SIZE_WRAPPED = 324 := rfl
  unfold cbiBoundaryFix cbiRaw cbiAligned
  dsimp only
  by_cases hx : n % 16 = 15
  · rw [if_pos (show n % CHUNK_DIMENSION + 2 = CHUNK_DIMENSION_WRAPPED - 1 by
      rw [e16, e18]; omega)]
    by_cases hy : n / 16 % 16 = 15
    · rw [if_pos (show n / CHUNK_DIMENSION % CHUNK_DIMENSION + 1 + 1 =
        CHUNK_DIMENSION_WRAPPED - 1 by rw [e16, e18]; omega)]
      rw [if_neg (show ¬ (n / CHUNK_PLANE_SIZE + 1 + 1 = CHUNK_DIMENSION_WRAPPED - 1) by
        rw [e256, e18]; omega)]
      rw [Option.some.injEq, ChunkBlockIterator.mk.injEq]
      refine ⟨?_, rfl, ?_, ?_, ?_⟩
      · unfold bitIndex
        rw [e16, e18, e256, e324]
        omega
      · rw [e16]; omega
      · rw [e16]; omega
      · rw [e256]; omega
    · rw [if_neg (show ¬ (n / CHUNK_DIMENSION % CHUNK_DIMENSION + 1 + 1 =
        CHUNK_DIMENSION_WRAPPED - 1) by rw [e16, e18]; omega)]
      rw [Option.some.injEq, ChunkBlockIterator.mk.injEq]
      refine ⟨?_, rfl, ?_, ?_, ?_⟩
      · unfold bitIndex
        rw [e16, e18, e256, e324]
        omega
      · rw [e16]; omega
      · rw [e16]; omega
      · rw [e256]; omega
  · rw [if_neg (show ¬ (n % CHUNK_DIMENSION + 2 = CHUNK_DIMENSION_WRAPPED - 1) by
      rw [e16, e18]; omega)]
    rw [Option.some.injEq, ChunkBlockIterator.mk.injEq]
    refine ⟨?_, rfl, ?_, ?_, ?_⟩
    · unfold bitIndex
      rw [e16, e18, e256, e324]
      omega
    · rw [e16]; omega
    · rw [e16]; omega
    · rw [e256]; omega

/-- After the last cell the boundary bookkeeping signals the end. -/
theorem cbiFix_raw_end (bts : List BlockType) :
    cbiBoundaryFix (cbiRaw bts 4095) = none := rfl

/-- The air-skipping scan, started aligned at cell `n`, stops aligned at the
first solid cell `m`. -/
theorem cbiScan_finds (c : Chunk) (bts : List BlockType)
    (hsa : c.solid_array = saFull bts CHUNK_SIZE)
    (hlen : bts.length = CHUNK_SIZE) :
    ∀ (fuel n m : Nat), n ≤ m → m < 4096 → m - n < fuel →
    solidBit bts m = true →
    (∀ j, n ≤ j → j < m → solidBit bts j = false) →
    cbiScanLoop c (cbiAligned bts n) fuel = some (cbiAligned bts m) := by
  have e4096 : CHUNK_SIZE = 4096 := rfl
  have hget : ∀ k, k < 4096 → c.solid_array.getD (bitIndex k) false = solidBit bts k := by
    intro k hk
    rw [hsa, bitIndex_eq k hk, e4096]
    exact saFull_getD_bit bts k 4096 hk (le_refl _)
  have hlength : c.solid_array.length = 5832 := by
    rw [hsa, saFull_length]
    rfl
  have hbound : ∀ k, k < 4096 → bitIndex k < 5832 := by
    intro k hk
    rw [bitIndex_eq k hk]
    omega
  intro fuel
  induction fuel with
  | zero => intro n m _ _ h _ _; omega
  | succ fuel ih =>
    intro n m hnm hm hfuel hbit hfalse
    unfold cbiScanLoop
    by_cases heq : n = m
    · subst heq
      rw [if_neg (show ¬ ((cbiAligned bts n).current_solid_offset < c.solid_array.length ∧
          ¬ c.solid_array.getD (cbiAligned bts n).current_solid_offset false = true) from
        fun hc => hc.2 (by
          rw [show (cbiAligned bts n).current_solid_offset = bitIndex n from rfl,
            hget n hm]
          exact hbit))]
    · have hlt : n < m := by omega
      rw [if_pos (show (cbiAligned bts n).current_solid_offset < c.solid_array.length ∧
          ¬ c.solid_array.getD (cbiAligned bts n).current_solid_offset false = true from
        ⟨by
          rw [show (cbiAligned bts n).current_solid_offset = bitIndex n from rfl, hlength]
          exact hbound n (by omega), by
          rw [show (cbiAligned bts n).current_solid_offset = bitIndex n from rfl,
            hget n (by omega), hfalse n (le_refl n) hlt]
          simp⟩)]
      dsimp only
      have hb1 : nsolid bts n = nsolid bts (n + 1) := by
        rw [nsolid_succ bts n (by rw [hlen, e4096]; omega), hfalse n (le_refl n) hlt]
        simp
      have hshape : (
          { current_solid_offset := (cbiAligned bts n).current_solid_offset + 1
            current_block_offset := (cbiAligned bts n).current_block_offset
            local_x := (cbiAligned bts n).local_x + 1
            local_y := (cbiAligned bts n).local_y
            local_z := (cbiAligned bts n).local_z } : ChunkBlockIterator) =
          cbiRaw bts n := by
        unfold cbiRaw cbiAligned
        rw [ChunkBlockIterator.mk.injEq]
        exact ⟨rfl, hb1, rfl, rfl, rfl⟩
      have hfix : cbiBoundaryFix
          { current_solid_offset := (cbiAligned bts n).current_solid_offset + 1
            current_block_offset := (cbiAligned bts n).current_block_offset
            local_x := (cbiAligned bts n).local_x + 1
            local_y := (cbiAligned bts n).local_y
            local_z := (cbiAligned bts n).local_z } = some (cbiAligned bts (n + 1)) := by
        rw [hshape]
        exact cbiFix_raw_mid bts n (by omega)
      rw [hfix]
      dsimp only
      exact ih (n + 1) m (by omega) hm (by omega) hbit
        (fun j h1 h2 => hfalse j (by omega) h2)

/-- From an aligned cursor, `get_next_block` yields the first solid cell `m`
with its block, leaving the raw post-yield cursor. -/
theorem get_next_aligned_some (c : Chunk) (bts : List BlockType)
    (hsa : c.solid_array = saFull bts CHUNK_SIZE)
    (hblocks : c.blocks = (bts.filter (fun b => ¬ b = BlockType.AIR)).map Block.new)
    (hlen : bts.length = CHUNK_SIZE)
    (n m : Nat) (hm : m < 4096) (hnm : n ≤ m) (hbit : solidBit bts m = true)
    (hfalse : ∀ j, n ≤ j → j < m → solidBit bts j = false) :
    c.get_next_block (cbiAligned bts n) =
      some (((⟨m % CHUNK_DIMENSION, m / CHUNK_DIMENSION % CHUNK_DIMENSION,
        m / CHUNK_PLANE_SIZE⟩ : Point3n),
        Block.new (bts.getD m BlockType.AIR)), cbiRaw bts m) := by
  have e4096 : CHUNK_SIZE = 4096 := rfl
  have hblen : c.blocks.length = nsolid bts 4096 := by
    rw [hblocks, List.length_map]
    unfold nsolid
    rw [show bts.take 4096 = bts from by rw [← e4096, ← hlen]; exact List.take_length bts]
  have hlt_total : nsolid bts n < nsolid bts 4096 := by
    have h1 : nsolid bts n ≤ nsolid bts m := by
      have h := nsolid_le bts (m - n) n (by rw [hlen, e4096]; omega)
      rw [show n + (m - n) = m from by omega] at h
      exact h
    have h2 : nsolid bts (m + 1) = nsolid bts m + 1 := by
      rw [nsolid_succ bts m (by rw [hlen, e4096]; omega), hbit]
      rfl
    have h3 : nsolid bts (m + 1) ≤ nsolid bts 4096 := by
      have h := nsolid_le bts (4096 - (m + 1)) (m + 1) (by rw [hlen, e4096]; omega)
      rw [show m + 1 + (4096 - (m + 1)) = 4096 from by omega] at h
      exact h
    omega
  unfold Chunk.get_next_block
  rw [if_neg (show ¬ (c.blocks.length ≤ (cbiAligned bts n).current_block_offset) from by
    rw [show (cbiAligned bts n).current_block_offset = nsolid bts n from rfl, hblen]
    omega)]
  rw [cbiFix_aligned bts n]
  dsimp only
  rw [cbiScan_finds c bts hsa hlen (c.solid_array.length + 1) n m hnm hm (by
      rw [hsa, saFull_length, show CHUNK_SIZE_WRAPPED = 5832 from rfl]
      omega)
    hbit hfalse]
  dsimp only
  have hsol : ¬ bts.getD m BlockType.AIR = BlockType.AIR := by
    have h := hbit
    unfold solidBit at h
    exact of_decide_eq_true h
  rw [show (cbiAligned bts m).current_block_offset = nsolid bts m from rfl, hblocks]
  rw [show nsolid bts m =
    (((bts.take m).filter (fun b => ¬ b = BlockType.AIR)).length) from rfl]
  rw [filter_map_get_rank bts m (by rw [hlen, e4096]; omega) hsol]
  dsimp only
  rw [show (cbiAligned bts m).current_solid_offset = bitIndex m from rfl,
    show (cbiAligned bts m).local_x = m % CHUNK_DIMENSION + 1 from rfl,
    show (cbiAligned bts m).local_y = m / CHUNK_DIMENSION % CHUNK_DIMENSION + 1 from rfl,
    show (cbiAligned bts m).local_z = m / CHUNK_PLANE_SIZE + 1 from rfl]
  rw [Option.some.injEq, Prod.mk.injEq, Prod.mk.injEq]
  refine ⟨⟨?_, rfl⟩, ?_⟩
  · rw [Point3n.mk.injEq]
    refine ⟨?_, ?_, ?_⟩ <;>
      simp only [show CHUNK_PLANE_SIZE = 256 from rfl,
        show CHUNK_DIMENSION = 16 from rfl] <;> omega
  · unfold cbiRaw
    rw [ChunkBlockIterator.mk.injEq]
    refine ⟨rfl, ?_, rfl, rfl, rfl⟩
    rw [nsolid_succ bts m (by rw [hlen, e4096]; omega), hbit]
    rfl

/-- From an aligned cursor past the last solid cell, `get_next_block` ends
the iteration. -/
theorem get_next_aligned_none (c : Chunk) (bts : List BlockType)
    (hblocks : c.blocks = (bts.filter (fun b => ¬ b = BlockType.AIR)).map Block.new)
    (hlen : bts.length = CHUNK_SIZE)
    (n : Nat) (hn : n ≤ 4096)
    (hfalse : ∀ j, n ≤ j → j < 4096 → solidBit bts j = false) :
    c.get_next_block (cbiAligned bts n) = none := by
  have e4096 : CHUNK_SIZE = 4096 := rfl
  have hblen : c.blocks.length = nsolid bts 4096 := by
    rw [hblocks, List.length_map]
    unfold nsolid
    rw [show bts.take 4096 = bts from by rw [← e4096, ← hlen]; exact List.take_length bts]
  have hstable : nsolid bts 4096 = nsolid bts n := by
    have h := nsolid_stable bts (4096 - n) n (by rw [hlen, e4096]; omega)
      (fun j h1 h2 => hfalse j h1 (by omega))
    rw [show n + (4096 - n) = 4096 from by omega] at h
    exact h
  unfold Chunk.get_next_block
  rw [if_pos (show c.blocks.length ≤ (cbiAligned bts n).current_block_offset from by
    rw [show (cbiAligned bts n).current_block_offset = nsolid bts n from rfl, hblen,
      hstable])]

/-- A raw cursor behaves like the aligned cursor of the next cell. -/
theorem get_next_raw_eq (c : Chunk) (bts : List BlockType)
    (hsa : c.solid_array = saFull bts CHUNK_SIZE)
    (hblocks : c.blocks = (bts.filter (fun b => ¬ b = BlockType.AIR)).map Block.new)
    (hlen : bts.length = CHUNK_SIZE)
    (n : Nat) (hn : n < 4096) :
    c.get_next_block (cbiRaw bts n) = c.get_next_block (cbiAligned bts (n + 1)) := by
  have e4096 : CHUNK_SIZE = 4096 := rfl
  have hblen : c.blocks.length = nsolid bts 4096 := by
    rw [hblocks, List.length_map]
    unfold nsolid
    rw [show bts.take 4096 = bts from by rw [← e4096, ← hlen]; exact List.take_length bts]
  by_cases hend : n + 1 = 4096
  · unfold Chunk.get_next_block
    rw [if_pos (show c.blocks.length ≤ (cbiRaw bts n).current_block_offset from by
        rw [show (cbiRaw bts n).current_block_offset = nsolid bts (n + 1) from rfl,
          hblen, hend]),
      if_pos (show c.blocks.length ≤ (cbiAligned bts (n + 1)).current_block_offset from by
        rw [show (cbiAligned bts (n + 1)).current_block_offset =
          nsolid bts (n + 1) from rfl, hblen, hend])]
  · have hmid : n + 1 < 4096 := by omega
    unfold Chunk.get_next_block
    by_cases hble : c.blocks.length ≤ nsolid bts (n + 1)
    · rw [if_pos (show c.blocks.length ≤ (cbiRaw bts n).current_block_offset from hble),
        if_pos (show c.blocks.length ≤
          (cbiAligned bts (n + 1)).current_block_offset from hble)]
    · rw [if_neg (show ¬ c.blocks.length ≤ (cbiRaw bts n).current_block_offset from hble),
        if_neg (show ¬ c.blocks.length ≤
          (cbiAligned bts (n + 1)).current_block_offset from hble)]
      rw [cbiFix_raw_mid bts n hmid, cbiFix_aligned bts (n + 1)]

/-- Draining from a raw cursor equals draining from the next aligned one. -/
theorem blocksAux_raw_eq (c : Chunk) (bts : List BlockType)
    (hsa : c.solid_array = saFull bts CHUNK_SIZE)
    (hblocks : c.blocks = (bts.filter (fun b => ¬ b = BlockType.AIR)).map Block.new)
    (hlen : bts.length = CHUNK_SIZE) (n : Nat) (hn : n < 4096) :
    ∀ fuel, chunkBlocksAux c (cbiRaw bts n) fuel =
      chunkBlocksAux c (cbiAligned bts (n + 1)) fuel := by
  intro fuel
  cases fuel with
  | zero => rfl
  | succ f =>
    unfold chunkBlocksAux
    rw [get_next_raw_eq c bts hsa hblocks hlen n hn]

/-- One-step equation for the scan order. -/
theorem scanOrderFrom_succ (bts : List BlockType) (n f : Nat) :
    scanOrderFrom bts n (f + 1) =
    (if solidBit bts n then
      [((⟨n % CHUNK_DIMENSION, n / CHUNK_DIMENSION % CHUNK_DIMENSION,
          n / CHUNK_PLANE_SIZE⟩ : Point3n), Block.new (bts.getD n BlockType.AIR))]
     else []) ++ scanOrderFrom bts (n + 1) f := rfl

/-- A stretch of air cells contributes nothing to the scan order. -/
theorem scanOrder_all_false (bts : List BlockType) :
    ∀ (f n : Nat), (∀ j, n ≤ j → j < n + f → solidBit bts j = false) →
    scanOrderFrom bts n f = [] := by
  intro f
  induction f with
  | zero => intro n _; rfl
  | succ f ih =>
    intro n h
    unfold scanOrderFrom
    rw [if_neg (by rw [h n (le_refl n) (by omega)]; simp)]
    rw [List.nil_append]
    exact ih (n + 1) (fun j h1 h2 => h j (by omega) (by omega))

/-- The scan order skips leading air cells. -/
theorem scanOrder_skip (bts : List BlockType) :
    ∀ (k n f : Nat), k ≤ f →
    (∀ j, n ≤ j → j < n + k → solidBit bts j = false) →
    scanOrderFrom bts n f = scanOrderFrom bts (n + k) (f - k) := by
  intro k
  induction k with
  | zero => intro n f _ _; rw [Nat.add_zero, Nat.sub_zero]
  | succ k ih =>
    intro n f hk h
    cases f with
    | zero => omega
    | succ f =>
      rw [scanOrderFrom_succ]
      rw [if_neg (by rw [h n (le_refl n) (by omega)]; simp)]
      rw [List.nil_append]
      rw [show n + (k + 1) = n + 1 + k from by omega,
        show f + 1 - (k + 1) = f - k from by omega]
      exact ih (n + 1) f (by omega) (fun j h1 h2 => h j (by omega) (by omega))

/-- Draining the iterator from an aligned cursor lists exactly the remaining
solid cells in scan order. -/
theorem cbi_drain (c : Chunk) (bts : List BlockType)
    (hsa : c.solid_array = saFull bts CHUNK_SIZE)
    (hblocks : c.blocks = (bts.filter (fun b => ¬ b = BlockType.AIR)).map Block.new)
    (hlen : bts.length = CHUNK_SIZE) :
    ∀ (r n fuel : Nat), n ≤ 4096 → nsolid bts 4096 - nsolid bts n = r → r < fuel →
    chunkBlocksAux c (cbiAligned bts n) fuel = scanOrderFrom bts n (4096 - n) := by
  have e4096 : CHUNK_SIZE = 4096 := rfl
  intro r
  induction r with
  | zero =>
    intro n fuel hn hr hf
    cases fuel with
    | zero => omega
    | succ f =>
      have hmono : nsolid bts n ≤ nsolid bts 4096 := by
        have h := nsolid_le bts (4096 - n) n (by rw [hlen, e4096]; omega)
        rw [show n + (4096 - n) = 4096 from by omega] at h
        exact h
      have hsat : nsolid bts bts.length ≤ nsolid bts n := by
        rw [hlen, e4096]
        omega
      have hfalse : ∀ j, n ≤ j → j < 4096 → solidBit bts j = false := by
        intro j h1 h2
        exact nsolid_saturated_bit_false bts n j h1 (by rw [hlen, e4096]; omega) hsat
      unfold chunkBlocksAux
      rw [get_next_aligned_none c bts hblocks hlen n hn hfalse]
      rw [scanOrder_all_false bts (4096 - n) n (fun j h1 h2 => hfalse j h1 (by omega))]
  | succ r ih =>
    intro n fuel hn hr hf
    have hlt : nsolid bts n < nsolid bts 4096 := by omega
    obtain ⟨m, hm1, hm2, hm3, hm4⟩ := first_solid bts (bts.length - n) n
      (by rw [hlen, e4096]; omega) (by rw [hlen, e4096]; exact hlt)
    have hm4096 : m < 4096 := by
      rw [hlen, e4096] at hm2
      exact hm2
    cases fuel with
    | zero => omega
    | succ f =>
      unfold chunkBlocksAux
      rw [get_next_aligned_some c bts hsa hblocks hlen n m hm4096 hm1 hm3 hm4]
      dsimp only
      rw [blocksAux_raw_eq c bts hsa hblocks hlen m hm4096 f]
      have hnm : nsolid bts m = nsolid bts n := by
        have h := nsolid_stable bts (m - n) n (by rw [hlen, e4096]; omega)
          (fun j h1 h2 => hm4 j h1 (by omega))
        rw [show n + (m - n) = m from by omega] at h
        exact h
      have hm1' : nsolid bts (m + 1) = nsolid bts n + 1 := by
        rw [nsolid_succ bts m (by rw [hlen, e4096]; omega), hm3, hnm]
        rfl
      rw [ih (m + 1) f (by omega) (by omega) (by omega)]
      rw [scanOrder_skip bts (m - n) n (4096 - n) (by omega)
        (fun j h1 h2 => hm4 j h1 (by omega))]
      rw [show n + (m - n) = m from by omega,
        show 4096 - n - (m - n) = 4096 - m from by omega]
      rw [show (4096 : Nat) - m = (4096 - (m + 1)) + 1 from by omega]
      rw [scanOrderFrom_succ, if_pos hm3]
      rfl

/-- The scan order as a filterMap over the cell indices. -/
theorem scanOrder_eq_filterMap (bts : List BlockType) :
    ∀ (f n : Nat), scanOrderFrom bts n f =
    (List.range' n f).filterMap (fun j => if solidBit bts j then
      some ((⟨j % CHUNK_DIMENSION, j / CHUNK_DIMENSION % CHUNK_DIMENSION,
        j / CHUNK_PLANE_SIZE⟩ : Point3n), Block.new (bts.getD j BlockType.AIR))
      else none) := by
  intro f
  induction f with
  | zero => intro n; rfl
  | succ f ih =>
    intro n
    rw [scanOrderFrom_succ, show List.range' n (f + 1) = n :: List.range' (n + 1) f
      from rfl, List.filterMap_cons]
    by_cases hb : solidBit bts n = true
    · rw [if_pos hb, if_pos hb]
      dsimp only
      rw [ih (n + 1)]
      rfl
    · have hbf : solidBit bts n = false := by simpa using hb
      rw [if_neg (by rw [hbf]; simp), if_neg (by rw [hbf]; simp)]
      dsimp only
      rw [ih (n + 1)]
      rfl

/-- The iterator lists exactly the solid cells in scan order with their
blocks. -/
theorem blockList_eq_scanOrder (c : Chunk) (bts : List BlockType)
    (hsa : c.solid_array = saFull bts CHUNK_SIZE)
    (hblocks : c.blocks = (bts.filter (fun b => ¬ b = BlockType.AIR)).map Block.new)
    (hlen : bts.length = CHUNK_SIZE) :
    c.blockList = scanOrderFrom bts 0 4096 := by
  have e4096 : CHUNK_SIZE = 4096 := rfl
  have hblen : c.blocks.length = nsolid bts 4096 := by
    rw [hblocks, List.length_map]
    unfold nsolid
    rw [show bts.take 4096 = bts from by rw [← e4096, ← hlen]; exact List.take_length bts]
  unfold Chunk.blockList
  rw [show ChunkBlockIterator.new = cbiAligned bts 0 from rfl, hblen]
  have h := cbi_drain c bts hsa hblocks hlen (nsolid bts 4096) 0
    (nsolid bts 4096 + 1) (by omega)
    (by rw [show nsolid bts 0 = 0 from rfl]; omega) (by omega)
  rw [show (4096 : Nat) - 0 = 4096 from rfl] at h
  exact h

/-- Reads of the all-false initial padding. -/
theorem replicate_false_getD (k i : Nat) :
    (List.replicate k (false : Bool)).getD i false = false := by
  rw [List.getD_eq_getElem?_getD]
  cases hg : (List.replicate k (false : Bool))[i]? with
  | none => rfl
  | some b =>
    rw [List.eq_of_mem_replicate (List.getElem?_mem hg)]
    rfl

/-- C9: for a chunk built by pushing exactly `CHUNK_SIZE` block types through
the creation iterator, the bit of cell `n` of the scan order sits at its
padded bitset index and equals the cell's solidity; every padding-shell bit
is unset; for every solid cell the number of set bits before its bitset
index equals its index into the dense blocks array, where its own block is
stored; and the block iterator yields exactly the solid cells in scan order,
each with its block from the dense array. -/
theorem chunk_bitset_rank_and_iterator (pos : Point3i) (bts : List BlockType)
    (hlen : bts.length = CHUNK_SIZE) :
    (∀ n, n < CHUNK_SIZE →
      (chunkFromBlockTypes pos bts).solid_array.getD (bitIndex n) false =
        solidBit bts n) ∧
    (∀ x y z, x < CHUNK_DIMENSION_WRAPPED → y < CHUNK_DIMENSION_WRAPPED →
      z < CHUNK_DIMENSION_WRAPPED →
      (x = 0 ∨ x = CHUNK_DIMENSION_WRAPPED - 1 ∨ y = 0 ∨
        y = CHUNK_DIMENSION_WRAPPED - 1 ∨ z = 0 ∨ z = CHUNK_DIMENSION_WRAPPED - 1) →
      (chunkFromBlockTypes pos bts).solid_array.getD
        (x + CHUNK_DIMENSION_WRAPPED * y + CHUNK_PLANE_SIZE_WRAPPED * z) false =
        false) ∧
    (∀ n, n < CHUNK_SIZE → solidBit bts n = true →
      ((chunkFromBlockTypes pos bts).solid_array.take (bitIndex n)).count true =
        ((bts.take n).filter (fun b => ¬ b = BlockType.AIR)).length ∧
      (chunkFromBlockTypes pos bts).blocks.get?
        (((bts.take n).filter (fun b => ¬ b = BlockType.AIR)).length) =
        some (Block.new (bts.getD n BlockType.AIR))) ∧
    (chunkFromBlockTypes pos bts).blockList =
      (List.range CHUNK_SIZE).filterMap (fun n => if solidBit bts n then
        some ((⟨n % CHUNK_DIMENSION, n / CHUNK_DIMENSION % CHUNK_DIMENSION,
          n / CHUNK_PLANE_SIZE⟩ : Point3n), Block.new (bts.getD n BlockType.AIR))
        else none) := by
  obtain ⟨hsa, hblocks⟩ := chunkFromBlockTypes_closed pos bts hlen
  have e4096 : CHUNK_SIZE = 4096 := rfl
  refine ⟨?_, ?_, ?_, ?_⟩
  · intro n hn
    have hn' : n < 4096 := by rw [e4096] at hn; exact hn
    rw [hsa, e4096, bitIndex_eq n hn']
    exact saFull_getD_bit bts n 4096 hn' (le_refl _)
  · intro x y z hx hy hz hshell
    rw [hsa]
    by_contra hb
    have hc : (saFull bts CHUNK_SIZE).getD
        (x + CHUNK_DIMENSION_WRAPPED * y + CHUNK_PLANE_SIZE_WRAPPED * z) false =
        true := by
      cases hgd : (saFull bts CHUNK_SIZE).getD
          (x + CHUNK_DIMENSION_WRAPPED * y + CHUNK_PLANE_SIZE_WRAPPED * z) false
      · exact absurd hgd hb
      · rfl
    simp only [show CHUNK_DIMENSION_WRAPPED = 18 from rfl,
      show CHUNK_PLANE_SIZE_WRAPPED = 324 from rfl] at hx hy hz hshell hc
    by_cases hlt : x + 18 * y + 324 * z < 343
    · rw [show (saFull bts CHUNK_SIZE).getD (x + 18 * y + 324 * z) false =
          false from by
        unfold saFull
        rw [List.getD_append _ _ _ _ (by
          rw [List.length_replicate,
            show CHUNK_PLANE_SIZE_WRAPPED + CHUNK_DIMENSION_WRAPPED + 1 = 343 from rfl]
          omega)]
        exact replicate_false_getD _ _] at hc
      exact absurd hc (by simp)
    · have h2 : (saBody bts CHUNK_SIZE).getD (x + 18 * y + 324 * z - 343) false =
          true := by
        unfold saFull at hc
        rw [List.getD_append_right _ _ _ _ (by
          rw [List.length_replicate,
            show CHUNK_PLANE_SIZE_WRAPPED + CHUNK_DIMENSION_WRAPPED + 1 = 343 from rfl]
          omega)] at hc
        rw [List.length_replicate,
          show CHUNK_PLANE_SIZE_WRAPPED + CHUNK_DIMENSION_WRAPPED + 1 = 343 from rfl]
          at hc
        exact hc
      obtain ⟨j, hj, hji, hjb⟩ := saBody_true_is_cell bts CHUNK_SIZE (le_of_eq e4096)
        (x + 18 * y + 324 * z - 343) h2
      rw [e4096] at hj
      omega
  · intro n hn hbit
    have hn' : n < 4096 := by rw [e4096] at hn; exact hn
    constructor
    · rw [hsa]
      exact saFull_take_count bts n hn' hlen
    · rw [hblocks]
      exact filter_map_get_rank bts n (by rw [hlen]; exact hn) (by
        unfold solidBit at hbit
        exact of_decide_eq_true hbit)
  · rw [blockList_eq_scanOrder _ bts hsa hblocks hlen,
      scanOrder_eq_filterMap bts 4096 0, e4096, List.range_eq_range']

/-- Witness for C9: a chunk with a single dirt block in the first cell. -/
theorem chunk_bitset_rank_witness :
    ((BlockType.DIRT :: List.replicate 4095 BlockType.AIR).length = CHUNK_SIZE) ∧
    (chunkFromBlockTypes ⟨0, 0, 0⟩
        (BlockType.DIRT :: List.replicate 4095 BlockType.AIR)).blockList =
      (List.range CHUNK_SIZE).filterMap (fun n =>
        if solidBit (BlockType.DIRT :: List.replicate 4095 BlockType.AIR) n then
        some ((⟨n % CHUNK_DIMENSION, n / CHUNK_DIMENSION % CHUNK_DIMENSION,
          n / CHUNK_PLANE_SIZE⟩ : Point3n),
          Block.new ((BlockType.DIRT :: List.replicate 4095 BlockType.AIR).getD n
            BlockType.AIR))
        else none) := by
  have hlen : (BlockType.DIRT :: List.replicate 4095 BlockType.AIR).length =
      CHUNK_SIZE := by
    rw [List.length_cons, List.length_replicate]
    rfl
  exact ⟨hlen,
    (chunk_bitset_rank_and_iterator ⟨0, 0, 0⟩ _ hlen).2.2.2⟩

/-! ## Greedy meshing conserves covered area (C3) -/

/-- Gluing two stacked spans, constant width. -/
theorem glue_up (a b c W : Nat) (hab : a ≤ b) (hbc : b ≤ c) :
    (b - a) * W + (c - b) * W = (c - a) * W := by
  rw [← Nat.add_mul]
  congr 1
  omega

/-- Gluing two side-by-side spans, constant height. -/
theorem glue_right (H a b c : Nat) (hab : a ≤ b) (hbc : b ≤ c) :
    H * (b - a) + H * (c - b) = H * (c - a) := by
  rw [← Nat.mul_add]
  congr 1
  omega

/-- `merge_up` of two well-formed same-side faces yields a well-formed face
of the combined area. -/
theorem merge_up_spec (f g h : Face) (hgs : g.block_side = f.block_side)
    (hWFf : FaceWF f) (hWFg : FaceWF g) (hm : f.merge_up g = some h) :
    FaceWF h ∧ h.block_side = f.block_side ∧
    faceArea h = faceArea f + faceArea g := by
  unfold Face.merge_up at hm
  split at hm
  case isFalse => exact absurd hm (by simp)
  case isTrue hcond =>
  obtain ⟨hbt, hA, hB⟩ := hcond
  simp only [Option.some.injEq] at hm
  subst hm
  have e1 := congrArg Point3n.x hA
  have e2 := congrArg Point3n.y hA
  have e3 := congrArg Point3n.z hA
  have e4 := congrArg Point3n.x hB
  have e5 := congrArg Point3n.y hB
  have e6 := congrArg Point3n.z hB
  unfold FaceWF at hWFf hWFg ⊢
  unfold faceArea
  cases hfs : f.block_side with
  | FRONT =>
    simp only [hfs] at hWFf hWFg ⊢
    rw [hfs] at hgs
    simp only [hgs] at hWFg ⊢
    obtain ⟨w1, w2, w3, w4, w5, w6, w7, w8, w9⟩ := hWFf
    obtain ⟨v1, v2, v3, v4, v5, v6, v7, v8, v9⟩ := hWFg
    refine ⟨⟨by omega, by omega, by omega, by omega, by omega, by omega,
      by omega, by omega, by omega⟩, trivial, ?_⟩
    rw [show g.lr.z = f.lr.z from by omega, show g.ll.z = f.ll.z from by omega,
      show g.ll.y = f.ul.y from by omega]
    exact (glue_up f.ll.y f.ul.y g.ul.y (f.lr.z - f.ll.z) (by omega) (by omega)).symm
  | BACK =>
    simp only [hfs] at hWFf hWFg ⊢
    rw [hfs] at hgs
    simp only [hgs] at hWFg ⊢
    obtain ⟨w1, w2, w3, w4, w5, w6, w7, w8, w9⟩ := hWFf
    obtain ⟨v1, v2, v3, v4, v5, v6, v7, v8, v9⟩ := hWFg
    refine ⟨⟨by omega, by omega, by omega, by omega, by omega, by omega,
      by omega, by omega, by omega⟩, trivial, ?_⟩
    rw [show g.ll.z = f.ll.z from by omega, show g.lr.z = f.lr.z from by omega,
      show g.ll.y = f.ul.y from by omega]
    exact (glue_up f.ll.y f.ul.y g.ul.y (f.ll.z - f.lr.z) (by omega) (by omega)).symm
  | BOTTOM =>
    simp only [hfs] at hWFf hWFg ⊢
    rw [hfs] at hgs
    simp only [hgs] at hWFg ⊢
    obtain ⟨w1, w2, w3, w4, w5, w6, w7, w8, w9⟩ := hWFf
    obtain ⟨v1, v2, v3, v4, v5, v6, v7, v8, v9⟩ := hWFg
    refine ⟨⟨by omega, by omega, by omega, by omega, by omega, by omega,
      by omega, by omega, by omega⟩, trivial, ?_⟩
    rw [show g.ll.z = f.ll.z from by omega, show g.lr.z = f.lr.z from by omega,
      show g.ll.x = f.ul.x from by omega]
    exact (glue_up f.ll.x f.ul.x g.ul.x (f.ll.z - f.lr.z) (by omega) (by omega)).symm
  | TOP =>
    simp only [hfs] at hWFf hWFg ⊢
    rw [hfs] at hgs
    simp only [hgs] at hWFg ⊢
    obtain ⟨w1, w2, w3, w4, w5, w6, w7, w8, w9⟩ := hWFf
    obtain ⟨v1, v2, v3, v4, v5, v6, v7, v8, v9⟩ := hWFg
    refine ⟨⟨by omega, by omega, by omega, by omega, by omega, by omega,
      by omega, by omega, by omega⟩, trivial, ?_⟩
    rw [show g.ll.z = f.ll.z from by omega, show g.lr.z = f.lr.z from by omega,
      show g.ll.x = f.ul.x from by omega]
    exact (glue_up f.ll.x f.ul.x g.ul.x (f.lr.z - f.ll.z) (by omega) (by omega)).symm
  | LEFT =>
    simp only [hfs] at hWFf hWFg ⊢
    rw [hfs] at hgs
    simp only [hgs] at hWFg ⊢
    obtain ⟨w1, w2, w3, w4, w5, w6, w7, w8, w9⟩ := hWFf
    obtain ⟨v1, v2, v3, v4, v5, v6, v7, v8, v9⟩ := hWFg
    refine ⟨⟨by omega, by omega, by omega, by omega, by omega, by omega,
      by omega, by omega, by omega⟩, trivial, ?_⟩
    rw [show g.ll.x = f.ll.x from by omega, show g.lr.x = f.lr.x from by omega,
      show g.ll.y = f.ul.y from by omega]
    exact (glue_up f.ll.y f.ul.y g.ul.y (f.ll.x - f.lr.x) (by omega) (by omega)).symm
  | RIGHT =>
    simp only [hfs] at hWFf hWFg ⊢
    rw [hfs] at hgs
    simp only [hgs] at hWFg ⊢
    obtain ⟨w1, w2, w3, w4, w5, w6, w7, w8, w9⟩ := hWFf
    obtain ⟨v1, v2, v3, v4, v5, v6, v7, v8, v9⟩ := hWFg
    refine ⟨⟨by omega, by omega, by omega, by omega, by omega, by omega,
      by omega, by omega, by omega⟩, trivial, ?_⟩
    rw [show g.ll.x = f.ll.x from by omega, show g.lr.x = f.lr.x from by omega,
      show g.ll.y = f.ul.y from by omega]
    exact (glue_up f.ll.y f.ul.y g.ul.y (f.lr.x - f.ll.x) (by omega) (by omega)).symm

/-- `merge_right` of two well-formed same-side faces yields a well-formed
face of the combined area. -/
theorem merge_right_spec (f g h : Face) (hgs : g.block_side = f.block_side)
    (hWFf : FaceWF f) (hWFg : FaceWF g) (hm : f.merge_right g = some h) :
    FaceWF h ∧ h.block_side = f.block_side ∧
    faceArea h = faceArea f + faceArea g := by
  unfold Face.merge_right at hm
  split at hm
  case isFalse => exact absurd hm (by simp)
  case isTrue hcond =>
  obtain ⟨hbt, hA, hB⟩ := hcond
  simp only [Option.some.injEq] at hm
  subst hm
  have e1 := congrArg Point3n.x hA
  have e2 := congrArg Point3n.y hA
  have e3 := congrArg Point3n.z hA
  have e4 := congrArg Point3n.x hB
  have e5 := congrArg Point3n.y hB
  have e6 := congrArg Point3n.z hB
  unfold FaceWF at hWFf hWFg ⊢
  unfold faceArea
  cases hfs : f.block_side with
  | FRONT =>
    simp only [hfs] at hWFf ⊢
    rw [hfs] at hgs
    simp only [hgs] at hWFg ⊢
    obtain ⟨w1, w2, w3, w4, w5, w6, w7, w8, w9⟩ := hWFf
    obtain ⟨v1, v2, v3, v4, v5, v6, v7, v8, v9⟩ := hWFg
    refine ⟨⟨by omega, by omega, by omega, by omega, by omega, by omega,
      by omega, by omega, by omega⟩, trivial, ?_⟩
    rw [show g.ul.y = f.ul.y from by omega, show g.ll.y = f.ll.y from by omega,
      show g.ll.z = f.lr.z from by omega]
    have hg := glue_right (f.ul.y - f.ll.y) f.ll.z f.lr.z g.lr.z (by omega) (by omega)
    omega
  | BACK =>
    simp only [hfs] at hWFf ⊢
    rw [hfs] at hgs
    simp only [hgs] at hWFg ⊢
    obtain ⟨w1, w2, w3, w4, w5, w6, w7, w8, w9⟩ := hWFf
    obtain ⟨v1, v2, v3, v4, v5, v6, v7, v8, v9⟩ := hWFg
    refine ⟨⟨by omega, by omega, by omega, by omega, by omega, by omega,
      by omega, by omega, by omega⟩, trivial, ?_⟩
    rw [show g.ul.y = f.ul.y from by omega, show g.ll.y = f.ll.y from by omega,
      show g.ll.z = f.lr.z from by omega]
    have hg := glue_right (f.ul.y - f.ll.y) g.lr.z f.lr.z f.ll.z (by omega) (by omega)
    omega
  | BOTTOM =>
    simp only [hfs] at hWFf ⊢
    rw [hfs] at hgs
    simp only [hgs] at hWFg ⊢
    obtain ⟨w1, w2, w3, w4, w5, w6, w7, w8, w9⟩ := hWFf
    obtain ⟨v1, v2, v3, v4, v5, v6, v7, v8, v9⟩ := hWFg
    refine ⟨⟨by omega, by omega, by omega, by omega, by omega, by omega,
      by omega, by omega, by omega⟩, trivial, ?_⟩
    rw [show g.ul.x = f.ul.x from by omega, show g.ll.x = f.ll.x from by omega,
      show g.ll.z = f.lr.z from by omega]
    have hg := glue_right (f.ul.x - f.ll.x) g.lr.z f.lr.z f.ll.z (by omega) (by omega)
    omega
  | TOP =>
    simp only [hfs] at hWFf ⊢
    rw [hfs] at hgs
    simp only [hgs] at hWFg ⊢
    obtain ⟨w1, w2, w3, w4, w5, w6, w7, w8, w9⟩ := hWFf
    obtain ⟨v1, v2, v3, v4, v5, v6, v7, v8, v9⟩ := hWFg
    refine ⟨⟨by omega, by omega, by omega, by omega, by omega, by omega,
      by omega, by omega, by omega⟩, trivial, ?_⟩
    rw [show g.ul.x = f.ul.x from by omega, show g.ll.x = f.ll.x from by omega,
      show g.ll.z = f.lr.z from by omega]
    have hg := glue_right (f.ul.x - f.ll.x) f.ll.z f.lr.z g.lr.z (by omega) (by omega)
    omega
  | LEFT =>
    simp only [hfs] at hWFf ⊢
    rw [hfs] at hgs
    simp only [hgs] at hWFg ⊢
    obtain ⟨w1, w2, w3, w4, w5, w6, w7, w8, w9⟩ := hWFf
    obtain ⟨v1, v2, v3, v4, v5, v6, v7, v8, v9⟩ := hWFg
    refine ⟨⟨by omega, by omega, by omega, by omega, by omega, by omega,
      by omega, by omega, by omega⟩, trivial, ?_⟩
    rw [show g.ul.y = f.ul.y from by omega, show g.ll.y = f.ll.y from by omega,
      show g.ll.x = f.lr.x from by omega]
    have hg := glue_right (f.ul.y - f.ll.y) g.lr.x f.lr.x f.ll.x (by omega) (by omega)
    omega
  | RIGHT =>
    simp only [hfs] at hWFf ⊢
    rw [hfs] at hgs
    simp only [hgs] at hWFg ⊢
    obtain ⟨w1, w2, w3, w4, w5, w6, w7, w8, w9⟩ := hWFf
    obtain ⟨v1, v2, v3, v4, v5, v6, v7, v8, v9⟩ := hWFg
    refine ⟨⟨by omega, by omega, by omega, by omega, by omega, by omega,
      by omega, by omega, by omega⟩, trivial, ?_⟩
    rw [show g.ul.y = f.ul.y from by omega, show g.ll.y = f.ll.y from by omega,
      show g.ll.x = f.lr.x from by omega]
    have hg := glue_right (f.ul.y - f.ll.y) f.ll.x f.lr.x g.lr.x (by omega) (by omega)
    omega

/-- `merge_left` of two well-formed same-side faces yields a well-formed
face of the combined area. -/
theorem merge_left_spec (f g h : Face) (hgs : g.block_side = f.block_side)
    (hWFf : FaceWF f) (hWFg : FaceWF g) (hm : f.merge_left g = some h) :
    FaceWF h ∧ h.block_side = f.block_side ∧
    faceArea h = faceArea f + faceArea g := by
  unfold Face.merge_left at hm
  split at hm
  case isFalse => exact absurd hm (by simp)
  case isTrue hcond =>
  obtain ⟨hbt, hA, hB⟩ := hcond
  simp only [Option.some.injEq] at hm
  subst hm
  have e1 := congrArg Point3n.x hA
  have e2 := congrArg Point3n.y hA
  have e3 := congrArg Point3n.z hA
  have e4 := congrArg Point3n.x hB
  have e5 := congrArg Point3n.y hB
  have e6 := congrArg Point3n.z hB
  unfold FaceWF at hWFf hWFg ⊢
  unfold faceArea
  cases hfs : f.block_side with
  | FRONT =>
    simp only [hfs] at hWFf ⊢
    rw [hfs] at hgs
    simp only [hgs] at hWFg ⊢
    obtain ⟨w1, w2, w3, w4, w5, w6, w7, w8, w9⟩ := hWFf
    obtain ⟨v1, v2, v3, v4, v5, v6, v7, v8, v9⟩ := hWFg
    refine ⟨⟨by omega, by omega, by omega, by omega, by omega, by omega,
      by omega, by omega, by omega⟩, trivial, ?_⟩
    rw [show g.ul.y = f.ul.y from by omega, show g.ll.y = f.ll.y from by omega,
      show g.lr.z = f.ll.z from by omega]
    have hg := glue_right (f.ul.y - f.ll.y) g.ll.z f.ll.z f.lr.z (by omega) (by omega)
    omega
  | BACK =>
    simp only [hfs] at hWFf ⊢
    rw [hfs] at hgs
    simp only [hgs] at hWFg ⊢
    obtain ⟨w1, w2, w3, w4, w5, w6, w7, w8, w9⟩ := hWFf
    obtain ⟨v1, v2, v3, v4, v5, v6, v7, v8, v9⟩ := hWFg
    refine ⟨⟨by omega, by omega, by omega, by omega, by omega, by omega,
      by omega, by omega, by omega⟩, trivial, ?_⟩
    rw [show g.ul.y = f.ul.y from by omega, show g.ll.y = f.ll.y from by omega,
      show g.lr.z = f.ll.z from by omega]
    have hg := glue_right (f.ul.y - f.ll.y) f.lr.z f.ll.z g.ll.z (by omega) (by omega)
    omega
  | BOTTOM =>
    simp only [hfs] at hWFf ⊢
    rw [hfs] at hgs
    simp only [hgs] at hWFg ⊢
    obtain ⟨w1, w2, w3, w4, w5, w6, w7, w8, w9⟩ := hWFf
    obtain ⟨v1, v2, v3, v4, v5, v6, v7, v8, v9⟩ := hWFg
    refine ⟨⟨by omega, by omega, by omega, by omega, by omega, by omega,
      by omega, by omega, by omega⟩, trivial, ?_⟩
    rw [show g.ul.x = f.ul.x from by omega, show g.ll.x = f.ll.x from by omega,
      show g.lr.z = f.ll.z from by omega]
    have hg := glue_right (f.ul.x - f.ll.x) f.lr.z f.ll.z g.ll.z (by omega) (by omega)
    omega
  | TOP =>
    simp only [hfs] at hWFf ⊢
    rw [hfs] at hgs
    simp only [hgs] at hWFg ⊢
    obtain ⟨w1, w2, w3, w4, w5, w6, w7, w8, w9⟩ := hWFf
    obtain ⟨v1, v2, v3, v4, v5, v6, v7, v8, v9⟩ := hWFg
    refine ⟨⟨by omega, by omega, by omega, by omega, by omega, by omega,
      by omega, by omega, by omega⟩, trivial, ?_⟩
    rw [show g.ul.x = f.ul.x from by omega, show g.ll.x = f.ll.x from by omega,
      show g.lr.z = f.ll.z from by omega]
    have hg := glue_right (f.ul.x - f.ll.x) g.ll.z f.ll.z f.lr.z (by omega) (by omega)
    omega
  | LEFT =>
    simp only [hfs] at hWFf ⊢
    rw [hfs] at hgs
    simp only [hgs] at hWFg ⊢
    obtain ⟨w1, w2, w3, w4, w5, w6, w7, w8, w9⟩ := hWFf
    obtain ⟨v1, v2, v3, v4, v5, v6, v7, v8, v9⟩ := hWFg
    refine ⟨⟨by omega, by omega, by omega, by omega, by omega, by omega,
      by omega, by omega, by omega⟩, trivial, ?_⟩
    rw [show g.ul.y = f.ul.y from by omega, show g.ll.y = f.ll.y from by omega,
      show g.lr.x = f.ll.x from by omega]
    have hg := glue_right (f.ul.y - f.ll.y) f.lr.x f.ll.x g.ll.x (by omega) (by omega)
    omega
  | RIGHT =>
    simp only [hfs] at hWFf ⊢
    rw [hfs] at hgs
    simp only [hgs] at hWFg ⊢
    obtain ⟨w1, w2, w3, w4, w5, w6, w7, w8, w9⟩ := hWFf
    obtain ⟨v1, v2, v3, v4, v5, v6, v7, v8, v9⟩ := hWFg
    refine ⟨⟨by omega, by omega, by omega, by omega, by omega, by omega,
      by omega, by omega, by omega⟩, trivial, ?_⟩
    rw [show g.ul.y = f.ul.y from by omega, show g.ll.y = f.ll.y from by omega,
      show g.lr.x = f.ll.x from by omega]
    have hg := glue_right (f.ul.y - f.ll.y) g.ll.x f.ll.x f.lr.x (by omega) (by omega)
    omega

/-- The in-layer strip merge combines well-formed faces additively. -/
theorem inLayerMergeOp_spec (s : BlockSide) (f g h : Face)
    (hf : f.block_side = s) (hg : g.block_side = s)
    (hWFf : FaceWF f) (hWFg : FaceWF g) (hm : inLayerMergeOp s f g = some h) :
    FaceWF h ∧ h.block_side = s ∧ faceArea h = faceArea f + faceArea g := by
  have hgs : g.block_side = f.block_side := by rw [hf, hg]
  cases s with
  | FRONT =>
    obtain ⟨a, b, c⟩ := merge_up_spec f g h hgs hWFf hWFg hm
    exact ⟨a, by rw [b, hf], c⟩
  | BACK =>
    obtain ⟨a, b, c⟩ := merge_up_spec f g h hgs hWFf hWFg hm
    exact ⟨a, by rw [b, hf], c⟩
  | BOTTOM =>
    obtain ⟨a, b, c⟩ := merge_up_spec f g h hgs hWFf hWFg hm
    exact ⟨a, by rw [b, hf], c⟩
  | TOP =>
    obtain ⟨a, b, c⟩ := merge_up_spec f g h hgs hWFf hWFg hm
    exact ⟨a, by rw [b, hf], c⟩
  | LEFT =>
    obtain ⟨a, b, c⟩ := merge_left_spec f g h hgs hWFf hWFg hm
    exact ⟨a, by rw [b, hf], c⟩
  | RIGHT =>
    obtain ⟨a, b, c⟩ := merge_right_spec f g h hgs hWFf hWFg hm
    exact ⟨a, by rw [b, hf], c⟩

/-- The cross-layer merge combines well-formed faces additively. -/
theorem crossMergeOp_spec (s : BlockSide) (f g h : Face)
    (hf : f.block_side = s) (hg : g.block_side = s)
    (hWFf : FaceWF f) (hWFg : FaceWF g) (hm : crossMergeOp s f g = some h) :
    FaceWF h ∧ h.block_side = s ∧ faceArea h = faceArea f + faceArea g := by
  have hgs : g.block_side = f.block_side := by rw [hf, hg]
  cases s with
  | FRONT =>
    obtain ⟨a, b, c⟩ := merge_right_spec f g h hgs hWFf hWFg hm
    exact ⟨a, by rw [b, hf], c⟩
  | BACK =>
    obtain ⟨a, b, c⟩ := merge_left_spec f g h hgs hWFf hWFg hm
    exact ⟨a, by rw [b, hf], c⟩
  | BOTTOM =>
    obtain ⟨a, b, c⟩ := merge_left_spec f g h hgs hWFf hWFg hm
    exact ⟨a, by rw [b, hf], c⟩
  | TOP =>
    obtain ⟨a, b, c⟩ := merge_right_spec f g h hgs hWFf hWFg hm
    exact ⟨a, by rw [b, hf], c⟩
  | LEFT =>
    obtain ⟨a, b, c⟩ := merge_up_spec f g h hgs hWFf hWFg hm
    exact ⟨a, by rw [b, hf], c⟩
  | RIGHT =>
    obtain ⟨a, b, c⟩ := merge_up_spec f g h hgs hWFf hWFg hm
    exact ⟨a, by rw [b, hf], c⟩

/-- A fresh unit face covers exactly one cell. -/
theorem faceArea_new (i j k bt : Nat) (s : BlockSide) :
    faceArea (Face.new i j k bt s) = 1 := by
  cases s <;> simp [Face.new, faceArea]

/-- A fresh unit face is well-formed. -/
theorem faceWF_new (i j k bt : Nat) (s : BlockSide) :
    FaceWF (Face.new i j k bt s) := by
  cases s <;> simp [Face.new, FaceWF]

/-- A fresh face carries its side tag. -/
theorem faceSide_new (i j k bt : Nat) (s : BlockSide) :
    (Face.new i j k bt s).block_side = s := by
  cases s <;> rfl

/-- `areaSum` distributes over append. -/
theorem areaSum_append (a b : List Face) :
    areaSum (a ++ b) = areaSum a + areaSum b := by
  unfold areaSum
  rw [List.map_append, List.sum_append]

/-- `areaSum` of a cons. -/
theorem areaSum_cons (f : Face) (l : List Face) :
    areaSum (f :: l) = faceArea f + areaSum l := by
  unfold areaSum
  rw [List.map_cons, List.sum_cons]

/-- `areaSum` after replacing one element. -/
theorem areaSum_set (l : List Face) :
    ∀ (i : Nat) (x cf : Face), l.get? i = some cf →
    areaSum (l.set i x) + faceArea cf = areaSum l + faceArea x := by
  induction l with
  | nil => intro i x cf h; simp at h
  | cons a t ih =>
    intro i x cf h
    cases i with
    | zero =>
      simp only [List.get?] at h
      injection h with h
      subst h
      rw [List.set_cons_zero, areaSum_cons, areaSum_cons]
      omega
    | succ i =>
      simp only [List.get?] at h
      rw [List.set_cons_succ, areaSum_cons, areaSum_cons]
      have := ih i x cf h
      omega

/-- Splitting a drop at a present index. -/
theorem drop_cons_of_get (l : List Face) (i : Nat) (x : Face)
    (h : l.get? i = some x) : l.drop i = x :: l.drop (i + 1) := by
  have hb : i < l.length := by
    by_contra hc
    rw [List.get?_eq_none.mpr (by omega)] at h
    exact absurd h (by simp)
  rw [List.drop_eq_getElem_cons hb]
  have hg := List.get?_eq_getElem? l i
  rw [hg, List.getElem?_eq_getElem hb] at h
  simp only [Option.some.injEq] at h
  rw [h]

/-- All faces of a list are well-formed rectangles of side `s`. -/
def FacesOK (s : BlockSide) (l : List Face) : Prop :=
  ∀ f ∈ l, FaceWF f ∧ f.block_side = s

theorem facesOK_append {s : BlockSide} {a b : List Face}
    (ha : FacesOK s a) (hb : FacesOK s b) : FacesOK s (a ++ b) := by
  intro f hf
  rcases List.mem_append.mp hf with hf | hf
  · exact ha f hf
  · exact hb f hf

theorem facesOK_drop {s : BlockSide} {l : List Face} (h : FacesOK s l) (i : Nat) :
    FacesOK s (l.drop i) :=
  fun f hf => h f (List.mem_of_mem_drop hf)

theorem facesOK_set {s : BlockSide} {l : List Face} (h : FacesOK s l) (i : Nat)
    (x : Face) (hx : FaceWF x ∧ x.block_side = s) : FacesOK s (l.set i x) := by
  intro f hf
  rcases List.mem_or_eq_of_mem_set hf with hf | hf
  · exact h f hf
  · rw [hf]
    exact hx

theorem facesOK_get {s : BlockSide} {l : List Face} (h : FacesOK s l) (i : Nat)
    (x : Face) (hx : l.get? i = some x) : FaceWF x ∧ x.block_side = s :=
  h x (by
    have hb : i < l.length := by
      by_contra hc
      rw [List.get?_eq_none.mpr (by omega)] at hx
      exact absurd hx (by simp)
    have hg := List.get?_eq_getElem? l i
    rw [hg, List.getElem?_eq_getElem hb] at hx
    simp only [Option.some.injEq] at hx
    rw [← hx]
    exact List.getElem_mem hb)

/-- The before-flush inner loop returns exactly a contiguous slice of the
before list. -/
theorem flushBefore_decomp (before : List Face) (b : Nat) :
    ∀ (fuel bi : Nat),
    (flushBeforeBelow before bi b fuel).1 ++
      before.drop (flushBeforeBelow before bi b fuel).2 = before.drop bi ∧
    bi ≤ (flushBeforeBelow before bi b fuel).2 := by
  intro fuel
  induction fuel with
  | zero => intro bi; exact ⟨rfl, le_refl _⟩
  | succ fuel ih =>
    intro bi
    unfold flushBeforeBelow
    cases hg : before.get? bi with
    | none => exact ⟨rfl, le_refl _⟩
    | some bf =>
      dsimp only
      by_cases hlt : get_boundary_from_face bf true < b
      · rw [if_pos hlt]
        dsimp only
        obtain ⟨ih1, ih2⟩ := ih (bi + 1)
        constructor
        · rw [List.cons_append, ih1]
          rw [← drop_cons_of_get before bi bf hg]
        · omega
      · rw [if_neg hlt]
        exact ⟨rfl, le_refl _⟩

/-- The two-pointer cross-layer merge loop: its flushed output, its updated
current list and the unconsumed tail of the before list together cover
exactly the area of the unconsumed before faces plus the current faces, and
all output faces remain well-formed. -/
theorem mergeWhileLoop_spec (side : BlockSide) (before : List Face) :
    ∀ (fuel : Nat) (current : List Face) (bi ci : Nat),
    FacesOK side before → FacesOK side current →
    FacesOK side (mergeWhileLoop side before current bi ci fuel).1 ∧
    FacesOK side (mergeWhileLoop side before current bi ci fuel).2.1 ∧
    areaSum (mergeWhileLoop side before current bi ci fuel).1 +
      areaSum (before.drop (mergeWhileLoop side before current bi ci fuel).2.2) +
      areaSum (mergeWhileLoop side before current bi ci fuel).2.1 =
    areaSum (before.drop bi) + areaSum current := by
  intro fuel
  induction fuel with
  | zero =>
    intro current bi ci hb hc
    unfold mergeWhileLoop
    exact ⟨fun f hf => absurd hf (List.not_mem_nil f), hc, by simp [areaSum]⟩
  | succ fuel ih =>
    intro current bi ci hb hc
    unfold mergeWhileLoop
    cases hgb : before.get? bi with
    | none =>
      dsimp only
      exact ⟨fun f hf => absurd hf (List.not_mem_nil f), hc, by simp [areaSum]⟩
    | some bf =>
      cases hgc : current.get? ci with
      | none =>
        dsimp only
        exact ⟨fun f hf => absurd hf (List.not_mem_nil f), hc, by simp [areaSum]⟩
      | some cf =>
        dsimp only
        obtain ⟨hbfWF, hbfs⟩ := facesOK_get hb bi bf hgb
        obtain ⟨hcfWF, hcfs⟩ := facesOK_get hc ci cf hgc
        cases hmerge : crossMergeOp side bf cf with
        | some merged =>
          dsimp only
          obtain ⟨hmWF, hms, hmarea⟩ :=
            crossMergeOp_spec side bf cf merged hbfs hcfs hbfWF hcfWF hmerge
          have hcur2 : FacesOK side (current.set ci merged) :=
            facesOK_set hc ci merged ⟨hmWF, hms⟩
          obtain ⟨ih1, ih2, ih3⟩ := ih (current.set ci merged) (bi + 1) (ci + 1) hb hcur2
          refine ⟨ih1, ih2, ?_⟩
          have hset := areaSum_set current ci merged cf hgc
          have hdrop : areaSum (before.drop bi) =
              faceArea bf + areaSum (before.drop (bi + 1)) := by
            rw [drop_cons_of_get before bi bf hgb, areaSum_cons]
          omega
        | none =>
          dsimp only
          by_cases heq : get_boundary_from_face bf true =
              get_boundary_from_face cf true
          · rw [if_pos heq]
            dsimp only
            obtain ⟨ih1, ih2, ih3⟩ := ih current (bi + 1) (ci + 1) hb hc
            refine ⟨?_, ih2, ?_⟩
            · intro f hf
              rcases List.mem_cons.mp hf with hf | hf
              · rw [hf]; exact ⟨hbfWF, hbfs⟩
              · exact ih1 f hf
            · rw [areaSum_cons]
              have hdrop : areaSum (before.drop bi) =
                  faceArea bf + areaSum (before.drop (bi + 1)) := by
                rw [drop_cons_of_get before bi bf hgb, areaSum_cons]
              omega
          · rw [if_neg heq]
            by_cases hlt : get_boundary_from_face bf true <
                get_boundary_from_face cf true
            · rw [if_pos hlt]
              dsimp only
              obtain ⟨hfb1, hfb2⟩ := flushBefore_decomp before
                (get_boundary_from_face cf true) (before.length - bi) bi
              obtain ⟨ih1, ih2, ih3⟩ := ih current
                (flushBeforeBelow before bi (get_boundary_from_face cf true)
                  (before.length - bi)).2 ci hb hc
              refine ⟨?_, ih2, ?_⟩
              · refine facesOK_append ?_ ih1
                intro f hf
                refine hb f ?_
                have : f ∈ (flushBeforeBelow before bi
                    (get_boundary_from_face cf true) (before.length - bi)).1 ++
                    before.drop (flushBeforeBelow before bi
                      (get_boundary_from_face cf true) (before.length - bi)).2 :=
                  List.mem_append.mpr (Or.inl hf)
                rw [hfb1] at this
                exact List.mem_of_mem_drop this
              · rw [areaSum_append]
                have harea : areaSum ((flushBeforeBelow before bi
                    (get_boundary_from_face cf true) (before.length - bi)).1) +
                    areaSum (before.drop ((flushBeforeBelow before bi
                      (get_boundary_from_face cf true) (before.length - bi)).2)) =
                    areaSum (before.drop bi) := by
                  rw [← areaSum_append, hfb1]
                omega
            · rw [if_neg hlt]
              by_cases hci : skipCurrentBelow current ci
                  (get_boundary_from_face bf true) (current.length - ci) =
                  current.length
              · rw [if_pos hci]
                dsimp only
                obtain ⟨ih1, ih2, ih3⟩ := ih current (bi + 1)
                  (skipCurrentBelow current ci (get_boundary_from_face bf true)
                    (current.length - ci)) hb hc
                refine ⟨?_, ih2, ?_⟩
                · intro f hf
                  rcases List.mem_cons.mp hf with hf | hf
                  · rw [hf]; exact ⟨hbfWF, hbfs⟩
                  · exact ih1 f hf
                · rw [areaSum_cons]
                  have hdrop : areaSum (before.drop bi) =
                      faceArea bf + areaSum (before.drop (bi + 1)) := by
                    rw [drop_cons_of_get before bi bf hgb, areaSum_cons]
                  omega
              · rw [if_neg hci]
                exact ih current bi
                  (skipCurrentBelow current ci (get_boundary_from_face bf true)
                    (current.length - ci)) hb hc

/-- One layer merge conserves total face area and well-formedness: the faces
flushed to the output plus the new before-layer cover exactly the area of the
old before-layer plus the current layer. -/
theorem greedyMergeLayer_spec (side : BlockSide) (before current : List Face)
    (hb : FacesOK side before) (hc : FacesOK side current) :
    FacesOK side (greedyMergeLayer side before current).1 ∧
    FacesOK side (greedyMergeLayer side before current).2 ∧
    areaSum (greedyMergeLayer side before current).1 +
      areaSum (greedyMergeLayer side before current).2 =
    areaSum before + areaSum current := by
  cases before with
  | nil =>
    refine ⟨?_, ?_, ?_⟩
    · show FacesOK side []
      exact fun f hf => absurd hf (List.not_mem_nil f)
    · show FacesOK side current
      exact hc
    · show areaSum [] + areaSum current = areaSum [] + areaSum current
      rfl
  | cons bf bt =>
    cases current with
    | nil =>
      refine ⟨?_, ?_, ?_⟩
      · show FacesOK side (bf :: bt)
        exact hb
      · show FacesOK side []
        exact fun f hf => absurd hf (List.not_mem_nil f)
      · show areaSum (bf :: bt) + areaSum [] = areaSum (bf :: bt) + areaSum []
        rfl
    | cons cf ct =>
      obtain ⟨h1, h2, h3⟩ := mergeWhileLoop_spec side (bf :: bt)
        ((bf :: bt).length + (cf :: ct).length + 1) (cf :: ct) 0 0 hb hc
      rw [List.drop_zero] at h3
      refine ⟨?_, ?_, ?_⟩
      · show FacesOK side ((mergeWhileLoop side (bf :: bt) (cf :: ct) 0 0
            ((bf :: bt).length + (cf :: ct).length + 1)).1 ++
            (bf :: bt).drop (mergeWhileLoop side (bf :: bt) (cf :: ct) 0 0
              ((bf :: bt).length + (cf :: ct).length + 1)).2.2)
        exact facesOK_append h1 (facesOK_drop hb _)
      · exact h2
      · show areaSum ((mergeWhileLoop side (bf :: bt) (cf :: ct) 0 0
            ((bf :: bt).length + (cf :: ct).length + 1)).1 ++
            (bf :: bt).drop (mergeWhileLoop side (bf :: bt) (cf :: ct) 0 0
              ((bf :: bt).length + (cf :: ct).length + 1)).2.2) +
          areaSum (mergeWhileLoop side (bf :: bt) (cf :: ct) 0 0
            ((bf :: bt).length + (cf :: ct).length + 1)).2.1 =
          areaSum (bf :: bt) + areaSum (cf :: ct)
        rw [areaSum_append]
        omega

/-- Auxiliary induction for the per-layer merge map: summed over all layer
indices, the flushed faces and the new before-layers cover exactly the area
of the old before-layers plus the current layers. -/
theorem rangeMergeFold (side : BlockSide) :
    ∀ (bs cs : List (List Face)), bs.length = cs.length →
    (∀ l ∈ bs, FacesOK side l) → (∀ l ∈ cs, FacesOK side l) →
    (∀ l ∈ ((List.range bs.length).map (fun i =>
        greedyMergeLayer side (bs.getD i []) (cs.getD i []))).map
        (fun r => r.2), FacesOK side l) ∧
    FacesOK side ((((List.range bs.length).map (fun i =>
        greedyMergeLayer side (bs.getD i []) (cs.getD i []))).map
        (fun r => r.1)).flatten) ∧
    areaSum ((((List.range bs.length).map (fun i =>
        greedyMergeLayer side (bs.getD i []) (cs.getD i []))).map
        (fun r => r.1)).flatten) +
      areaSum ((((List.range bs.length).map (fun i =>
        greedyMergeLayer side (bs.getD i []) (cs.getD i []))).map
        (fun r => r.2)).flatten) =
    areaSum bs.flatten + areaSum cs.flatten := by
  intro bs
  induction bs with
  | nil =>
    intro cs hlen hb hc
    have hcs : cs = [] := List.length_eq_zero.mp hlen.symm
    subst hcs
    refine ⟨?_, ?_, ?_⟩
    · intro l hl
      simp at hl
    · intro f hf
      simp at hf
    · simp [areaSum]
  | cons b bt ih =>
    intro cs hlen hb hc
    cases cs with
    | nil => exact absurd hlen (by simp)
    | cons c ct =>
      have hlen' : bt.length = ct.length := by
        simp only [List.length_cons] at hlen
        omega
      have hb' : ∀ l ∈ bt, FacesOK side l :=
        fun l hl => hb l (List.mem_cons_of_mem b hl)
      have hc' : ∀ l ∈ ct, FacesOK side l :=
        fun l hl => hc l (List.mem_cons_of_mem c hl)
      obtain ⟨ih1, ih2, ih3⟩ := ih ct hlen' hb' hc'
      simp only [List.map_map, Function.comp_def] at ih1 ih2 ih3
      obtain ⟨g1, g2, g3⟩ := greedyMergeLayer_spec side b c
        (hb b (List.mem_cons_self b bt)) (hc c (List.mem_cons_self c ct))
      rw [show (b :: bt).length = bt.length + 1 from rfl, List.range_succ_eq_map]
      simp only [List.map_cons, List.map_map, Function.comp_def,
        Nat.succ_eq_add_one, List.getD_cons_zero, List.getD_cons_succ,
        List.flatten_cons]
      refine ⟨?_, facesOK_append g1 ih2, ?_⟩
      · intro l hl
        rcases List.mem_cons.mp hl with hl | hl
        · rw [hl]; exact g2
        · exact ih1 l hl
      · rw [areaSum_append, areaSum_append, areaSum_append, areaSum_append]
        omega

/-- `greedy_merge_and_modify_vecs` conserves total face area: the flushed
faces plus the returned before-layers cover exactly the area of the old
before-layers plus the current layers, and all faces stay well-formed on the
given side. -/
theorem greedyMergeAndModifyVecs_spec (side : BlockSide)
    (current before : List (List Face))
    (hbl : before.length = CHUNK_DIMENSION)
    (hcl : current.length = CHUNK_DIMENSION)
    (hb : ∀ l ∈ before, FacesOK side l) (hc : ∀ l ∈ current, FacesOK side l) :
    (greedyMergeAndModifyVecs side current before).1.length = CHUNK_DIMENSION ∧
    (∀ l ∈ (greedyMergeAndModifyVecs side current before).1, FacesOK side l) ∧
    FacesOK side (greedyMergeAndModifyVecs side current before).2 ∧
    areaSum (greedyMergeAndModifyVecs side current before).2 +
      areaSum (greedyMergeAndModifyVecs side current before).1.flatten =
    areaSum before.flatten + areaSum current.flatten := by
  obtain ⟨ih1, ih2, ih3⟩ := rangeMergeFold side before current
    (hbl.trans hcl.symm) hb hc
  rw [hbl] at ih1 ih2 ih3
  unfold greedyMergeAndModifyVecs
  dsimp only
  refine ⟨?_, ih1, ih2, ?_⟩
  · simp
  · exact ih3

/-- Setting one layer changes the flattened area by the difference between
the new and old layer. -/
theorem areaSum_flatten_set (layers : List (List Face)) :
    ∀ (i : Nat) (nl : List Face), i < layers.length →
    areaSum ((layers.set i nl).flatten) + areaSum (layers.getD i []) =
    areaSum layers.flatten + areaSum nl := by
  induction layers with
  | nil =>
    intro i nl h
    simp at h
  | cons a t ih =>
    intro i nl h
    cases i with
    | zero =>
      rw [show (a :: t).set 0 nl = nl :: t from rfl,
        show (a :: t).getD 0 [] = a from rfl,
        List.flatten_cons, List.flatten_cons, areaSum_append, areaSum_append]
      omega
    | succ n =>
      have h' : n < t.length := by
        simp only [List.length_cons] at h
        omega
      rw [show (a :: t).set (n + 1) nl = a :: t.set n nl from rfl,
        show (a :: t).getD (n + 1) [] = t.getD n [] from rfl,
        List.flatten_cons, List.flatten_cons, areaSum_append, areaSum_append]
      have := ih n nl h'
      omega

/-- Flattening a list of per-side-tagged well-formed layers stays tagged and
well-formed. -/
theorem facesOK_flatten {s : BlockSide} {layers : List (List Face)}
    (h : ∀ l ∈ layers, FacesOK s l) : FacesOK s layers.flatten := by
  intro f hf
  obtain ⟨l, hl, hfl⟩ := List.mem_join.mp hf
  exact h l hl f hfl

/-- Pushing a fresh face into its layer (with the trailing in-layer merge)
increases the side's flattened area by exactly the face's area and keeps
every layer well-formed. -/
theorem pushFaceInLayer_spec (side : BlockSide) (layers : List (List Face))
    (oi : Nat) (sf : Face) (hlen : layers.length = CHUNK_DIMENSION)
    (hok : ∀ l ∈ layers, FacesOK side l) (hoi : oi < CHUNK_DIMENSION)
    (hsfWF : FaceWF sf) (hsfs : sf.block_side = side) :
    (pushFaceInLayer side layers oi sf).length = CHUNK_DIMENSION ∧
    (∀ l ∈ pushFaceInLayer side layers oi sf, FacesOK side l) ∧
    areaSum ((pushFaceInLayer side layers oi sf).flatten) =
      areaSum layers.flatten + faceArea sf := by
  have hoi' : oi < layers.length := by
    rw [hlen]
    exact hoi
  have hlayerOK : FacesOK side (layers.getD oi []) := by
    rw [List.getD_eq_getElem layers [] hoi']
    exact hok _ (List.getElem_mem hoi')
  have hsfOK : FacesOK side [sf] := by
    intro f hf
    rw [List.mem_singleton.mp hf]
    exact ⟨hsfWF, hsfs⟩
  have hflat := areaSum_flatten_set layers
  unfold pushFaceInLayer
  dsimp only
  cases hlast : (layers.getD oi []).getLast? with
  | none =>
    dsimp only
    refine ⟨by rw [List.length_set]; exact hlen, ?_, ?_⟩
    · intro l hl
      rcases List.mem_or_eq_of_mem_set hl with hl | hl
      · exact hok l hl
      · rw [hl]
        exact facesOK_append hlayerOK hsfOK
    · have := hflat oi (layers.getD oi [] ++ [sf]) hoi'
      rw [areaSum_append] at this
      have hone : areaSum [sf] = faceArea sf := by
        simp [areaSum]
      omega
  | some face =>
    dsimp only
    obtain ⟨hfWF, hfs⟩ := hlayerOK face (List.mem_of_mem_getLast? hlast)
    cases hmerge : inLayerMergeOp side face sf with
    | none =>
      dsimp only
      refine ⟨by rw [List.length_set]; exact hlen, ?_, ?_⟩
      · intro l hl
        rcases List.mem_or_eq_of_mem_set hl with hl | hl
        · exact hok l hl
        · rw [hl]
          exact facesOK_append hlayerOK hsfOK
      · have := hflat oi (layers.getD oi [] ++ [sf]) hoi'
        rw [areaSum_append] at this
        have hone : areaSum [sf] = faceArea sf := by
          simp [areaSum]
        omega
    | some merged =>
      dsimp only
      obtain ⟨hmWF, hms, hmarea⟩ :=
        inLayerMergeOp_spec side face sf merged hfs hsfs hfWF hsfWF hmerge
      have hsplit : areaSum ((layers.getD oi []).dropLast) + faceArea face =
          areaSum (layers.getD oi []) := by
        conv_rhs => rw [← List.dropLast_append_getLast? face hlast]
        rw [areaSum_append]
        simp [areaSum]
      refine ⟨by rw [List.length_set]; exact hlen, ?_, ?_⟩
      · intro l hl
        rcases List.mem_or_eq_of_mem_set hl with hl | hl
        · exact hok l hl
        · rw [hl]
          refine facesOK_append ?_ ?_
          · exact fun f hf => hlayerOK f (List.mem_of_mem_dropLast hf)
          · intro f hf
            rw [List.mem_singleton.mp hf]
            exact ⟨hmWF, hms⟩
      · have := hflat oi ((layers.getD oi []).dropLast ++ [merged]) hoi'
        rw [areaSum_append] at this
        have hone : areaSum [merged] = faceArea merged := by
          simp [areaSum]
        omega

/-- Structural invariant of the `greedy_sided` loop state: sixteen layers per
side, every layer tagged and well-formed for its side, and every already
flushed face well-formed. -/
def GSInv (st : GreedyState) : Prop :=
  (∀ s : BlockSide, (st.side_layers s).length = CHUNK_DIMENSION ∧
    (st.side_before_layers s).length = CHUNK_DIMENSION ∧
    (∀ l ∈ st.side_layers s, FacesOK s l) ∧
    (∀ l ∈ st.side_before_layers s, FacesOK s l)) ∧
  (∀ f ∈ st.faces_to_make, FaceWF f)

/-- Total face area held by the state for one side: flushed faces of that
side plus both layer stores. -/
def stArea (st : GreedyState) (s : BlockSide) : Nat :=
  areaSum ((st.faces_to_make).filter (fun f => f.block_side = s)) +
  areaSum ((st.side_before_layers s).flatten) +
  areaSum ((st.side_layers s).flatten)

/-- Flushing one side through the cross-layer merge preserves the invariant
and the per-side area of the state. -/
theorem flushSide_spec (st : GreedyState) (side : BlockSide) (hinv : GSInv st) :
    GSInv (flushSide st side) ∧ ∀ s, stArea (flushSide st side) s = stArea st s := by
  obtain ⟨hsides, hftm⟩ := hinv
  obtain ⟨hll, hbl, hlok, hbok⟩ := hsides side
  obtain ⟨hrlen, hr1ok, hr2ok, hrarea⟩ :=
    greedyMergeAndModifyVecs_spec side (st.side_layers side)
      (st.side_before_layers side) hbl hll hbok hlok
  unfold flushSide GSInv stArea
  dsimp only
  constructor
  · constructor
    · intro s
      by_cases hs : s = side
      · subst hs
        rw [if_pos rfl, if_pos rfl]
        refine ⟨List.length_replicate _ _, hrlen, ?_, hr1ok⟩
        intro l hl
        rw [List.eq_of_mem_replicate hl]
        exact fun f hf => absurd hf (List.not_mem_nil f)
      · rw [if_neg hs, if_neg hs]
        exact hsides s
    · intro f hf
      rcases List.mem_append.mp hf with hf | hf
      · exact hftm f hf
      · exact (hr2ok f hf).1
  · intro s
    rw [List.filter_append, areaSum_append]
    by_cases hs : s = side
    · subst hs
      rw [if_pos rfl, if_pos rfl]
      have hkeep : ((greedyMergeAndModifyVecs s (st.side_layers s)
          (st.side_before_layers s)).2).filter (fun f => f.block_side = s) =
          (greedyMergeAndModifyVecs s (st.side_layers s)
            (st.side_before_layers s)).2 :=
        List.filter_eq_self.mpr (fun f hf => by simp [(hr2ok f hf).2])
      rw [hkeep, List.flatten_replicate_nil]
      have hz : areaSum ([] : List Face) = 0 := rfl
      omega
    · rw [if_neg hs, if_neg hs]
      have hdrop : ((greedyMergeAndModifyVecs side (st.side_layers side)
          (st.side_before_layers side)).2).filter (fun f => f.block_side = s) = [] :=
        List.filter_eq_nil_iff.mpr (fun f hf => by
          simp [(hr2ok f hf).2]
          exact fun hc => hs hc.symm)
      rw [hdrop]
      have hz : areaSum ([] : List Face) = 0 := rfl
      omega

/-- The conditional flush preserves the invariant and the per-side area. -/
theorem flushSideIf_spec (sides : List BlockSide) (st : GreedyState)
    (side : BlockSide) (hinv : GSInv st) :
    GSInv (flushSideIf sides st side) ∧
    ∀ s, stArea (flushSideIf sides st side) s = stArea st s := by
  unfold flushSideIf
  by_cases hmem : side ∈ sides
  · rw [if_pos hmem]
    exact flushSide_spec st side hinv
  · rw [if_neg hmem]
    exact ⟨hinv, fun s => rfl⟩

/-- The layer index of a face is in range when the cell coordinates are. -/
theorem orientationIndex_lt (side : BlockSide) (x y z : Nat)
    (hx : x < CHUNK_DIMENSION) (hy : y < CHUNK_DIMENSION)
    (hz : z < CHUNK_DIMENSION) :
    orientationIndex side x y z < CHUNK_DIMENSION := by
  cases side
  · exact hx
  · exact hx
  · exact hy
  · exact hy
  · exact hz
  · exact hz

/-- Folding a per-side step that adds area one exactly when its side passes
the predicate: over a duplicate-free side list, each side's area grows by
its own indicator. -/
theorem gsFold_spec (F : GreedyState → BlockSide → GreedyState)
    (cond : BlockSide → Prop) [DecidablePred cond]
    (hstep : ∀ st side, GSInv st → GSInv (F st side) ∧
      ∀ s, stArea (F st side) s =
        stArea st s + (if s = side ∧ cond side then 1 else 0)) :
    ∀ (rest : List BlockSide) (st : GreedyState), rest.Nodup → GSInv st →
    GSInv (rest.foldl F st) ∧
    ∀ s, stArea (rest.foldl F st) s =
      stArea st s + (if s ∈ rest ∧ cond s then 1 else 0) := by
  intro rest
  induction rest with
  | nil =>
    intro st _ hinv
    refine ⟨hinv, fun s => ?_⟩
    rw [if_neg (fun h => (List.not_mem_nil s) h.1), List.foldl_nil]
    omega
  | cons side rest ih =>
    intro st hnd hinv
    obtain ⟨hnmem, hnd2⟩ := List.nodup_cons.mp hnd
    obtain ⟨hst1, hst2⟩ := hstep st side hinv
    obtain ⟨ih1, ih2⟩ := ih (F st side) hnd2 hst1
    rw [List.foldl_cons]
    refine ⟨ih1, fun s => ?_⟩
    rw [ih2 s, hst2 s]
    by_cases hss : s = side
    · subst hss
      by_cases hcond : cond s
      · rw [if_pos ⟨rfl, hcond⟩, if_neg (fun h => hnmem h.1),
          if_pos ⟨List.mem_cons_self s rest, hcond⟩]
      · rw [if_neg (fun h => hcond h.2), if_neg (fun h => hcond h.2),
          if_neg (fun h => hcond h.2)]
    · by_cases hmem : s ∈ rest
      · by_cases hcond : cond s
        · rw [if_neg (fun h => hss h.1), if_pos ⟨hmem, hcond⟩,
            if_pos ⟨List.mem_cons_of_mem side hmem, hcond⟩]
        · rw [if_neg (fun h => hss h.1), if_neg (fun h => hcond h.2),
            if_neg (fun h => hcond h.2)]
      · rw [if_neg (fun h => hss h.1), if_neg (fun h => hmem h.1),
          if_neg (fun h => (List.mem_cons.mp h.1).elim hss hmem)]

/-- The per-side body of the `for side in sides` loop of one `greedy_sided`
iteration: emit and push a face when the neighbor on that side is empty. -/
def greedySideStep (chunk : Chunk) (i j k bt : Nat)
    (st : GreedyState) (side : BlockSide) : GreedyState :=
  if ¬ chunk.generate_adjacent_blocks i j k side then
    let side_face := Face.new i j k bt side
    let oi := orientationIndex side i j k
    { st with side_layers := fun s =>
        if s = side then pushFaceInLayer side (st.side_layers side) oi side_face
        else st.side_layers s }
  else st

/-- The y-crossing flush prefix of one `greedy_sided` iteration. -/
def flushY (sides : List BlockSide) (st : GreedyState) (j : Nat) : GreedyState :=
  if st.current_y < j then
    flushSideIf sides (flushSideIf sides st .LEFT) .RIGHT
  else st

/-- The z-crossing flush prefix of one `greedy_sided` iteration. -/
def flushZ (sides : List BlockSide) (st : GreedyState) (k : Nat) : GreedyState :=
  if st.current_z < k then
    flushSideIf sides
      (flushSideIf sides (flushSideIf sides (flushSideIf sides st .FRONT) .BACK) .TOP)
      .BOTTOM
  else st

/-- `processBlock` decomposed into its named phases. -/
theorem processBlock_eq (chunk : Chunk) (sides : List BlockSide)
    (st : GreedyState) (pb : Point3n × Block) :
    processBlock chunk sides st pb =
      sides.foldl (greedySideStep chunk pb.1.x pb.1.y pb.1.z pb.2.block_type)
        { flushZ sides (flushY sides st pb.1.y) pb.1.z with
          current_y := pb.1.y, current_z := pb.1.z } := rfl

/-- The y-crossing flush preserves the invariant and the per-side areas. -/
theorem flushY_spec (sides : List BlockSide) (st : GreedyState) (j : Nat)
    (hinv : GSInv st) :
    GSInv (flushY sides st j) ∧ ∀ s, stArea (flushY sides st j) s = stArea st s := by
  unfold flushY
  by_cases hc : st.current_y < j
  · rw [if_pos hc]
    obtain ⟨ha, hb⟩ := flushSideIf_spec sides st .LEFT hinv
    obtain ⟨hc2, hd⟩ := flushSideIf_spec sides _ .RIGHT ha
    exact ⟨hc2, fun s => (hd s).trans (hb s)⟩
  · rw [if_neg hc]
    exact ⟨hinv, fun s => rfl⟩

/-- The z-crossing flush preserves the invariant and the per-side areas. -/
theorem flushZ_spec (sides : List BlockSide) (st : GreedyState) (k : Nat)
    (hinv : GSInv st) :
    GSInv (flushZ sides st k) ∧ ∀ s, stArea (flushZ sides st k) s = stArea st s := by
  unfold flushZ
  by_cases hc : st.current_z < k
  · rw [if_pos hc]
    obtain ⟨ha, hb⟩ := flushSideIf_spec sides st .FRONT hinv
    obtain ⟨ha2, hb2⟩ := flushSideIf_spec sides _ .BACK ha
    obtain ⟨ha3, hb3⟩ := flushSideIf_spec sides _ .TOP ha2
    obtain ⟨ha4, hb4⟩ := flushSideIf_spec sides _ .BOTTOM ha3
    exact ⟨ha4, fun s => (((hb4 s).trans (hb3 s)).trans (hb2 s)).trans (hb s)⟩
  · rw [if_neg hc]
    exact ⟨hinv, fun s => rfl⟩

/-- One side-step of the face emission loop: preserves the invariant and adds
exactly area one to the stepped side when its neighbor cell is empty. -/
theorem greedySideStep_spec (chunk : Chunk) (i j k bt : Nat)
    (hi : i < CHUNK_DIMENSION) (hj : j < CHUNK_DIMENSION)
    (hk : k < CHUNK_DIMENSION) (st0 : GreedyState) (side : BlockSide)
    (hinv0 : GSInv st0) :
    GSInv (greedySideStep chunk i j k bt st0 side) ∧
    ∀ s, stArea (greedySideStep chunk i j k bt st0 side) s =
      stArea st0 s + (if s = side ∧
        chunk.generate_adjacent_blocks i j k side = false then 1 else 0) := by
  unfold greedySideStep
  by_cases hadj : chunk.generate_adjacent_blocks i j k side = true
  · rw [if_neg (not_not_intro hadj)]
    refine ⟨hinv0, fun s => ?_⟩
    rw [if_neg (fun h => by rw [h.2] at hadj; exact absurd hadj (by decide))]
    omega
  · have hfalse : chunk.generate_adjacent_blocks i j k side = false := by
      revert hadj
      cases chunk.generate_adjacent_blocks i j k side
      · intro _
        rfl
      · intro h
        exact absurd rfl h
    rw [if_pos hadj]
    dsimp only
    obtain ⟨hsides0, hftm0⟩ := hinv0
    obtain ⟨hll, hbl, hlok, hbok⟩ := hsides0 side
    obtain ⟨hplen, hpok, hparea⟩ := pushFaceInLayer_spec side (st0.side_layers side)
      (orientationIndex side i j k) (Face.new i j k bt side) hll hlok
      (orientationIndex_lt side i j k hi hj hk)
      (faceWF_new _ _ _ _ _) (faceSide_new _ _ _ _ _)
    constructor
    · refine ⟨fun s => ?_, hftm0⟩
      dsimp only
      by_cases hs : s = side
      · subst hs
        rw [if_pos rfl]
        exact ⟨hplen, hbl, hpok, hbok⟩
      · rw [if_neg hs]
        exact hsides0 s
    · intro s
      unfold stArea
      dsimp only
      by_cases hs : s = side
      · subst hs
        rw [if_pos rfl, hparea, faceArea_new, if_pos ⟨rfl, hfalse⟩]
        omega
      · rw [if_neg hs, if_neg (fun h => hs h.1)]
        omega

/-- One `while let` iteration of `greedy_sided` preserves the state invariant
and adds, per requested side, exactly area one when the neighbor on that side
is empty. -/
theorem processBlock_spec (chunk : Chunk) (sides : List BlockSide)
    (st : GreedyState) (pb : Point3n × Block)
    (hnd : sides.Nodup) (hinv : GSInv st)
    (hx : pb.1.x < CHUNK_DIMENSION) (hy : pb.1.y < CHUNK_DIMENSION)
    (hz : pb.1.z < CHUNK_DIMENSION) :
    GSInv (processBlock chunk sides st pb) ∧
    ∀ s, stArea (processBlock chunk sides st pb) s =
      stArea st s + (if s ∈ sides ∧
        chunk.generate_adjacent_blocks pb.1.x pb.1.y pb.1.z s = false
        then 1 else 0) := by
  rw [processBlock_eq]
  obtain ⟨h1inv, h1area⟩ := flushY_spec sides st pb.1.y hinv
  obtain ⟨h2inv, h2area⟩ := flushZ_spec sides (flushY sides st pb.1.y) pb.1.z h1inv
  have h3inv : GSInv { flushZ sides (flushY sides st pb.1.y) pb.1.z with
      current_y := pb.1.y, current_z := pb.1.z } := h2inv
  obtain ⟨hfinv, hfarea⟩ := gsFold_spec
    (greedySideStep chunk pb.1.x pb.1.y pb.1.z pb.2.block_type)
    (fun side => chunk.generate_adjacent_blocks pb.1.x pb.1.y pb.1.z side = false)
    (fun st0 side hinv0 =>
      greedySideStep_spec chunk pb.1.x pb.1.y pb.1.z pb.2.block_type
        hx hy hz st0 side hinv0)
    sides { flushZ sides (flushY sides st pb.1.y) pb.1.z with
      current_y := pb.1.y, current_z := pb.1.z } hnd h3inv
  refine ⟨hfinv, fun s => ?_⟩
  rw [hfarea s]
  have hsame : stArea { flushZ sides (flushY sides st pb.1.y) pb.1.z with
      current_y := pb.1.y, current_z := pb.1.z } s =
      stArea (flushZ sides (flushY sides st pb.1.y) pb.1.z) s := rfl
  rw [hsame, h2area s, h1area s]

/-- `areaSum` of the empty list. -/
theorem areaSum_nil : areaSum ([] : List Face) = 0 := rfl

/-- The main `greedy_sided` loop over the yielded blocks: per requested side,
the state's area grows by the number of yielded cells with an empty neighbor
on that side. -/
theorem greedyFold_spec (chunk : Chunk) (sides : List BlockSide)
    (hnd : sides.Nodup) :
    ∀ (blocks : List (Point3n × Block)) (st : GreedyState),
    (∀ pb ∈ blocks, pb.1.x < CHUNK_DIMENSION ∧ pb.1.y < CHUNK_DIMENSION ∧
      pb.1.z < CHUNK_DIMENSION) → GSInv st →
    GSInv (blocks.foldl (processBlock chunk sides) st) ∧
    ∀ s, stArea (blocks.foldl (processBlock chunk sides) st) s =
      stArea st s + (if s ∈ sides then
        (blocks.filter (fun pb =>
          chunk.generate_adjacent_blocks pb.1.x pb.1.y pb.1.z s = false)).length
        else 0) := by
  intro blocks
  induction blocks with
  | nil =>
    intro st _ hinv
    refine ⟨hinv, fun s => ?_⟩
    rw [List.foldl_nil]
    by_cases hs : s ∈ sides
    · rw [if_pos hs, List.filter_nil, List.length_nil]
      omega
    · rw [if_neg hs]
      omega
  | cons pb blocks ih =>
    intro st hcoords hinv
    obtain ⟨hx, hy, hz⟩ := hcoords pb (List.mem_cons_self pb blocks)
    obtain ⟨hpinv, hparea⟩ := processBlock_spec chunk sides st pb hnd hinv hx hy hz
    obtain ⟨ih1, ih2⟩ := ih (processBlock chunk sides st pb)
      (fun q hq => hcoords q (List.mem_cons_of_mem pb hq)) hpinv
    rw [List.foldl_cons]
    refine ⟨ih1, fun s => ?_⟩
    rw [ih2 s, hparea s]
    by_cases hs : s ∈ sides
    · rw [if_pos hs, if_pos hs]
      by_cases hadj : chunk.generate_adjacent_blocks pb.1.x pb.1.y pb.1.z s = false
      · rw [if_pos ⟨hs, hadj⟩, List.filter_cons_of_pos (by simp [hadj]),
          List.length_cons]
        omega
      · rw [if_neg (fun h => hadj h.2), List.filter_cons_of_neg (by simp [hadj])]
        omega
    · rw [if_neg hs, if_neg hs, if_neg (fun h => hs h.1)]

/-- The initial greedy state satisfies the invariant. -/
theorem gsinv_init : GSInv GreedyState.init := by
  unfold GSInv GreedyState.init
  refine ⟨fun s => ⟨List.length_replicate _ _, List.length_replicate _ _, ?_, ?_⟩, ?_⟩
  · intro l hl
    rw [List.eq_of_mem_replicate hl]
    exact fun f hf => absurd hf (List.not_mem_nil f)
  · intro l hl
    rw [List.eq_of_mem_replicate hl]
    exact fun f hf => absurd hf (List.not_mem_nil f)
  · intro f hf
    exact absurd hf (List.not_mem_nil f)

/-- The initial greedy state holds zero area on every side. -/
theorem stArea_init (s : BlockSide) : stArea GreedyState.init s = 0 := by
  unfold stArea GreedyState.init
  dsimp only
  rw [List.filter_nil, List.flatten_replicate_nil]
  rfl

/-- Filtering a side-tagged face list by a side keeps all or nothing. -/
theorem filterArea_tagged (t s : BlockSide) (l : List Face) (h : FacesOK t l) :
    areaSum (l.filter (fun f => f.block_side = s)) =
      if t = s then areaSum l else 0 := by
  by_cases hts : t = s
  · rw [if_pos hts, List.filter_eq_self.mpr (fun f hf => by simp [(h f hf).2, hts])]
  · rw [if_neg hts, List.filter_eq_nil_iff.mpr (fun f hf => by
      simp only [(h f hf).2, decide_eq_true_eq]
      exact hts)]
    rfl

/-- The faces emitted at the end of `greedy_sided` (flushed faces plus the
drained layers), restricted to one side, cover exactly that side's state
area. -/
theorem greedyFinal_area (st : GreedyState) (hinv : GSInv st) (s : BlockSide) :
    areaSum ((st.faces_to_make ++
        (BlockSide.all.map (fun s2 =>
          (st.side_before_layers s2).flatten ++ (st.side_layers s2).flatten)).flatten).filter
        (fun f => f.block_side = s)) = stArea st s := by
  obtain ⟨hsides, hftm⟩ := hinv
  have hB : ∀ t : BlockSide, areaSum (((st.side_before_layers t).flatten).filter
      (fun f => f.block_side = s)) =
      if t = s then areaSum ((st.side_before_layers t).flatten) else 0 :=
    fun t => filterArea_tagged t s _ (facesOK_flatten (hsides t).2.2.2)
  have hL : ∀ t : BlockSide, areaSum (((st.side_layers t).flatten).filter
      (fun f => f.block_side = s)) =
      if t = s then areaSum ((st.side_layers t).flatten) else 0 :=
    fun t => filterArea_tagged t s _ (facesOK_flatten (hsides t).2.2.1)
  unfold stArea
  rw [show BlockSide.all = [BlockSide.FRONT, BlockSide.BACK, BlockSide.BOTTOM,
    BlockSide.TOP, BlockSide.LEFT, BlockSide.RIGHT] from rfl]
  simp only [List.map_cons, List.map_nil, List.flatten_cons, List.flatten_nil,
    List.append_nil, List.filter_append, areaSum_append]
  rw [hB .FRONT, hB .BACK, hB .BOTTOM, hB .TOP, hB .LEFT, hB .RIGHT,
    hL .FRONT, hL .BACK, hL .BOTTOM, hL .TOP, hL .LEFT, hL .RIGHT]
  cases s <;> simp <;> omega

/-- Per-side area of the full greedy face stream: equal to the number of
yielded solid cells whose neighbor cell on that side is empty. -/
theorem greedyFaces_area (chunk : Chunk) (sides : List BlockSide) (s : BlockSide)
    (hcoords : ∀ pb ∈ chunk.blockList, pb.1.x < CHUNK_DIMENSION ∧
      pb.1.y < CHUNK_DIMENSION ∧ pb.1.z < CHUNK_DIMENSION)
    (hnd : sides.Nodup) (hs : s ∈ sides) :
    areaSum ((greedyFaces chunk sides).filter (fun f => f.block_side = s)) =
      ((chunk.blockList).filter (fun pb =>
        chunk.generate_adjacent_blocks pb.1.x pb.1.y pb.1.z s = false)).length := by
  unfold greedyFaces
  dsimp only
  obtain ⟨h0inv, h0area⟩ := greedyFold_spec chunk sides hnd chunk.blockList
    GreedyState.init hcoords gsinv_init
  obtain ⟨h1inv, h1area⟩ := flushSideIf_spec sides _ BlockSide.FRONT h0inv
  obtain ⟨h2inv, h2area⟩ := flushSideIf_spec sides _ BlockSide.BACK h1inv
  obtain ⟨h3inv, h3area⟩ := flushSideIf_spec sides _ BlockSide.LEFT h2inv
  obtain ⟨h4inv, h4area⟩ := flushSideIf_spec sides _ BlockSide.RIGHT h3inv
  obtain ⟨h5inv, h5area⟩ := flushSideIf_spec sides _ BlockSide.TOP h4inv
  obtain ⟨h6inv, h6area⟩ := flushSideIf_spec sides _ BlockSide.BOTTOM h5inv
  rw [greedyFinal_area _ h6inv s, h6area s, h5area s, h4area s, h3area s,
    h2area s, h1area s, h0area s, stArea_init, if_pos hs]
  omega

/-- The block iterator output of a bitset-built chunk, as a filterMap over
the cell indices in scan order. -/
theorem blockList_chunkFromBlockTypes (pos : Point3i) (bts : List BlockType)
    (hlen : bts.length = CHUNK_SIZE) :
    (chunkFromBlockTypes pos bts).blockList =
      (List.range CHUNK_SIZE).filterMap (fun n => if solidBit bts n then
        some ((⟨n % CHUNK_DIMENSION, n / CHUNK_DIMENSION % CHUNK_DIMENSION,
          n / CHUNK_PLANE_SIZE⟩ : Point3n), Block.new (bts.getD n BlockType.AIR))
        else none) := by
  obtain ⟨hsa, hblocks⟩ := chunkFromBlockTypes_closed pos bts hlen
  rw [blockList_eq_scanOrder _ bts hsa hblocks hlen,
    scanOrder_eq_filterMap bts 4096 0, show CHUNK_SIZE = 4096 from rfl,
    List.range_eq_range']

/-- Every cell yielded by the iterator of a bitset-built chunk has in-range
coordinates. -/
theorem blockList_coords_lt (pos : Point3i) (bts : List BlockType)
    (hlen : bts.length = CHUNK_SIZE) :
    ∀ pb ∈ (chunkFromBlockTypes pos bts).blockList,
      pb.1.x < CHUNK_DIMENSION ∧ pb.1.y < CHUNK_DIMENSION ∧
      pb.1.z < CHUNK_DIMENSION := by
  intro pb hpb
  rw [blockList_chunkFromBlockTypes pos bts hlen] at hpb
  obtain ⟨n, hn, hf⟩ := List.mem_filterMap.mp hpb
  have hn' : n < 4096 := by
    have h := List.mem_range.mp hn
    rw [show CHUNK_SIZE = 4096 from rfl] at h
    exact h
  by_cases hsolid : solidBit bts n = true
  · rw [if_pos hsolid] at hf
    have hx : pb = ((⟨n % CHUNK_DIMENSION, n / CHUNK_DIMENSION % CHUNK_DIMENSION,
        n / CHUNK_PLANE_SIZE⟩ : Point3n), Block.new (bts.getD n BlockType.AIR)) :=
      (Option.some.inj hf).symm
    subst hx
    refine ⟨?_, ?_, ?_⟩ <;> dsimp only <;>
      simp only [show CHUNK_DIMENSION = 16 from rfl,
        show CHUNK_PLANE_SIZE = 256 from rfl] <;> omega
  · rw [if_neg hsolid] at hf
    exact absurd hf (by simp)

/-- The unit faces of a cell list all have area one, so their total area is
the number of cells. -/
theorem areaSum_unit_faces (s : BlockSide) (l : List (Point3n × Block)) :
    areaSum (l.map (fun pb => Face.new pb.1.x pb.1.y pb.1.z pb.2.block_type s)) =
      l.length := by
  induction l with
  | nil => rfl
  | cons a t ih =>
    rw [List.map_cons, areaSum_cons, faceArea_new, ih, List.length_cons]
    omega

/-- **C3**: For every chunk (coordinates in range, requested sides without
duplicates) and every requested side, the unit faces the mesher would emit
are exactly one per solid cell whose neighbor on that side is empty (their
total area equals the count of such cells), and the merged quads produced by
`greedy_sided` for that side cover exactly the same total area — merging
never changes total covered area.  The second conjunct instantiates this for
every chunk built from a full list of block types, whose iterator output
automatically has in-range coordinates. -/
theorem greedy_unit_faces_and_area_conserved :
    (∀ (chunk : Chunk) (sides : List BlockSide) (s : BlockSide),
      (∀ pb ∈ chunk.blockList, pb.1.x < CHUNK_DIMENSION ∧
        pb.1.y < CHUNK_DIMENSION ∧ pb.1.z < CHUNK_DIMENSION) →
      sides.Nodup → s ∈ sides →
      areaSum (((chunk.blockList).filter (fun pb =>
          chunk.generate_adjacent_blocks pb.1.x pb.1.y pb.1.z s = false)).map
          (fun pb => Face.new pb.1.x pb.1.y pb.1.z pb.2.block_type s)) =
        ((chunk.blockList).filter (fun pb =>
          chunk.generate_adjacent_blocks pb.1.x pb.1.y pb.1.z s = false)).length ∧
      areaSum ((greedyFaces chunk sides).filter (fun f => f.block_side = s)) =
        ((chunk.blockList).filter (fun pb =>
          chunk.generate_adjacent_blocks pb.1.x pb.1.y pb.1.z s = false)).length) ∧
    (∀ (pos : Point3i) (bts : List BlockType), bts.length = CHUNK_SIZE →
      ∀ (sides : List BlockSide) (s : BlockSide), sides.Nodup → s ∈ sides →
      areaSum ((greedyFaces (chunkFromBlockTypes pos bts) sides).filter
          (fun f => f.block_side = s)) =
        (((chunkFromBlockTypes pos bts).blockList).filter (fun pb =>
          (chunkFromBlockTypes pos bts).generate_adjacent_blocks
            pb.1.x pb.1.y pb.1.z s = false)).length) := by
  constructor
  · intro chunk sides s hcoords hnd hs
    exact ⟨areaSum_unit_faces s _, greedyFaces_area chunk sides s hcoords hnd hs⟩
  · intro pos bts hlen sides s hnd hs
    exact greedyFaces_area _ sides s (blockList_coords_lt pos bts hlen) hnd hs

/-- Witness for C3: the all-air chunk with the single requested side FRONT. -/
theorem greedy_unit_faces_witness :
    ((List.replicate CHUNK_SIZE BlockType.AIR).length = CHUNK_SIZE ∧
      [BlockSide.FRONT].Nodup ∧ BlockSide.FRONT ∈ [BlockSide.FRONT]) ∧
    areaSum ((greedyFaces (chunkFromBlockTypes ⟨0, 0, 0⟩
        (List.replicate CHUNK_SIZE BlockType.AIR)) [BlockSide.FRONT]).filter
        (fun f => f.block_side = BlockSide.FRONT)) =
      (((chunkFromBlockTypes ⟨0, 0, 0⟩
          (List.replicate CHUNK_SIZE BlockType.AIR)).blockList).filter (fun pb =>
        (chunkFromBlockTypes ⟨0, 0, 0⟩ (List.replicate CHUNK_SIZE
          BlockType.AIR)).generate_adjacent_blocks pb.1.x pb.1.y pb.1.z
          BlockSide.FRONT = false)).length :=
  ⟨⟨List.length_replicate _ _, List.nodup_singleton _, List.mem_singleton.mpr rfl⟩,
    greedy_unit_faces_and_area_conserved.2 ⟨0, 0, 0⟩ _
      (List.length_replicate _ _) [BlockSide.FRONT] BlockSide.FRONT
      (List.nodup_singleton _) (List.mem_singleton.mpr rfl)⟩
